import Mathlib

/-! # PurpLexer: a shallow embedding of the matching engine

Go strings are byte sequences; they are modelled as lists of byte values.
The cursor `*str` that the Go code mutates in place is threaded through the
results (`rest`).  The mutual recursion `lexString → matchTerm → parseToken →
lexString` is driven by a fuel argument that is spent each time a rule
reference is expanded; `none` means the fuel ran out.
-/

namespace PurpLexer

/-- A Go `string`: a sequence of bytes. -/
abbrev Str := List Nat

/-- The bytes of an ASCII string literal. -/
def ascii (s : String) : Str := s.data.map Char.toNat

/-! ## The parts of the Go standard library the engine uses -/

/-- The rune `utf8.RuneError` (U+FFFD). -/
def RuneError : Nat := 0xFFFD

/-- The continuation bytes `locb..hicb` of UTF-8. -/
def isCont (b : Nat) : Bool := 0x80 ≤ b ∧ b ≤ 0xBF

/-- The `acceptRanges` entry of the lead byte `s0`: whether `s1` may follow it. -/
def accepts (s0 s1 : Nat) : Bool :=
  (if s0 = 0xE0 then 0xA0 else if s0 = 0xF0 then 0x90 else 0x80) ≤ s1 ∧
    s1 ≤ (if s0 = 0xED then 0x9F else if s0 = 0xF4 then 0x8F else 0xBF)

/-- Go `utf8.DecodeRuneInString`: the first rune of `s` and its width in bytes.
An empty string gives `(RuneError, 0)`, an invalid or truncated encoding gives
`(RuneError, 1)`.  Masks and shifts are written with `%` and `*`. -/
def DecodeRuneInString (s : Str) : Nat × Nat :=
  match s with
  | [] => (RuneError, 0)
  | s0 :: t =>
    if s0 < 0x80 then (s0, 1)
    else if s0 < 0xC2 ∨ 0xF4 < s0 then (RuneError, 1)
    else if s0 < 0xE0 then
      match t with
      | s1 :: _ =>
        if accepts s0 s1 then ((s0 % 32) * 64 + s1 % 64, 2) else (RuneError, 1)
      | _ => (RuneError, 1)
    else if s0 < 0xF0 then
      match t with
      | s1 :: s2 :: _ =>
        if accepts s0 s1 ∧ isCont s2 then ((s0 % 16) * 4096 + (s1 % 64) * 64 + s2 % 64, 3)
        else (RuneError, 1)
      | _ => (RuneError, 1)
    else
      match t with
      | s1 :: s2 :: s3 :: _ =>
        if accepts s0 s1 ∧ isCont s2 ∧ isCont s3 then
          ((s0 % 8) * 262144 + (s1 % 64) * 4096 + (s2 % 64) * 64 + s3 % 64, 4)
        else (RuneError, 1)
      | _ => (RuneError, 1)

/-- Go `string(r)` for a rune `r`: its UTF-8 encoding; surrogates and values
beyond U+10FFFF encode as U+FFFD. -/
def encodeRune (r : Nat) : Str :=
  if r < 0x80 then [r]
  else if r < 0x800 then [0xC0 + r / 64, 0x80 + r % 64]
  else if (0xD800 ≤ r ∧ r ≤ 0xDFFF) ∨ 0x10FFFF < r then [0xEF, 0xBF, 0xBD]
  else if r < 0x10000 then [0xE0 + r / 4096, 0x80 + (r / 64) % 64, 0x80 + r % 64]
  else [0xF0 + r / 262144, 0x80 + (r / 4096) % 64, 0x80 + (r / 64) % 64, 0x80 + r % 64]

/-- Go `unicode.IsSpace`: the Latin-1 white space and the code points with the
Unicode `White_Space` property. -/
def IsSpace (r : Nat) : Bool :=
  if r ≤ 0xFF then
    r = 0x09 ∨ r = 0x0A ∨ r = 0x0B ∨ r = 0x0C ∨ r = 0x0D ∨ r = 0x20 ∨ r = 0x85 ∨ r = 0xA0
  else
    r = 0x1680 ∨ (0x2000 ≤ r ∧ r ≤ 0x200A) ∨ r = 0x2028 ∨ r = 0x2029 ∨ r = 0x202F
      ∨ r = 0x205F ∨ r = 0x3000

/-- The range tables `unicode.Letter` and `unicode.Digit` above Latin-1.  They
belong to the Go distribution, not to the repository, and change with the
Unicode version, so they are a parameter of the embedding. -/
structure UnicodeTables where
  /-- Membership of a code point above U+00FF in `unicode.Letter`. -/
  letter : Nat → Bool
  /-- Membership of a code point above U+00FF in `unicode.Digit`. -/
  digit : Nat → Bool

/-- Go `unicode.IsLetter`: the Latin-1 letters, the tables above. -/
def IsLetter (U : UnicodeTables) (r : Nat) : Bool :=
  if r ≤ 0xFF then
    (0x41 ≤ r ∧ r ≤ 0x5A) ∨ (0x61 ≤ r ∧ r ≤ 0x7A) ∨ r = 0xAA ∨ r = 0xB5 ∨ r = 0xBA
      ∨ (0xC0 ≤ r ∧ r ≤ 0xD6) ∨ (0xD8 ≤ r ∧ r ≤ 0xF6) ∨ (0xF8 ≤ r ∧ r ≤ 0xFF)
  else U.letter r

/-- Go `unicode.IsDigit`: `'0'..'9'` in Latin-1, the tables above. -/
def IsDigit (U : UnicodeTables) (r : Nat) : Bool :=
  if r ≤ 0xFF then 0x30 ≤ r ∧ r ≤ 0x39 else U.digit r

/-- Go `strings.HasPrefix(s, p)`. -/
def HasPrefix (s p : Str) : Bool := p.isPrefixOf s

/-- Removal of the leading white space rune by rune, as `strings.TrimSpace`
does on the left (each rune removed with its full width). -/
def trimLeftSpace : Nat → Str → Str
  | 0, s => s
  | fuel + 1, s =>
    if s ≠ [] ∧ IsSpace (DecodeRuneInString s).1 then
      trimLeftSpace fuel (s.drop (DecodeRuneInString s).2)
    else s

/-- The test `strings.TrimSpace(s) == ""`: `TrimSpace` removes leading and
trailing white space runes, and what it returns is empty exactly when nothing
is left after the leading white space. -/
def trimSpaceIsEmpty (s : Str) : Bool := trimLeftSpace s.length s == []

/-- Go `strings.Index(s, sep)`: the first offset at which `sep` occurs. -/
def Index (s sep : Str) : Option Nat :=
  if HasPrefix s sep then some 0
  else
    match s with
    | [] => none
    | _ :: t => (Index t sep).map (· + 1)

/-- Go `strings.Count(s, sep)` for a non-empty `sep`: the number of
non-overlapping occurrences, found from the left. -/
def countSep (sep : Str) : Nat → Str → Nat
  | 0, _ => 0
  | fuel + 1, s =>
    match Index s sep with
    | none => 0
    | some i => 1 + countSep sep fuel (s.drop (i + sep.length))

/-- Go `utf8.RuneCountInString`: every invalid byte counts as one rune. -/
def RuneCountInString : Nat → Str → Nat
  | 0, _ => 0
  | fuel + 1, s =>
    if s = [] then 0
    else 1 + RuneCountInString fuel (s.drop (DecodeRuneInString s).2)

/-- The number of pieces `len(strings.Split(s, sep))`: one more than the
occurrences of a non-empty `sep`; for an empty `sep` the string is exploded
into its runes. -/
def splitLen (s sep : Str) : Nat :=
  if sep = [] then RuneCountInString s.length s
  else countSep sep s.length s + 1

/-! ## Data model (lexer.go) -/

/-- Go `type TermCardinality int64`. -/
abbrev TermCardinality := Int

def CardinalityOne : TermCardinality := 0
def CardinalityOptional : TermCardinality := 1
def CardinalityAtLeastOne : TermCardinality := 2
def CardinalityMany : TermCardinality := 3

def TermPrefix : Str := [0x24]
def BuiltInPrefix : Str := [0x21]
def LiteralPrefix : Str := [0x40]

structure SyntaxToken where
  Ident : Str
  Cardinality : TermCardinality
  Separator : Str
deriving DecidableEq, Repr

structure SyntaxPhrase where
  Alternatives : List SyntaxToken
deriving DecidableEq, Repr

structure SyntaxTerm where
  Phrases : List SyntaxPhrase
deriving DecidableEq, Repr

/-- The lexer; the Go map `registeredTerms` is an association list in which
the first entry for a key is the live one. -/
structure Lexer where
  registeredTerms : List (Str × SyntaxTerm)
deriving DecidableEq, Repr

def NewLexer : Lexer := ⟨[]⟩

/-- The map read `l.registeredTerms[name]`. -/
def Lexer.lookup (l : Lexer) (name : Str) : Option SyntaxTerm :=
  (l.registeredTerms.find? (fun e => e.1 == name)).map (·.2)

def Lexer.AddTerm (l : Lexer) (term : SyntaxTerm) (name : Str) : Lexer :=
  ⟨(name, term) :: l.registeredTerms.filter (fun e => e.1 != name)⟩

def Lexer.ClearSyntax (_l : Lexer) : Lexer := ⟨[]⟩

/-- What `lexString`, `matchTerm` and `matchBuiltIn` return, with the cursor
`*str` they leave behind. -/
structure LexResult where
  result : List Str
  numMatched : Nat
  matched : Bool
  partialMatch : Bool
  rest : Str
deriving DecidableEq, Repr

/-- What `parseToken` returns, with the cursor it leaves behind. -/
structure TokenResult where
  result : List Str
  matched : Bool
  rest : Str
deriving DecidableEq, Repr

/-! ## The engine (lexer.go) -/

/-- The loop `// Parse past whitespace` of `lexString`: while the first rune
is white space, the cursor advances by one byte. -/
def skipSpace : Str → Str
  | [] => []
  | b :: t => if IsSpace (DecodeRuneInString (b :: t)).1 then skipSpace t else b :: t

def isLabelStartRune (U : UnicodeTables) (r : Nat) : Bool :=
  IsLetter U r || r == 0x5F

def isLabelRune (U : UnicodeTables) (r : Nat) : Bool :=
  isLabelStartRune U r || IsDigit U r || r == 0x27

/-- The `range` loop of the `label` case: the string `labelString` it builds.
`first` says that the rune index is 0. -/
def labelLoop (U : UnicodeTables) : Nat → Bool → Str → Str
  | 0, _, _ => []
  | fuel + 1, first, s =>
    if s = [] then []
    else
      let r := (DecodeRuneInString s).1
      if first && !isLabelStartRune U r then []
      else if !isLabelRune U r then []
      else encodeRune r ++ labelLoop U fuel false (s.drop (DecodeRuneInString s).2)

/-- The `range` loop of the `int` case: the string `intString` it builds. -/
def intLoop (U : UnicodeTables) : Nat → Bool → Str → Str
  | 0, _, _ => []
  | fuel + 1, first, s =>
    if s = [] then []
    else
      let r := (DecodeRuneInString s).1
      if first then
        if r ≠ 0x2D ∧ !IsDigit U r then []
        else encodeRune r ++ intLoop U fuel false (s.drop (DecodeRuneInString s).2)
      else if !IsDigit U r then []
      else encodeRune r ++ intLoop U fuel false (s.drop (DecodeRuneInString s).2)

def matchBuiltIn (U : UnicodeTables) (str builtInName : Str) : LexResult :=
  if builtInName = ascii "label" then
    let labelString := labelLoop U str.length true str
    let m := decide (labelString.length > 0)
    ⟨[labelString], 1, m, m, str.drop labelString.length⟩
  else if builtInName = ascii "match" then
    ⟨[str], 1, true, true, []⟩
  else if builtInName = ascii "int" then
    let intString := intLoop U str.length true str
    if intString = [0x2D] then ⟨[], 0, false, false, str⟩
    else
      let m := decide (intString.length > 0)
      ⟨[intString], 1, m, m, str.drop intString.length⟩
  else ⟨[], 0, false, false, str⟩

/-- The loop of the `CardinalityAtLeastOne` case; `n` is the number of
iterations left, so `stringIdx < len(splitString)-1` reads `0 < n` after the
current one.  The flag says whether the loop ran to its end. -/
def atLeastOneLoop (lex : Str → Str → Option LexResult) (token : SyntaxToken) :
    Nat → Str → List Str → Option (List Str × Bool × Str)
  | 0, str, subStrings => some (subStrings, true, str)
  | n + 1, str, subStrings =>
    match lex str token.Ident with
    | none => none
    | some r =>
      if !r.matched || r.numMatched == 0 then some (subStrings, false, r.rest)
      else if 0 < n then
        match lex r.rest token.Separator with
        | none => none
        | some rs =>
          if !rs.matched || r.numMatched == 0 then some (subStrings ++ r.result, false, rs.rest)
          else atLeastOneLoop lex token n rs.rest (subStrings ++ r.result)
      else atLeastOneLoop lex token n r.rest (subStrings ++ r.result)

/-- The loop of the `CardinalityMany` case. -/
def manyLoop (lex : Str → Str → Option LexResult) (token : SyntaxToken) :
    Nat → Str → List Str → Option (List Str × Bool × Str)
  | 0, str, subStrings => some (subStrings, true, str)
  | n + 1, str, subStrings =>
    match lex str token.Ident with
    | none => none
    | some r =>
      if !r.matched || r.numMatched == 0 then some (subStrings, false, r.rest)
      else if 0 < n then
        match lex r.rest token.Separator with
        | none => none
        | some rs =>
          if !rs.matched || r.numMatched == 0 then some (subStrings ++ r.result, false, rs.rest)
          else manyLoop lex token n rs.rest (subStrings ++ r.result)
      else manyLoop lex token n r.rest (subStrings ++ r.result)

/-- Go `parseToken`; `lex` is the call `l.lexString`. -/
def parseToken (lex : Str → Str → Option LexResult) (str : Str) (token : SyntaxToken) :
    Option TokenResult :=
  if token.Cardinality = CardinalityOptional then
    if str = [] then some ⟨[], true, str⟩
    else
      match lex str token.Ident with
      | none => none
      | some r =>
        if r.numMatched = 0 then some ⟨r.result, !r.partialMatch, r.rest⟩
        else some ⟨r.result, r.matched, r.rest⟩
  else if token.Cardinality = CardinalityAtLeastOne then
    match atLeastOneLoop lex token (splitLen str token.Separator) str [] with
    | none => none
    | some (subStrings, completed, rest) =>
      if completed then some ⟨subStrings, decide (subStrings.length ≥ 1), rest⟩
      else some ⟨subStrings, false, rest⟩
  else if token.Cardinality = CardinalityMany then
    if str = [] then some ⟨[], true, str⟩
    else
      match manyLoop lex token (splitLen str token.Separator) str [] with
      | none => none
      | some (subStrings, completed, rest) =>
        if completed then some ⟨subStrings, true, rest⟩
        else some ⟨subStrings, false, rest⟩
  else
    match lex str token.Ident with
    | none => none
    | some r =>
      if r.numMatched ≠ 1 then some ⟨r.result, false, r.rest⟩
      else some ⟨r.result, r.matched, r.rest⟩

/-- The inner loop of `matchTerm` over the alternatives of one phrase: the
strings of the first alternative that matched, `matchedOne`, and the cursor. -/
def matchAlternatives (lex : Str → Str → Option LexResult) :
    List SyntaxToken → Str → Option (List Str × Bool × Str)
  | [], str => some ([], false, str)
  | token :: alternatives, str =>
    match parseToken lex str token with
    | none => none
    | some r =>
      if r.matched then some (r.result, true, r.rest)
      else matchAlternatives lex alternatives r.rest

/-- The outer loop of `matchTerm` over the phrases. -/
def matchPhrases (lex : Str → Str → Option LexResult) (strCopy : Str) :
    List SyntaxPhrase → Str → List Str → Bool → Option LexResult
  | [], str, result, partialMatch => some ⟨result, 1, true, partialMatch, str⟩
  | phrase :: phrases, str, result, partialMatch =>
    match matchAlternatives lex phrase.Alternatives str with
    | none => none
    | some (matchedStrings, matchedOne, str1) =>
      if matchedOne then matchPhrases lex strCopy phrases str1 (result ++ matchedStrings) true
      else some ⟨result, 0, false, partialMatch, strCopy⟩

/-- Go `matchTerm`; `lex` is the call `l.lexString`. -/
def matchTerm (lex : Str → Str → Option LexResult) (l : Lexer) (str termName : Str) :
    Option LexResult :=
  match l.lookup termName with
  | none => some ⟨[], 0, false, false, str⟩
  | some term => matchPhrases lex str term.Phrases str [] false

/-- Go `lexString`.  One unit of fuel is spent on each rule reference. -/
def lexString (U : UnicodeTables) (l : Lexer) : Nat → Str → Str → Option LexResult
  | fuel, str, expectedTerm =>
    let str := skipSpace str
    if HasPrefix expectedTerm TermPrefix then
      match fuel with
      | 0 => none
      | fuel + 1 => matchTerm (lexString U l fuel) l str (expectedTerm.drop 1)
    else if HasPrefix expectedTerm BuiltInPrefix then
      some (matchBuiltIn U str (expectedTerm.drop 1))
    else
      let expectedTerm :=
        if HasPrefix expectedTerm LiteralPrefix then expectedTerm.drop 1 else expectedTerm
      if HasPrefix str expectedTerm then
        some ⟨[expectedTerm], 1, true, true, str.drop expectedTerm.length⟩
      else some ⟨[], 0, false, false, str⟩

/-- Go `MatchString`. -/
def MatchString (U : UnicodeTables) (l : Lexer) (fuel : Nat) (str term : Str) :
    Option (List Str × Bool) :=
  (lexString U l fuel str term).map fun r => (r.result, r.matched && trimSpaceIsEmpty r.rest)

/-! ## Loading a grammar (lexer_xml.go) -/

/-- Go `(*TermCardinality).UnmarshalXMLAttr` on the attribute value `value`:
the target `*tc` after the call and the error, if any. -/
def UnmarshalXMLAttr (tc : TermCardinality) (value : Str) : TermCardinality × Option Str :=
  if value = ascii "one" then (CardinalityOne, none)
  else if value = ascii "optional" then (CardinalityOptional, none)
  else if value = ascii "atLeastOne" then (CardinalityAtLeastOne, none)
  else if value = ascii "many" then (CardinalityMany, none)
  else (tc, some (ascii "failed to parse string to TermCardinality " ++ value))

/-- A `Token` element as `encoding/xml` reads it: the values of the attributes
`ident`, `cardinality` and `separator`, where present. -/
structure TokenElement where
  ident : Option Str
  cardinality : Option Str
  separator : Option Str
deriving DecidableEq, Repr

/-- A `Phrase` element: its `Token` children. -/
structure PhraseElement where
  tokens : List TokenElement
deriving DecidableEq, Repr

/-- A `Term` element: its attribute `name`, where present, and its `Phrase`
children. -/
structure TermElement where
  name : Option Str
  phrases : List PhraseElement
deriving DecidableEq, Repr

/-- The document: the `Term` children of the root element. -/
structure SyntaxDocument where
  terms : List TermElement
deriving DecidableEq, Repr

/-- Go `syntaxTermXML`. -/
structure syntaxTermXML where
  Name : Str
  Phrases : List SyntaxPhrase
deriving DecidableEq, Repr

/-- Go `syntaxXML`. -/
structure syntaxXML where
  Terms : List syntaxTermXML
deriving DecidableEq, Repr

/-- Go `(*SyntaxToken).UnmarshalXML`: the fields start from the zero value with
`Cardinality: CardinalityOne`, and `DecodeElement` stores each attribute that
is present, the cardinality through `UnmarshalXMLAttr`. -/
def UnmarshalXML (e : TokenElement) : Except Str SyntaxToken :=
  let result : SyntaxToken := ⟨[], CardinalityOne, []⟩
  let result : SyntaxToken := ⟨e.ident.getD result.Ident, result.Cardinality, result.Separator⟩
  match e.cardinality with
  | none =>
    Except.ok ⟨result.Ident, result.Cardinality, e.separator.getD result.Separator⟩
  | some value =>
    match UnmarshalXMLAttr result.Cardinality value with
    | (tc, none) => Except.ok ⟨result.Ident, tc, e.separator.getD result.Separator⟩
    | (_, some err) => Except.error err

/-- The field `Alternatives []SyntaxToken` of a phrase, decoded element by
element; the first error ends the decoding. -/
def unmarshalTokens : List TokenElement → Except Str (List SyntaxToken)
  | [] => Except.ok []
  | e :: es =>
    match UnmarshalXML e with
    | Except.error err => Except.error err
    | Except.ok tok =>
      match unmarshalTokens es with
      | Except.error err => Except.error err
      | Except.ok toks => Except.ok (tok :: toks)

/-- The field `Phrases []SyntaxPhrase` of a term. -/
def unmarshalPhrases : List PhraseElement → Except Str (List SyntaxPhrase)
  | [] => Except.ok []
  | e :: es =>
    match unmarshalTokens e.tokens with
    | Except.error err => Except.error err
    | Except.ok toks =>
      match unmarshalPhrases es with
      | Except.error err => Except.error err
      | Except.ok phs => Except.ok (⟨toks⟩ :: phs)

/-- The field `Terms []syntaxTermXML` of the document. -/
def unmarshalTerms : List TermElement → Except Str (List syntaxTermXML)
  | [] => Except.ok []
  | e :: es =>
    match unmarshalPhrases e.phrases with
    | Except.error err => Except.error err
    | Except.ok phs =>
      match unmarshalTerms es with
      | Except.error err => Except.error err
      | Except.ok ts => Except.ok (⟨e.name.getD [], phs⟩ :: ts)

/-- The call `xml.Unmarshal(syntaxData, &resultXML)`.  Reading the bytes into
elements is the work of `encoding/xml` and is the parameter `readXML`; filling
the structures from the elements follows the field tags and the two
unmarshalers of this package. -/
def Unmarshal (readXML : Str → Except Str SyntaxDocument) (syntaxData : Str) :
    Except Str syntaxXML :=
  match readXML syntaxData with
  | Except.error err => Except.error err
  | Except.ok doc =>
    match unmarshalTerms doc.terms with
    | Except.error err => Except.error err
    | Except.ok ts => Except.ok ⟨ts⟩

/-- The loop of `LoadSyntaxXML` that registers the terms. -/
def addTerms : List syntaxTermXML → Lexer → Lexer
  | [], lex => lex
  | term :: terms, lex => addTerms terms (lex.AddTerm ⟨term.Phrases⟩ term.Name)

/-- Go `(*Lexer).LoadSyntaxXML`: the lexer after the call and the error, if
any. -/
def LoadSyntaxXML (readXML : Str → Except Str SyntaxDocument) (lex : Lexer) (syntaxData : Str) :
    Lexer × Option Str :=
  match Unmarshal readXML syntaxData with
  | Except.error err => (lex, some err)
  | Except.ok resultXML => (addTerms resultXML.Terms lex.ClearSyntax, none)

/-! ## Definitions used to state and prove the properties -/

/-- The literal a token identifier denotes: the identifier with one leading
escape sigil removed (the `LiteralPrefix` step of `lexString`). -/
def literalOf (e : Str) : Str := if HasPrefix e LiteralPrefix then e.drop 1 else e

/-- Range tables with no entry above Latin-1, for evaluating the engine on
concrete inputs. -/
def latin1Tables : UnicodeTables := ⟨fun _ => false, fun _ => false⟩

/-- The string `s` with its leading white space characters removed. -/
def dropLeadingSpace (s : Str) : Str := trimLeftSpace s.length s

/-- The runes a `range` loop over the string yields: an invalid byte yields
`RuneError` and the loop advances by one byte. -/
def runes : Nat → Str → List Nat
  | 0, _ => []
  | fuel + 1, s =>
    if s = [] then []
    else (DecodeRuneInString s).1 :: runes fuel (s.drop (DecodeRuneInString s).2)

/-- The characters of a string. -/
def runesOf (s : Str) : List Nat := runes s.length s

/-- A string whose first character satisfies `pf` and whose later characters
all satisfy `pr`. -/
def runShape (pf pr : Nat → Bool) (p : Str) : Bool :=
  match runesOf p with
  | [] => false
  | c :: cs => pf c && cs.all pr

/-- A label: the first character is a letter or underscore, every later
character is a letter, digit, underscore or apostrophe. -/
def labelShape (U : UnicodeTables) (p : Str) : Bool :=
  runShape (isLabelStartRune U) (isLabelRune U) p

/-- An integer: an optional `-` followed by one or more decimal digits. -/
def intShape (U : UnicodeTables) (p : Str) : Bool :=
  match runesOf p with
  | [] => false
  | c :: cs =>
    if c = 0x2D then !cs.isEmpty && cs.all (IsDigit U) else IsDigit U c && cs.all (IsDigit U)

/-- The common form of the two `range` loops of `matchBuiltIn`: runes are
appended while the first satisfies `pf` and the later ones satisfy `pr`. -/
def scanRunes (pf pr : Nat → Bool) : Nat → Bool → Str → Str
  | 0, _, _ => []
  | fuel + 1, first, s =>
    if s = [] then []
    else if (if first then pf (DecodeRuneInString s).1 else pr (DecodeRuneInString s).1) then
      encodeRune (DecodeRuneInString s).1 ++
        scanRunes pf pr fuel false (s.drop (DecodeRuneInString s).2)
    else []

/-- The runes of a list pass the tests of `scanRunes`: `pf` (`pr` when not
at the start) for the first one, `pr` for the others. -/
def okRunes (pf pr : Nat → Bool) (first : Bool) : List Nat → Bool
  | [] => true
  | c :: cs => (if first then pf c else pr c) && cs.all pr

/-- The test of the `int` loop at rune index 0: a minus sign or a digit. -/
def isIntStartRune (U : UnicodeTables) (r : Nat) : Bool := decide (r = 0x2D) || IsDigit U r

/-- Go `utf8.ValidString`, with fuel: no rune of the string is an invalid byte. -/
def validUTF8 : Nat → Str → Bool
  | 0, s => s.isEmpty
  | fuel + 1, s =>
    if s = [] then true
    else decide (DecodeRuneInString s ≠ (RuneError, 1)) &&
      validUTF8 fuel (s.drop (DecodeRuneInString s).2)

/-- Go `utf8.ValidString`. -/
def ValidString (s : Str) : Bool := validUTF8 s.length s

/-- The ASCII white space characters: tab, line feed, vertical tab, form feed,
carriage return, space. -/
def isAsciiSpace (b : Nat) : Bool :=
  b = 0x09 ∨ b = 0x0A ∨ b = 0x0B ∨ b = 0x0C ∨ b = 0x0D ∨ b = 0x20

/-- The input made of `ws.length + 1` copies of `t` joined by `sep`, with the
strings `w.1` before and `w.2` after the separators. -/
def joined (t sep : Str) : List (Str × Str) → Str
  | [] => t
  | w :: ws => t ++ w.1 ++ sep ++ w.2 ++ joined t sep ws

/-- The copies of `t` before a given one, each followed by its separator. -/
def joinedBefore (t sep : Str) : List (Str × Str) → Str
  | [] => []
  | w :: ws => t ++ w.1 ++ sep ++ w.2 ++ joinedBefore t sep ws

/-- The copies of `t` after a given one, each preceded by its separator. -/
def joinedAfter (t sep : Str) : List (Str × Str) → Str
  | [] => []
  | w :: ws => w.1 ++ sep ++ w.2 ++ t ++ joinedAfter t sep ws

/-- No occurrence of `sep` starts inside `x`, whatever follows `x`. -/
def NoOcc (sep x : Str) : Prop :=
  ∀ x1 x2 y, x = x1 ++ x2 → x2 ≠ [] → ¬ sep <+: x2 ++ y

/-- The number of phrases of a rule that match, in order, before one fails or
the rule ends (the outer loop of `matchTerm`). -/
def matchedCount (lex : Str → Str → Option LexResult) : List SyntaxPhrase → Str → Option Nat
  | [], _ => some 0
  | phrase :: phrases, str =>
    match matchAlternatives lex phrase.Alternatives str with
    | none => none
    | some (_, matchedOne, str1) =>
      if matchedOne then (matchedCount lex phrases str1).map (· + 1) else some 0

/-- Some token of the document carries the cardinality attribute `value`. -/
def HasCardinality (doc : SyntaxDocument) (value : Str) : Prop :=
  ∃ t ∈ doc.terms, ∃ p ∈ t.phrases, ∃ k ∈ p.tokens, k.cardinality = some value

/-- Term `A` references term `B`: some token of `A` has identifier `$B` or
separator `$B`. -/
def References (l : Lexer) (A B : Str) : Prop :=
  ∃ term ph tok, l.lookup A = some term ∧ ph ∈ term.Phrases ∧ tok ∈ ph.Alternatives ∧
    (tok.Ident = TermPrefix ++ B ∨ tok.Separator = TermPrefix ++ B)

/-- The reference relation of the registry has no cycle. -/
def Acyclic (l : Lexer) : Prop := ∀ A, ¬ Relation.TransGen (References l) A A

/-- The names the term `A` references, as a list. -/
def references (l : Lexer) (A : Str) : List Str :=
  match l.lookup A with
  | none => []
  | some term =>
    (term.Phrases.flatMap fun ph =>
      ph.Alternatives.flatMap fun tok => [tok.Ident, tok.Separator]).filterMap
        fun e => if HasPrefix e TermPrefix then some (e.drop 1) else none

/-- A registry with one term, `A`, whose only token refers to `A` itself. -/
def selfReferential : Lexer :=
  NewLexer.AddTerm ⟨[⟨[⟨TermPrefix ++ ascii "A", CardinalityOne, []⟩]⟩]⟩ (ascii "A")

/-- The string without its white space characters, rune by rune. -/
def deleteSpace : Nat → Str → Str
  | 0, _ => []
  | fuel + 1, s =>
    if s = [] then []
    else if IsSpace (DecodeRuneInString s).1 then
      deleteSpace fuel (s.drop (DecodeRuneInString s).2)
    else s.take (DecodeRuneInString s).2 ++ deleteSpace fuel (s.drop (DecodeRuneInString s).2)

/-- The string with all its white space characters deleted. -/
def withoutSpace (s : Str) : Str := deleteSpace s.length s

/-- An ASCII string: every byte is below 0x80. -/
def isASCII (s : Str) : Bool := s.all fun b => decide (b < 0x80)

/-- Every token of the registry has cardinality One or Optional. -/
def OneOrOptional (l : Lexer) : Bool :=
  l.registeredTerms.all fun e => e.2.Phrases.all fun ph => ph.Alternatives.all fun tok =>
    decide (tok.Cardinality = CardinalityOne ∨ tok.Cardinality = CardinalityOptional)

/-- The bytes of a string other than the ASCII white space. -/
def stripSpace (s : Str) : Str := s.filter fun b => !isAsciiSpace b

/-- The captures and the cursor account for the input `str`: everything is
ASCII; on a match the input without white space is the captures followed by
the rest, without white space; without a match nothing but white space has
been consumed. -/
def Accounted (str : Str) (result : List Str) (matched : Bool) (rest : Str) : Prop :=
  isASCII rest = true ∧ (∀ c ∈ result, isASCII c = true) ∧
  (matched = true → stripSpace str = stripSpace result.flatten ++ stripSpace rest) ∧
  (matched = false → stripSpace rest = stripSpace str)

/-- What the proof needs of the call `l.lexString` on ASCII input. -/
def LexSound (lex : Str → Str → Option LexResult) : Prop :=
  ∀ s e r, isASCII s = true → lex s e = some r →
    Accounted s r.result r.matched r.rest ∧ (r.matched = true → r.numMatched = 1) ∧
      (r.numMatched = 0 → r.partialMatch = false → r.result = [])

/-- No byte of the string is ASCII white space. -/
def spaceFree (e : Str) : Bool := e.all fun b => !isAsciiSpace b

/-- The identifier is a literal: it starts neither with `$` nor with `!`. -/
def isLiteralIdent (e : Str) : Bool := !HasPrefix e TermPrefix && !HasPrefix e BuiltInPrefix

/-- A token on which trailing white space has no effect: a literal identifier
holds no ASCII white space, and the token is of cardinality One, or Optional
over a literal, or AtLeastOne with a non-empty separator without ASCII white
space. -/
def tokenTolerant (tok : SyntaxToken) : Bool :=
  (!isLiteralIdent tok.Ident || spaceFree tok.Ident) &&
  (decide (tok.Cardinality = CardinalityOne) ||
    (decide (tok.Cardinality = CardinalityOptional) && isLiteralIdent tok.Ident) ||
    (decide (tok.Cardinality = CardinalityAtLeastOne) && decide (tok.Separator ≠ []) &&
      spaceFree tok.Separator))

/-- Every token of the registry is tolerant. -/
def registryTolerant (l : Lexer) : Bool :=
  l.registeredTerms.all fun e => e.2.Phrases.all fun ph => ph.Alternatives.all tokenTolerant

/-- The cursor `c'` is the cursor `c` followed by ASCII white space. -/
def Trails (c c' : Str) : Prop := ∃ y, y.all isAsciiSpace = true ∧ c' = c ++ y

/-- Two results of `lexString` that differ by trailing white space only: the
same flags and match count, cursors that differ by trailing white space, and
captures that are both absent or both present. -/
def SameOutcome (r r' : LexResult) : Prop :=
  r'.matched = r.matched ∧ r'.numMatched = r.numMatched ∧ r'.partialMatch = r.partialMatch ∧
    Trails r.rest r'.rest ∧ (r.result = [] ↔ r'.result = [])

/-- The call `l.lexString` reports the same on a cursor followed by ASCII
white space, for every expression whose literal holds no white space. -/
def LexTrails (lex : Str → Str → Option LexResult) : Prop :=
  ∀ c c' e r, Trails c c' → (isLiteralIdent e = true → spaceFree e = true) →
    lex c e = some r → ∃ r', lex c' e = some r' ∧ SameOutcome r r'

/-- The rule `fooManyBar` of the test grammar: the literal `foo`, then `bar`
any number of times, separated by commas. -/
def fooManyBar : Lexer :=
  NewLexer.AddTerm ⟨[⟨[⟨ascii "foo", CardinalityOne, []⟩]⟩,
    ⟨[⟨ascii "bar", CardinalityMany, ascii ","⟩]⟩]⟩ (ascii "fooManyBar")

/-- The rule `T`: `foo`, then optionally the rule `X`; `X` is an optional `y`
followed by `z`. -/
def fooOptionalRule : Lexer :=
  (NewLexer.AddTerm ⟨[⟨[⟨ascii "y", CardinalityOptional, []⟩]⟩,
    ⟨[⟨ascii "z", CardinalityOne, []⟩]⟩]⟩ (ascii "X")).AddTerm
    ⟨[⟨[⟨ascii "foo", CardinalityOne, []⟩]⟩, ⟨[⟨ascii "$X", CardinalityOptional, []⟩]⟩]⟩
    (ascii "T")

/-- The rule `T`: one of the literals `ab ` (with a space) and `a`, then the
literal `b`. -/
def literalWithSpace : Lexer :=
  NewLexer.AddTerm ⟨[⟨[⟨ascii "ab ", CardinalityOne, []⟩, ⟨ascii "a", CardinalityOne, []⟩]⟩,
    ⟨[⟨ascii "b", CardinalityOne, []⟩]⟩]⟩ (ascii "T")

/-- The rule `T`: the literal `a` at least once, with the separator `sep`. -/
def atLeastOneA (sep : Str) : Lexer :=
  NewLexer.AddTerm ⟨[⟨[⟨ascii "a", CardinalityAtLeastOne, sep⟩]⟩]⟩ (ascii "T")

/-- The rule `fooOptionalBar` of the test grammar: the literal `foo`, then
optionally `bar`. -/
def fooOptionalBar : Lexer :=
  NewLexer.AddTerm ⟨[⟨[⟨ascii "foo", CardinalityOne, []⟩]⟩,
    ⟨[⟨ascii "bar", CardinalityOptional, []⟩]⟩]⟩ (ascii "fooOptionalBar")

/-! # Theorems -/

/-! ## Standard library facts -/

theorem hasPrefix_iff (s p : Str) : HasPrefix s p = true ↔ p <+: s := by
  simp [HasPrefix]

theorem hasPrefix_append (p t : Str) : HasPrefix (p ++ t) p = true := by
  simp [HasPrefix]

theorem lookup_AddTerm (l : Lexer) (term : SyntaxTerm) (T : Str) :
    (l.AddTerm term T).lookup T = some term := by
  simp [Lexer.lookup, Lexer.AddTerm]

theorem skipSpace_eq_self {s : Str} (h : s = [] ∨ IsSpace (DecodeRuneInString s).1 = false) :
    skipSpace s = s := by
  cases s with
  | nil => rfl
  | cons b t =>
    rcases h with h | h
    · cases h
    · simp [skipSpace, h]

theorem skipSpace_stops (s : Str) :
    skipSpace s = [] ∨ IsSpace (DecodeRuneInString (skipSpace s)).1 = false := by
  induction s with
  | nil => left; rfl
  | cons b t ih =>
    by_cases h : IsSpace (DecodeRuneInString (b :: t)).1 = true
    · simpa [skipSpace, h] using ih
    · right; simp only [Bool.not_eq_true] at h; simp [skipSpace, h]

theorem skipSpace_idem (s : Str) : skipSpace (skipSpace s) = skipSpace s :=
  skipSpace_eq_self (skipSpace_stops s)

theorem skipSpace_suffix (s : Str) : skipSpace s <:+ s := by
  induction s with
  | nil => simp [skipSpace]
  | cons b t ih =>
    simp only [skipSpace]
    split
    · exact ih.trans (List.suffix_cons b t)
    · exact List.suffix_refl _

theorem decode_append_of_valid (s t : Str) (hs : s ≠ [])
    (h : DecodeRuneInString s ≠ (RuneError, 1)) :
    DecodeRuneInString (s ++ t) = DecodeRuneInString s := by
  rcases s with _ | ⟨s0, _ | ⟨s1, _ | ⟨s2, _ | ⟨s3, s'⟩⟩⟩⟩
  · exact absurd rfl hs
  · simp only [DecodeRuneInString] at h
    split_ifs at h <;> first
      | (exact absurd rfl h)
      | (simp only [DecodeRuneInString, List.cons_append, List.nil_append]; split_ifs; with_reducible rfl)
  · simp only [DecodeRuneInString] at h
    split_ifs at h <;> first
      | (exact absurd rfl h)
      | (simp only [DecodeRuneInString, List.cons_append, List.nil_append]; split_ifs; with_reducible rfl)
  · simp only [DecodeRuneInString] at h
    split_ifs at h <;> first
      | (exact absurd rfl h)
      | (simp only [DecodeRuneInString, List.cons_append, List.nil_append]; split_ifs; with_reducible rfl)
  · simp only [DecodeRuneInString, List.cons_append]

theorem isCont_false_of_lt {b : Nat} (hb : b < 0x80) : isCont b = false := by
  simp [isCont]; omega

theorem accepts_false_of_not_cont {b : Nat} (s0 : Nat) (hb : isCont b = false) :
    accepts s0 b = false := by
  simp only [isCont, decide_eq_false_iff_not, not_and, not_le] at hb
  simp only [accepts, decide_eq_false_iff_not, not_and, not_le]
  intro h; split_ifs at h ⊢ <;> omega

theorem decode_append_of_invalid (s t : Str) (b : Nat) (hs : s ≠ []) (hc : isCont b = false)
    (h : DecodeRuneInString s = (RuneError, 1)) :
    DecodeRuneInString (s ++ b :: t) = (RuneError, 1) := by
  rcases s with _ | ⟨s0, _ | ⟨s1, _ | ⟨s2, _ | ⟨s3, s'⟩⟩⟩⟩
  · exact absurd rfl hs
  · have ha := accepts_false_of_not_cont s0 hc
    simp only [DecodeRuneInString] at h
    rcases t with _ | ⟨t0, _ | ⟨t1, t'⟩⟩ <;>
      simp only [DecodeRuneInString, List.cons_append, List.nil_append, ha, hc] <;>
      split_ifs at h ⊢ <;> simp_all
  · simp only [DecodeRuneInString] at h
    rcases t with _ | ⟨t0, t'⟩ <;>
      simp only [DecodeRuneInString, List.cons_append, List.nil_append, hc] <;>
      split_ifs at h ⊢ <;> simp_all
  · simp only [DecodeRuneInString] at h
    simp only [DecodeRuneInString, List.cons_append, List.nil_append, hc]
    split_ifs at h ⊢ <;> simp_all
  · simpa only [DecodeRuneInString, List.cons_append] using h

theorem decode_nil : DecodeRuneInString [] = (RuneError, 0) := rfl

theorem decode_width_pos (s : Str) (hs : s ≠ []) : 1 ≤ (DecodeRuneInString s).2 := by
  rcases s with _ | ⟨s0, t⟩
  · exact absurd rfl hs
  · simp only [DecodeRuneInString]
    split_ifs
    · simp
    · simp
    · split <;> [split_ifs; skip] <;> simp
    · split <;> [split_ifs; skip] <;> simp
    · split <;> [split_ifs; skip] <;> simp

theorem encode_decode (s : Str) (hs : s ≠ []) (h : DecodeRuneInString s ≠ (RuneError, 1)) :
    encodeRune (DecodeRuneInString s).1 ++ s.drop (DecodeRuneInString s).2 = s ∧
      (encodeRune (DecodeRuneInString s).1).length = (DecodeRuneInString s).2 := by
  rcases s with _ | ⟨s0, t⟩
  · exact absurd rfl hs
  · simp only [DecodeRuneInString] at h ⊢
    split_ifs at h ⊢ with h1 h2 h3 h4
    · simp [encodeRune, h1]
    · exact absurd rfl h
    · rcases t with _ | ⟨s1, t1⟩
      · exact absurd rfl h
      · simp only at h ⊢
        split_ifs at h ⊢ with ha
        · simp only [accepts, decide_eq_true_eq] at ha
          have e1 : ¬ (s0 % 32 * 64 + s1 % 64 < 128) := by omega
          have e2 : s0 % 32 * 64 + s1 % 64 < 2048 := by omega
          have e3 : 192 + (s0 % 32 * 64 + s1 % 64) / 64 = s0 := by split_ifs at ha <;> omega
          have e4 : 128 + (s0 % 32 * 64 + s1 % 64) % 64 = s1 := by split_ifs at ha <;> omega
          rw [encodeRune]; simp only [if_neg e1, if_pos e2, e3, e4]; exact ⟨rfl, rfl⟩
        · exact absurd rfl h
    · rcases t with _ | ⟨s1, _ | ⟨s2, t2⟩⟩
      · exact absurd rfl h
      · exact absurd rfl h
      · simp only at h ⊢
        split_ifs at h ⊢ with ha
        · simp only [accepts, isCont, decide_eq_true_eq] at ha
          obtain ⟨ha, hc⟩ := ha
          have e1 : ¬ (s0 % 16 * 4096 + s1 % 64 * 64 + s2 % 64 < 128) := by
            split_ifs at ha <;> omega
          have e2 : ¬ (s0 % 16 * 4096 + s1 % 64 * 64 + s2 % 64 < 2048) := by
            split_ifs at ha <;> omega
          have e3 : ¬ ((55296 ≤ s0 % 16 * 4096 + s1 % 64 * 64 + s2 % 64 ∧
              s0 % 16 * 4096 + s1 % 64 * 64 + s2 % 64 ≤ 57343) ∨
              1114111 < s0 % 16 * 4096 + s1 % 64 * 64 + s2 % 64) := by
            split_ifs at ha <;> omega
          have e4 : s0 % 16 * 4096 + s1 % 64 * 64 + s2 % 64 < 65536 := by omega
          have e5 : 224 + (s0 % 16 * 4096 + s1 % 64 * 64 + s2 % 64) / 4096 = s0 := by
            split_ifs at ha <;> omega
          have e6 : 128 + (s0 % 16 * 4096 + s1 % 64 * 64 + s2 % 64) / 64 % 64 = s1 := by
            split_ifs at ha <;> omega
          have e7 : 128 + (s0 % 16 * 4096 + s1 % 64 * 64 + s2 % 64) % 64 = s2 := by
            split_ifs at ha <;> omega
          rw [encodeRune]; simp only [if_neg e1, if_neg e2, if_neg e3, if_pos e4, e5, e6, e7]
          exact ⟨rfl, rfl⟩
        · exact absurd rfl h
    · rcases t with _ | ⟨s1, _ | ⟨s2, _ | ⟨s3, t3⟩⟩⟩
      · exact absurd rfl h
      · exact absurd rfl h
      · exact absurd rfl h
      · simp only at h ⊢
        split_ifs at h ⊢ with ha
        · simp only [accepts, isCont, decide_eq_true_eq] at ha
          obtain ⟨ha, hc2, hc3⟩ := ha
          have e1 : ¬ (s0 % 8 * 262144 + s1 % 64 * 4096 + s2 % 64 * 64 + s3 % 64 < 128) := by
            split_ifs at ha <;> omega
          have e2 : ¬ (s0 % 8 * 262144 + s1 % 64 * 4096 + s2 % 64 * 64 + s3 % 64 < 2048) := by
            split_ifs at ha <;> omega
          have e3 : ¬ ((55296 ≤ s0 % 8 * 262144 + s1 % 64 * 4096 + s2 % 64 * 64 + s3 % 64 ∧
              s0 % 8 * 262144 + s1 % 64 * 4096 + s2 % 64 * 64 + s3 % 64 ≤ 57343) ∨
              1114111 < s0 % 8 * 262144 + s1 % 64 * 4096 + s2 % 64 * 64 + s3 % 64) := by
            split_ifs at ha <;> omega
          have e4 : ¬ (s0 % 8 * 262144 + s1 % 64 * 4096 + s2 % 64 * 64 + s3 % 64 < 65536) := by
            split_ifs at ha <;> omega
          have e5 : 240 + (s0 % 8 * 262144 + s1 % 64 * 4096 + s2 % 64 * 64 + s3 % 64) / 262144
              = s0 := by
            split_ifs at ha <;> omega
          have e6 : 128 + (s0 % 8 * 262144 + s1 % 64 * 4096 + s2 % 64 * 64 + s3 % 64) / 4096 % 64
              = s1 := by
            split_ifs at ha <;> omega
          have e7 : 128 + (s0 % 8 * 262144 + s1 % 64 * 4096 + s2 % 64 * 64 + s3 % 64) / 64 % 64
              = s2 := by
            split_ifs at ha <;> omega
          have e8 : 128 + (s0 % 8 * 262144 + s1 % 64 * 4096 + s2 % 64 * 64 + s3 % 64) % 64
              = s3 := by
            split_ifs at ha <;> omega
          rw [encodeRune]; simp only [if_neg e1, if_neg e2, if_neg e3, if_neg e4, e5, e6, e7, e8]
          exact ⟨rfl, rfl⟩
        · exact absurd rfl h

theorem decode_width_le (s : Str) : (DecodeRuneInString s).2 ≤ 4 := by
  rcases s with _ | ⟨s0, t⟩
  · simp [DecodeRuneInString]
  · simp only [DecodeRuneInString]
    split_ifs
    · simp
    · simp
    · split <;> [split_ifs; skip] <;> simp
    · split <;> [split_ifs; skip] <;> simp
    · split <;> [split_ifs; skip] <;> simp

theorem decode_prefix_congr (a x y : Str) (ha : a ≠ [])
    (hv : DecodeRuneInString (a ++ y) ≠ (RuneError, 1))
    (hw : (DecodeRuneInString (a ++ y)).2 = a.length) :
    DecodeRuneInString (a ++ x) = DecodeRuneInString (a ++ y) := by
  rcases a with _ | ⟨s0, _ | ⟨s1, _ | ⟨s2, _ | ⟨s3, _ | ⟨s4, a'⟩⟩⟩⟩⟩
  · exact absurd rfl ha
  · simp only [List.cons_append, List.nil_append, DecodeRuneInString, List.length_cons,
      List.length_nil] at hv hw ⊢
    split_ifs at hv hw ⊢ with h1 h2 h3 h4
    · rfl
    · rfl
    · exfalso; revert hv hw; split <;> [split_ifs; skip] <;> simp
    · exfalso; revert hv hw; split <;> [split_ifs; skip] <;> simp
    · exfalso; revert hv hw; split <;> [split_ifs; skip] <;> simp
  · simp only [List.cons_append, List.nil_append, DecodeRuneInString, List.length_cons,
      List.length_nil] at hv hw ⊢
    split_ifs at hv hw ⊢ with h1 h2 h3 h4 h5
    all_goals first
      | rfl
      | (exfalso; revert hv hw; split <;> [split_ifs; skip] <;> simp)
  · simp only [List.cons_append, List.nil_append, DecodeRuneInString, List.length_cons,
      List.length_nil] at hv hw ⊢
    split_ifs at hv hw ⊢ with h1 h2 h3 h4 h5
    all_goals first
      | rfl
      | (exfalso; revert hv hw; split <;> [split_ifs; skip] <;> simp)
  · simp only [List.cons_append, List.nil_append, DecodeRuneInString, List.length_cons,
      List.length_nil] at hv hw ⊢
  · have := decode_width_le (s0 :: s1 :: s2 :: s3 :: s4 :: a' ++ y)
    simp only [List.length_cons] at hw
    omega

theorem runes_fuel (fuel1 fuel2 : Nat) (s : Str) (h1 : s.length ≤ fuel1) (h2 : s.length ≤ fuel2) :
    runes fuel1 s = runes fuel2 s := by
  induction fuel1 generalizing fuel2 s with
  | zero =>
    have hs : s = [] := List.length_eq_zero.1 (Nat.le_zero.1 h1)
    subst hs
    cases fuel2 <;> simp [runes]
  | succ n ih =>
    cases fuel2 with
    | zero =>
      have hs : s = [] := List.length_eq_zero.1 (Nat.le_zero.1 h2)
      subst hs; simp [runes]
    | succ k =>
      simp only [runes]
      by_cases hs : s = []
      · simp [hs]
      · simp only [hs, if_false]
        have hw := decode_width_pos s hs
        have hl : 0 < s.length := List.length_pos.2 hs
        rw [ih k (s.drop (DecodeRuneInString s).2) (by simp; omega) (by simp; omega)]

theorem runesOf_nil : runesOf [] = [] := rfl

theorem runesOf_eq (s : Str) (hs : s ≠ []) :
    runesOf s = (DecodeRuneInString s).1 :: runesOf (s.drop (DecodeRuneInString s).2) := by
  have hl : 0 < s.length := List.length_pos.2 hs
  have hw := decode_width_pos s hs
  obtain ⟨n, hn⟩ : ∃ n, s.length = n + 1 := ⟨s.length - 1, by omega⟩
  rw [runesOf, hn, runes, if_neg hs, runesOf]
  congr 1
  exact runes_fuel _ _ _ (by simp; omega) (le_refl _)

theorem runesOf_eq_nil_iff (s : Str) : runesOf s = [] ↔ s = [] := by
  constructor
  · intro h
    by_contra hs
    rw [runesOf_eq s hs] at h
    cases h
  · rintro rfl; rfl

theorem decode_ne_error_of_rune_ne {s : Str} (h : (DecodeRuneInString s).1 ≠ RuneError) :
    DecodeRuneInString s ≠ (RuneError, 1) := by
  intro he; rw [he] at h; exact h rfl

section scan
variable (pf pr : Nat → Bool) (hpf : pf RuneError = false) (hpr : pr RuneError = false)
include hpf hpr

theorem scan_cond_valid {first : Bool} {s : Str}
    (hc : (if first then pf (DecodeRuneInString s).1 else pr (DecodeRuneInString s).1) = true) :
    DecodeRuneInString s ≠ (RuneError, 1) := by
  apply decode_ne_error_of_rune_ne
  intro he
  rw [he] at hc
  cases first <;> simp [hpf, hpr] at hc

theorem scanRunes_starts (fuel : Nat) (first : Bool) (s : Str) :
    scanRunes pf pr fuel first s <+: s := by
  induction fuel generalizing first s with
  | zero => simp [scanRunes]
  | succ n ih =>
    simp only [scanRunes]
    by_cases hs : s = []
    · simp [hs]
    · simp only [hs, if_false]
      by_cases hc : (if first then pf (DecodeRuneInString s).1 else pr (DecodeRuneInString s).1) = true
      · simp only [hc, if_true]
        have hv := scan_cond_valid pf pr hpf hpr hc
        have he := (encode_decode s hs hv).1
        conv => rhs; rw [← he]
        exact (List.prefix_append_right_inj _).2 (ih false _)
      · simp [hc]

theorem scanRunes_stop (fuel : Nat) (first : Bool) (s : Str) (hf : s.length ≤ fuel) :
    s.drop (scanRunes pf pr fuel first s).length = [] ∨
      (if first && (scanRunes pf pr fuel first s).isEmpty then
        pf (DecodeRuneInString (s.drop (scanRunes pf pr fuel first s).length)).1
      else pr (DecodeRuneInString (s.drop (scanRunes pf pr fuel first s).length)).1) = false := by
  induction fuel generalizing first s with
  | zero =>
    left
    have hs : s = [] := List.length_eq_zero.1 (Nat.le_zero.1 hf)
    simp [hs]
  | succ n ih =>
    simp only [scanRunes]
    by_cases hs : s = []
    · simp [hs]
    · simp only [hs, if_false]
      by_cases hc : (if first then pf (DecodeRuneInString s).1 else pr (DecodeRuneInString s).1) = true
      · simp only [hc, if_true]
        have hv := scan_cond_valid pf pr hpf hpr hc
        obtain ⟨he, hlen⟩ := encode_decode s hs hv
        have hw := decode_width_pos s hs
        have hl : 0 < s.length := List.length_pos.2 hs
        have := ih false (s.drop (DecodeRuneInString s).2) (by simp; omega)
        have hne : (encodeRune (DecodeRuneInString s).1 ++
            scanRunes pf pr n false (s.drop (DecodeRuneInString s).2)).isEmpty = false := by
          cases hh : encodeRune (DecodeRuneInString s).1 with
          | nil => rw [hh] at hlen; simp at hlen; omega
          | cons a b => simp
        have hdd : s.drop ((encodeRune (DecodeRuneInString s).1 ++
            scanRunes pf pr n false (s.drop (DecodeRuneInString s).2)).length) =
            (s.drop (DecodeRuneInString s).2).drop
              (scanRunes pf pr n false (s.drop (DecodeRuneInString s).2)).length := by
          rw [List.length_append, hlen, List.drop_drop, Nat.add_comm]
        rw [hdd, hne]
        simpa using this
      · right
        simp only [hc, if_false, Bool.false_eq_true, List.length_nil, List.drop_zero,
          List.isEmpty_nil, Bool.and_true]

theorem scanRunes_ne_nil_iff (fuel : Nat) (first : Bool) (s : Str) (hf : s.length ≤ fuel) :
    scanRunes pf pr fuel first s ≠ [] ↔
      s ≠ [] ∧ (if first then pf (DecodeRuneInString s).1 else pr (DecodeRuneInString s).1) = true := by
  cases fuel with
  | zero =>
    have hs : s = [] := List.length_eq_zero.1 (Nat.le_zero.1 hf)
    simp [hs, scanRunes]
  | succ n =>
    simp only [scanRunes]
    by_cases hs : s = []
    · simp [hs]
    · simp only [hs, if_false, ne_eq, not_false_eq_true, true_and]
      by_cases hc : (if first then pf (DecodeRuneInString s).1 else pr (DecodeRuneInString s).1) = true
      · simp only [hc, if_true, iff_true]
        have hv := scan_cond_valid pf pr hpf hpr hc
        obtain ⟨he, hlen⟩ := encode_decode s hs hv
        have hw := decode_width_pos s hs
        intro h
        have h1 : encodeRune (DecodeRuneInString s).1 = [] := (List.append_eq_nil.1 h).1
        rw [h1] at hlen
        simp at hlen
        omega
      · simp [hc]

theorem scanRunes_ok (fuel : Nat) (first : Bool) (s : Str) :
    okRunes pf pr first (runesOf (scanRunes pf pr fuel first s)) = true := by
  induction fuel generalizing first s with
  | zero => simp [scanRunes, runesOf_nil, okRunes]
  | succ n ih =>
    simp only [scanRunes]
    by_cases hs : s = []
    · simp [hs, runesOf_nil, okRunes]
    · simp only [hs, if_false]
      by_cases hc : (if first then pf (DecodeRuneInString s).1 else pr (DecodeRuneInString s).1) = true
      · simp only [hc, if_true]
        have hv := scan_cond_valid pf pr hpf hpr hc
        obtain ⟨he, hlen⟩ := encode_decode s hs hv
        have hw := decode_width_pos s hs
        have hane : encodeRune (DecodeRuneInString s).1 ≠ [] := by
          intro h; rw [h] at hlen; simp at hlen; omega
        have hd : DecodeRuneInString (encodeRune (DecodeRuneInString s).1 ++
            scanRunes pf pr n false (s.drop (DecodeRuneInString s).2)) = DecodeRuneInString s := by
          have h1 := decode_prefix_congr (encodeRune (DecodeRuneInString s).1)
            (scanRunes pf pr n false (s.drop (DecodeRuneInString s).2))
            (s.drop (DecodeRuneInString s).2) hane (by rw [he]; exact hv) (by rw [he, hlen])
          rw [h1, he]
        rw [runesOf_eq _ (by simp [hane]), hd, List.drop_left' hlen]
        have := ih false (s.drop (DecodeRuneInString s).2)
        simp only [okRunes, hc, Bool.true_and]
        cases hr : runesOf (scanRunes pf pr n false (List.drop (DecodeRuneInString s).2 s)) with
        | nil => simp
        | cons c cs =>
          rw [hr] at this
          simpa [okRunes] using this
      · simp [hc, runesOf_nil, okRunes]

theorem scanRunes_longest (fuel : Nat) (first : Bool) (s q : Str) (hf : s.length ≤ fuel)
    (hq : q <+: s) (hok : okRunes pf pr first (runesOf q) = true) :
    q.length ≤ (scanRunes pf pr fuel first s).length := by
  induction fuel generalizing first s q with
  | zero =>
    have hs : s = [] := List.length_eq_zero.1 (Nat.le_zero.1 hf)
    subst hs
    simp [List.prefix_nil.1 hq]
  | succ n ih =>
    by_cases hqn : q = []
    · simp [hqn]
    · obtain ⟨y, hy⟩ := hq
      have hs : s ≠ [] := by rintro rfl; simp at hy; exact hqn hy.1
      rw [runesOf_eq q hqn] at hok
      simp only [okRunes, Bool.and_eq_true] at hok
      obtain ⟨hc, hrest⟩ := hok
      have hvq := scan_cond_valid pf pr hpf hpr hc
      have hds : DecodeRuneInString s = DecodeRuneInString q := by
        rw [← hy]; exact decode_append_of_valid q y hqn hvq
      have hcs : (if first then pf (DecodeRuneInString s).1 else pr (DecodeRuneInString s).1) = true := by
        rw [hds]; exact hc
      obtain ⟨heq, hlenq⟩ := encode_decode q hqn hvq
      have hw := decode_width_pos q hqn
      rw [hds] at hcs
      simp only [scanRunes, hs, if_false, hds, hcs, if_true, List.length_append, hlenq]
      have hwq : (DecodeRuneInString q).2 ≤ q.length := by
        have := congrArg List.length heq
        simp at this; omega
      have hpre : q.drop (DecodeRuneInString q).2 <+: s.drop (DecodeRuneInString q).2 := by
        refine ⟨y, ?_⟩
        rw [← hy, List.drop_append_of_le_length hwq]
      have hok' : okRunes pf pr false (runesOf (q.drop (DecodeRuneInString q).2)) = true := by
        cases hr : runesOf (q.drop (DecodeRuneInString q).2) with
        | nil => rfl
        | cons c cs =>
          rw [hr] at hrest
          simpa [okRunes] using hrest
      have hl : 0 < s.length := List.length_pos.2 hs
      have := ih false (s.drop (DecodeRuneInString q).2) (q.drop (DecodeRuneInString q).2)
        (by simp; omega) hpre hok'
      simp at this
      omega

end scan

theorem lead_not_cont (b : Nat) (t : Str) (h : DecodeRuneInString (b :: t) ≠ (RuneError, 1)) :
    isCont b = false := by
  simp only [DecodeRuneInString] at h
  simp only [isCont, decide_eq_false_iff_not, not_and, not_le]
  split_ifs at h with h1 h2
  · omega
  · exact absurd rfl h
  all_goals omega

theorem isCont_of_accepts {s0 s1 : Nat} (h : accepts s0 s1 = true) : isCont s1 = true := by
  simp only [accepts, decide_eq_true_eq] at h
  simp only [isCont, decide_eq_true_eq]
  split_ifs at h <;> omega

/-- A well-formed rune is a lead byte followed by continuation bytes. -/
theorem decode_shape (s : Str) (hs : s ≠ []) (h : DecodeRuneInString s ≠ (RuneError, 1)) :
    ∃ s0 cs, s = s0 :: (cs ++ s.drop (DecodeRuneInString s).2) ∧ (∀ c ∈ cs, isCont c = true) ∧
      isCont s0 = false ∧ cs.length + 1 = (DecodeRuneInString s).2 := by
  rcases s with _ | ⟨s0, t⟩
  · exact absurd rfl hs
  · have hl := lead_not_cont s0 t h
    simp only [DecodeRuneInString] at h ⊢
    split_ifs at h ⊢ with c1 c2 c3 c4
    · exact ⟨s0, [], by simp, by simp, hl, rfl⟩
    · exact absurd rfl h
    · rcases t with _ | ⟨s1, t1⟩
      · exact absurd rfl h
      · simp only at h ⊢
        split_ifs at h ⊢ with ha
        · exact ⟨s0, [s1], by simp, by simpa using isCont_of_accepts ha, hl, rfl⟩
        · exact absurd rfl h
    · rcases t with _ | ⟨s1, _ | ⟨s2, t2⟩⟩
      · exact absurd rfl h
      · exact absurd rfl h
      · simp only at h ⊢
        split_ifs at h ⊢ with ha
        · exact ⟨s0, [s1, s2], by simp, by simpa using ⟨isCont_of_accepts ha.1, ha.2⟩, hl, rfl⟩
        · exact absurd rfl h
    · rcases t with _ | ⟨s1, _ | ⟨s2, _ | ⟨s3, t3⟩⟩⟩
      · exact absurd rfl h
      · exact absurd rfl h
      · exact absurd rfl h
      · simp only at h ⊢
        split_ifs at h ⊢ with ha
        · exact ⟨s0, [s1, s2, s3], by simp,
            by simpa using ⟨isCont_of_accepts ha.1, ha.2.1, ha.2.2⟩, hl, rfl⟩
        · exact absurd rfl h

/-- A suffix that starts with a byte that is not a continuation byte does not
start inside a run of continuation bytes. -/
theorem suffix_after_cont (cs t y1 x2 : Str) (b : Nat) (x2' : Str)
    (hcs : ∀ c ∈ cs, isCont c = true) (h : cs ++ t = y1 ++ x2) (hx : x2 = b :: x2')
    (hb : isCont b = false) : ∃ y, t = y ++ x2 := by
  induction cs generalizing y1 with
  | nil => exact ⟨y1, by simpa using h⟩
  | cons c cs ih =>
    rcases y1 with _ | ⟨d, y1'⟩
    · exfalso
      subst hx
      simp only [List.cons_append, List.nil_append, List.cons.injEq] at h
      have := hcs c (List.mem_cons_self _ _)
      rw [h.1] at this
      rw [this] at hb
      cases hb
    · simp only [List.cons_append, List.cons.injEq] at h
      exact ih y1' (fun c hc => hcs c (List.mem_cons_of_mem _ hc)) h.2

/-! ## Valid strings and occurrences of a separator -/

theorem validUTF8_fuel (fuel1 fuel2 : Nat) (s : Str) (h1 : s.length ≤ fuel1)
    (h2 : s.length ≤ fuel2) : validUTF8 fuel1 s = validUTF8 fuel2 s := by
  induction fuel1 generalizing fuel2 s with
  | zero =>
    have hs : s = [] := List.length_eq_zero.1 (Nat.le_zero.1 h1)
    subst hs
    cases fuel2 <;> simp [validUTF8]
  | succ n ih =>
    cases fuel2 with
    | zero =>
      have hs : s = [] := List.length_eq_zero.1 (Nat.le_zero.1 h2)
      subst hs; simp [validUTF8]
    | succ k =>
      simp only [validUTF8]
      by_cases hs : s = []
      · simp [hs]
      · simp only [hs, if_false]
        have hw := decode_width_pos s hs
        have hl : 0 < s.length := List.length_pos.2 hs
        rw [ih k (s.drop (DecodeRuneInString s).2) (by simp; omega) (by simp; omega)]

theorem validString_iff (s : Str) (hs : s ≠ []) :
    ValidString s = true ↔
      DecodeRuneInString s ≠ (RuneError, 1) ∧ ValidString (s.drop (DecodeRuneInString s).2) = true := by
  have hl : 0 < s.length := List.length_pos.2 hs
  have hw := decode_width_pos s hs
  obtain ⟨n, hn⟩ : ∃ n, s.length = n + 1 := ⟨s.length - 1, by omega⟩
  rw [ValidString, hn, validUTF8, if_neg hs, ValidString,
    validUTF8_fuel n (s.drop (DecodeRuneInString s).2).length _ (by simp; omega) (le_refl _)]
  simp

theorem first_rune_mem (s : Str) (hs : s ≠ []) : (DecodeRuneInString s).1 ∈ runesOf s := by
  rw [runesOf_eq s hs]; exact List.mem_cons_self _ _

theorem runes_drop_subset (s : Str) (hs : s ≠ []) (c : Nat)
    (hc : c ∈ runesOf (s.drop (DecodeRuneInString s).2)) : c ∈ runesOf s := by
  rw [runesOf_eq s hs]; exact List.mem_cons_of_mem _ hc

/-- In a valid string, a suffix that starts with a byte that is not a
continuation byte starts at a rune boundary. -/
theorem suffix_boundary (n : Nat) (t x1 x2 : Str) (b : Nat) (x2' : Str) (hn : t.length ≤ n)
    (hv : ValidString t = true) (ht : t = x1 ++ x2) (hx : x2 = b :: x2')
    (hb : isCont b = false) :
    DecodeRuneInString x2 ≠ (RuneError, 1) ∧ (DecodeRuneInString x2).1 ∈ runesOf t := by
  induction n generalizing t x1 with
  | zero =>
    have : t = [] := List.length_eq_zero.1 (Nat.le_zero.1 hn)
    subst this; subst hx
    simp at ht
  | succ n ih =>
    have htn : t ≠ [] := by
      rintro rfl; subst hx; simp at ht
    obtain ⟨hd, hvd⟩ := (validString_iff t htn).1 hv
    rcases x1 with _ | ⟨d, x1'⟩
    · simp only [List.nil_append] at ht
      subst ht
      exact ⟨hd, first_rune_mem _ htn⟩
    · obtain ⟨s0, cs, hsh, hcs, -, hlen⟩ := decode_shape t htn hd
      have hw := decode_width_pos t htn
      have hl : 0 < t.length := List.length_pos.2 htn
      have e : cs ++ t.drop (DecodeRuneInString t).2 = x1' ++ x2 := by
        have := hsh.symm.trans ht
        simp only [List.cons_append, List.cons.injEq] at this
        exact this.2
      obtain ⟨y, hy⟩ := suffix_after_cont cs _ x1' x2 b x2' hcs e hx hb
      obtain ⟨h1, h2⟩ := ih (t.drop (DecodeRuneInString t).2) y (by simp; omega) hvd hy
      exact ⟨h1, runes_drop_subset t htn _ h2⟩

theorem first_rune_eq_of_starts (p q y : Str) (hp : p ≠ []) (hq : q ≠ [])
    (hpv : DecodeRuneInString p ≠ (RuneError, 1)) (hqv : DecodeRuneInString q ≠ (RuneError, 1))
    (h : p <+: q ++ y) : DecodeRuneInString p = DecodeRuneInString q := by
  obtain ⟨z, hz⟩ := h
  rw [← decode_append_of_valid p z hp hpv, hz, decode_append_of_valid q y hq hqv]

theorem noOcc_of_disjoint (t sep : Str) (hsn : sep ≠ []) (htv : ValidString t = true)
    (hsv : ValidString sep = true) (hd : ∀ c ∈ runesOf t, c ∉ runesOf sep) : NoOcc sep t := by
  intro x1 x2 y ht hx2 hpre
  obtain ⟨hsd, -⟩ := (validString_iff sep hsn).1 hsv
  rcases x2 with _ | ⟨b, x2'⟩
  · exact hx2 rfl
  · rcases sep with _ | ⟨b', sep'⟩
    · exact hsn rfl
    · have hbb : b' = b := by
        obtain ⟨z, hz⟩ := hpre
        simp only [List.cons_append, List.cons.injEq] at hz
        exact hz.1
      have hb : isCont b = false := hbb ▸ lead_not_cont b' sep' hsd
      obtain ⟨h1, h2⟩ := suffix_boundary t.length t x1 (b :: x2') b x2' (le_refl _) htv ht rfl hb
      have := first_rune_eq_of_starts (b' :: sep') (b :: x2') y hsn hx2 hsd h1 hpre
      apply hd _ h2
      rw [← this]
      exact first_rune_mem _ hsn

theorem noOcc_nil (sep : Str) : NoOcc sep [] := by
  intro x1 x2 y h hx2
  have := List.append_eq_nil.1 h.symm
  exact absurd this.2 hx2

theorem noOcc_append (sep a b : Str) (ha : NoOcc sep a) (hb : NoOcc sep b) :
    NoOcc sep (a ++ b) := by
  intro x1 x2 y h hx2
  rcases List.append_eq_append_iff.1 h with ⟨a', rfl, hb'⟩ | ⟨c', rfl, hx⟩
  · exact hb a' x2 y hb' hx2
  · by_cases hc : c' = []
    · have hx' : x2 = b := by simpa [hc] using hx
      rw [hx'] at hx2 ⊢
      exact hb [] b y rfl hx2
    · rw [hx, List.append_assoc]
      exact ha x1 c' (b ++ y) rfl hc

theorem isSpace_of_asciiSpace {b : Nat} (h : isAsciiSpace b = true) :
    IsSpace b = true ∧ b < 0x80 := by
  simp only [isAsciiSpace, Bool.decide_or, Bool.or_eq_true, decide_eq_true_eq] at h
  rcases h with h | h | h | h | h | h <;> subst h <;> decide

theorem decode_ascii (b : Nat) (t : Str) (h : b < 0x80) : DecodeRuneInString (b :: t) = (b, 1) := by
  simp [DecodeRuneInString, h]

theorem noOcc_asciiSpace (sep w : Str) (hsn : sep ≠ []) (hw : w.all isAsciiSpace = true)
    (hsW : ∀ c ∈ runesOf sep, IsSpace c = false) : NoOcc sep w := by
  intro x1 x2 y h hx2 hpre
  rcases x2 with _ | ⟨b, x2'⟩
  · exact hx2 rfl
  · have hb : isAsciiSpace b = true := by
      rw [List.all_eq_true] at hw
      exact hw b (by rw [h]; simp)
    obtain ⟨hb1, hb2⟩ := isSpace_of_asciiSpace hb
    rcases sep with _ | ⟨b', sep'⟩
    · exact hsn rfl
    · obtain ⟨z, hz⟩ := hpre
      simp only [List.cons_append, List.cons.injEq] at hz
      obtain ⟨hbb, -⟩ := hz
      subst hbb
      have hm := first_rune_mem (b' :: sep') (by simp)
      rw [decode_ascii b' sep' hb2] at hm
      have := hsW b' hm
      rw [hb1] at this
      cases this

theorem index_noOcc (sep x y : Str) (h : NoOcc sep x) :
    Index (x ++ y) sep = (Index y sep).map (· + x.length) := by
  induction x with
  | nil => simp
  | cons b x ih =>
    have hnp : HasPrefix (b :: x ++ y) sep = false := by
      cases hh : HasPrefix (b :: x ++ y) sep with
      | false => rfl
      | true => exact absurd ((hasPrefix_iff _ _).1 hh) (h [] (b :: x) y rfl (by simp))
    have hx : NoOcc sep x := by
      intro x1 x2 y' hx hx2
      exact h (b :: x1) x2 y' (by rw [hx]; rfl) hx2
    rw [List.cons_append] at hnp ⊢
    rw [Index, hnp]
    simp only [Bool.false_eq_true, if_false, ih hx, Option.map_map, List.length_cons]
    congr 1

theorem index_self (sep y : Str) : Index (sep ++ y) sep = some 0 := by
  rw [Index.eq_def, hasPrefix_append]; rfl

theorem index_nil (sep : Str) (hsn : sep ≠ []) : Index [] sep = none := by
  cases sep with
  | nil => exact absurd rfl hsn
  | cons b s => simp [Index, HasPrefix]

/-- The first occurrence of `sep` in `x ++ sep ++ y` is right after `x`. -/
theorem index_after (sep x y : Str) (h : NoOcc sep x) :
    Index (x ++ (sep ++ y)) sep = some x.length := by
  rw [index_noOcc sep x _ h, index_self]; simp

theorem countSep_none (sep x : Str) (fuel : Nat) (hsn : sep ≠ []) (h : NoOcc sep x) :
    countSep sep fuel x = 0 := by
  cases fuel with
  | zero => rfl
  | succ n =>
    have := index_noOcc sep x [] h
    rw [List.append_nil, index_nil sep hsn] at this
    simp [countSep, this]

theorem countSep_after (sep x y : Str) (fuel : Nat) (h : NoOcc sep x) :
    countSep sep (fuel + 1) (x ++ (sep ++ y)) = 1 + countSep sep fuel y := by
  simp only [countSep, index_after sep x y h]
  congr 2
  rw [← List.append_assoc, ← List.length_append, List.drop_left]

/-! ## Unfolding the engine -/

theorem lexString_literal_eq (U : UnicodeTables) (l : Lexer) (fuel : Nat) (str e : Str)
    (h1 : HasPrefix e TermPrefix = false) (h2 : HasPrefix e BuiltInPrefix = false) :
    lexString U l fuel str e =
      if HasPrefix (skipSpace str) (literalOf e) then
        some ⟨[literalOf e], 1, true, true, (skipSpace str).drop (literalOf e).length⟩
      else some ⟨[], 0, false, false, skipSpace str⟩ := by
  cases fuel <;> simp [lexString, h1, h2, literalOf]

theorem lexString_term_eq (U : UnicodeTables) (l : Lexer) (fuel : Nat) (str name : Str) :
    lexString U l (fuel + 1) str (TermPrefix ++ name) =
      matchTerm (lexString U l fuel) l (skipSpace str) name := by
  simp [lexString, HasPrefix, TermPrefix]

theorem lexString_builtin_eq (U : UnicodeTables) (l : Lexer) (fuel : Nat) (str name : Str) :
    lexString U l fuel str (BuiltInPrefix ++ name) =
      some (matchBuiltIn U (skipSpace str) name) := by
  cases fuel <;> simp [lexString, HasPrefix, TermPrefix, BuiltInPrefix]

theorem parseToken_one_eq (lex : Str → Str → Option LexResult) (str e sep : Str) :
    parseToken lex str ⟨e, CardinalityOne, sep⟩ =
      match lex str e with
      | none => none
      | some r =>
        if r.numMatched ≠ 1 then some ⟨r.result, false, r.rest⟩
        else some ⟨r.result, r.matched, r.rest⟩ := by
  have h1 : ¬ (CardinalityOne = CardinalityOptional) := by decide
  have h2 : ¬ (CardinalityOne = CardinalityAtLeastOne) := by decide
  have h3 : ¬ (CardinalityOne = CardinalityMany) := by decide
  simp only [parseToken, if_neg h1, if_neg h2, if_neg h3]

theorem parseToken_one_literal (U : UnicodeTables) (l : Lexer) (fuel : Nat) (str e sep : Str)
    (h1 : HasPrefix e TermPrefix = false) (h2 : HasPrefix e BuiltInPrefix = false) :
    parseToken (lexString U l fuel) str ⟨e, CardinalityOne, sep⟩ =
      if HasPrefix (skipSpace str) (literalOf e) then
        some ⟨[literalOf e], true, (skipSpace str).drop (literalOf e).length⟩
      else some ⟨[], false, skipSpace str⟩ := by
  rw [parseToken_one_eq, lexString_literal_eq U l fuel str e h1 h2]
  by_cases h : HasPrefix (skipSpace str) (literalOf e) = true
  · simp [h]
  · simp [h]

theorem literalOf_eq_self {e : Str} (h : HasPrefix e LiteralPrefix = false) : literalOf e = e := by
  simp [literalOf, h]

theorem isSpace_runeError : IsSpace RuneError = false := by decide

theorem not_space_append_ascii (s t : Str) (b : Nat) (hb : b < 0x80) (hbs : IsSpace b = false)
    (h : s = [] ∨ IsSpace (DecodeRuneInString s).1 = false) :
    IsSpace (DecodeRuneInString (s ++ b :: t)).1 = false := by
  rcases h with rfl | h
  · simp [DecodeRuneInString, hb, hbs]
  · by_cases hs : s = []
    · subst hs; simp [DecodeRuneInString, hb, hbs]
    · by_cases hv : DecodeRuneInString s = (RuneError, 1)
      · rw [decode_append_of_invalid s t b hs (isCont_false_of_lt hb) hv]; exact isSpace_runeError
      · rw [decode_append_of_valid s (b :: t) hs hv]; exact h

theorem trimSpaceIsEmpty_nil : trimSpaceIsEmpty [] = true := by decide

/-- C1 (amended): for every string `s` that starts with none of the sigils
`$`, `!`, `@` and does not start with a white space character, and every
registry and name `T`: once the term whose only phrase is the single
One-cardinality token with identifier `s` is registered under `T`,
`MatchString(s, "$T")` returns captures `[s]` and matched = true, and
`MatchString(s ++ "x", "$T")` returns matched = false. -/
theorem literal_rule_matches_itself (U : UnicodeTables) (l : Lexer) (T s sep : Str) (fuel : Nat)
    (hT : HasPrefix s TermPrefix = false) (hB : HasPrefix s BuiltInPrefix = false)
    (hL : HasPrefix s LiteralPrefix = false)
    (hW : s = [] ∨ IsSpace (DecodeRuneInString s).1 = false) :
    MatchString U (l.AddTerm ⟨[⟨[⟨s, CardinalityOne, sep⟩]⟩]⟩ T) (fuel + 1) s (TermPrefix ++ T)
        = some ([s], true) ∧
      MatchString U (l.AddTerm ⟨[⟨[⟨s, CardinalityOne, sep⟩]⟩]⟩ T) (fuel + 1) (s ++ ascii "x")
        (TermPrefix ++ T) = some ([s], false) := by
  have hx : skipSpace (s ++ ascii "x") = s ++ ascii "x" :=
    skipSpace_eq_self (Or.inr (not_space_append_ascii s [] 0x78 (by decide) (by decide) hW))
  constructor
  · simp [MatchString, lexString_term_eq, matchTerm, lookup_AddTerm, matchPhrases,
      matchAlternatives, parseToken_one_literal U _ fuel _ s sep hT hB, literalOf_eq_self hL,
      skipSpace_eq_self hW, HasPrefix, trimSpaceIsEmpty_nil]
  · have hx' : skipSpace (s ++ [120]) = s ++ [120] := hx
    simp [MatchString, lexString_term_eq, matchTerm, lookup_AddTerm, matchPhrases,
      matchAlternatives, parseToken_one_literal U _ fuel _ s sep hT hB, literalOf_eq_self hL,
      skipSpace_eq_self hW, HasPrefix, ascii, hx']
    decide

/-- C1 (witness): the rule `foo` of the test grammar on `foo` and `foox`. -/
theorem literal_rule_matches_itself_witness :
    MatchString latin1Tables (NewLexer.AddTerm ⟨[⟨[⟨ascii "foo", CardinalityOne, []⟩]⟩]⟩ (ascii "foo")) 1
        (ascii "foo") (TermPrefix ++ ascii "foo") = some ([ascii "foo"], true) ∧
      MatchString latin1Tables (NewLexer.AddTerm ⟨[⟨[⟨ascii "foo", CardinalityOne, []⟩]⟩]⟩ (ascii "foo")) 1
        (ascii "foo" ++ ascii "x") (TermPrefix ++ ascii "foo") = some ([ascii "foo"], false) :=
  literal_rule_matches_itself latin1Tables NewLexer (ascii "foo") (ascii "foo") [] 0
    (by decide) (by decide) (by decide) (by decide)

/-- C1 (counterexample): the term whose single One-cardinality token has the
identifier `@` does not match the input `@`: the identifier is the escape
sigil followed by the empty literal, so the capture is the empty string, the
`@` of the input is left over and matched = false. -/
theorem escape_sigil_rule_does_not_match_itself :
    MatchString latin1Tables (NewLexer.AddTerm ⟨[⟨[⟨ascii "@", CardinalityOne, []⟩]⟩]⟩ (ascii "T")) 1
        (ascii "@") (TermPrefix ++ ascii "T") = some ([[]], false) := by
  decide

/-- Literal dispatch of `lexString`, stated on the cursor that its white
space loop leaves (`skipSpace input`).  For an identifier `e` that starts
with neither `$` nor `!`, with `lit = literalOf e` (one leading `@` removed)
and `r = skipSpace input`: `lexString` returns, it reports matched iff `lit`
is a prefix of `r`; when it matches the captures are `[lit]`, the match count
is 1 and `r` is `lit` followed by the cursor left behind; when it does not
match there are no captures, the match count is 0 and the cursor is `r`. -/
theorem lexString_literal_dispatch (U : UnicodeTables) (l : Lexer) (fuel : Nat) (input e : Str)
    (hT : HasPrefix e TermPrefix = false) (hB : HasPrefix e BuiltInPrefix = false) :
    ∃ res, lexString U l fuel input e = some res ∧
      (res.matched = true ↔ literalOf e <+: skipSpace input) ∧
      (res.matched = true →
        res.result = [literalOf e] ∧ res.numMatched = 1 ∧
          skipSpace input = literalOf e ++ res.rest) ∧
      (res.matched = false →
        res.result = [] ∧ res.numMatched = 0 ∧ res.rest = skipSpace input) := by
  rw [lexString_literal_eq U l fuel input e hT hB]
  by_cases h : HasPrefix (skipSpace input) (literalOf e) = true
  · have hp := (hasPrefix_iff _ _).1 h
    obtain ⟨t, ht⟩ := hp
    refine ⟨_, by rw [if_pos h], ?_, ?_, ?_⟩
    · simp [← ht]
    · intro _
      refine ⟨rfl, rfl, ?_⟩
      simp [← ht]
    · intro hc; simp at hc
  · refine ⟨_, by rw [if_neg h], ?_, ?_, ?_⟩
    · simp only [Bool.false_eq_true, false_iff]
      intro hp; exact h ((hasPrefix_iff _ _).2 hp)
    · intro hc; simp at hc
    · intro _; exact ⟨rfl, rfl, rfl⟩

/-- Literal dispatch at a concrete input: the escaped sigil `@$` on the
input ` $x`. -/
theorem lexString_literal_dispatch_witness :
    ∃ res, lexString latin1Tables NewLexer 0 (ascii " $x") (ascii "@$") = some res ∧
      (res.matched = true ↔ literalOf (ascii "@$") <+: skipSpace (ascii " $x")) ∧
      (res.matched = true →
        res.result = [literalOf (ascii "@$")] ∧ res.numMatched = 1 ∧
          skipSpace (ascii " $x") = literalOf (ascii "@$") ++ res.rest) ∧
      (res.matched = false →
        res.result = [] ∧ res.numMatched = 0 ∧ res.rest = skipSpace (ascii " $x")) :=
  lexString_literal_dispatch latin1Tables NewLexer 0 (ascii " $x") (ascii "@$")
    (by decide) (by decide)

theorem manyLoop_eq_atLeastOneLoop (lex : Str → Str → Option LexResult) (token : SyntaxToken)
    (n : Nat) (str : Str) (subStrings : List Str) :
    manyLoop lex token n str subStrings = atLeastOneLoop lex token n str subStrings := by
  induction n generalizing str subStrings with
  | zero => rfl
  | succ n ih =>
    simp only [manyLoop, atLeastOneLoop]
    cases lex str token.Ident with
    | none => rfl
    | some r =>
      simp only
      split
      · rfl
      · split
        · cases lex r.rest token.Separator with
          | none => rfl
          | some rs => simp only [ih]
        · simp only [ih]

theorem parseToken_atLeastOne_eq (lex : Str → Str → Option LexResult) (str e sep : Str) :
    parseToken lex str ⟨e, CardinalityAtLeastOne, sep⟩ =
      match atLeastOneLoop lex ⟨e, CardinalityAtLeastOne, sep⟩ (splitLen str sep) str [] with
      | none => none
      | some (subStrings, completed, rest) =>
        if completed then some ⟨subStrings, decide (subStrings.length ≥ 1), rest⟩
        else some ⟨subStrings, false, rest⟩ := by
  have h1 : ¬ (CardinalityAtLeastOne = CardinalityOptional) := by decide
  simp only [parseToken, if_neg h1, if_true]

theorem parseToken_many_eq (lex : Str → Str → Option LexResult) (str e sep : Str) :
    parseToken lex str ⟨e, CardinalityMany, sep⟩ =
      if str = [] then some ⟨[], true, str⟩
      else
        match manyLoop lex ⟨e, CardinalityMany, sep⟩ (splitLen str sep) str [] with
        | none => none
        | some (subStrings, completed, rest) =>
          if completed then some ⟨subStrings, true, rest⟩
          else some ⟨subStrings, false, rest⟩ := by
  have h1 : ¬ (CardinalityMany = CardinalityOptional) := by decide
  have h2 : ¬ (CardinalityMany = CardinalityAtLeastOne) := by decide
  simp only [parseToken, if_neg h1, if_neg h2, if_true]

theorem atLeastOneLoop_token_irrel (lex : Str → Str → Option LexResult) (e sep : Str)
    (c1 c2 : TermCardinality) (n : Nat) (str : Str) (subStrings : List Str) :
    atLeastOneLoop lex ⟨e, c1, sep⟩ n str subStrings =
      atLeastOneLoop lex ⟨e, c2, sep⟩ n str subStrings := by
  induction n generalizing str subStrings with
  | zero => rfl
  | succ n ih =>
    simp only [atLeastOneLoop]
    cases lex str e with
    | none => rfl
    | some r =>
      simp only
      split
      · rfl
      · split
        · cases lex r.rest sep with
          | none => rfl
          | some rs => simp only [ih]
        · simp only [ih]

/-- C5 (amended): on every non-empty remaining input `parseToken` with
cardinality Many either runs out of fuel together with AtLeastOne or returns
the same captures and the same remaining input as AtLeastOne on the same
token; the success flags are equal whenever a capture is returned, and Many
succeeds whenever AtLeastOne does (they differ only when every repetition
matched without a capture: AtLeastOne then fails, Many succeeds).  On an empty
remaining input Many succeeds with zero captures and consumes nothing. -/
theorem many_agrees_with_atLeastOne (lex : Str → Str → Option LexResult) (str e sep : Str) :
    (str ≠ [] →
      (parseToken lex str ⟨e, CardinalityMany, sep⟩).map (fun r => (r.result, r.rest)) =
        (parseToken lex str ⟨e, CardinalityAtLeastOne, sep⟩).map (fun r => (r.result, r.rest)) ∧
      ∀ a m, parseToken lex str ⟨e, CardinalityAtLeastOne, sep⟩ = some a →
        parseToken lex str ⟨e, CardinalityMany, sep⟩ = some m →
          (a.result ≠ [] → m.matched = a.matched) ∧
          (a.matched = true → m.matched = true)) ∧
    parseToken lex [] ⟨e, CardinalityMany, sep⟩ = some ⟨[], true, []⟩ := by
  refine ⟨fun hne => ?_, ?_⟩
  · rw [parseToken_many_eq, parseToken_atLeastOne_eq, if_neg hne, manyLoop_eq_atLeastOneLoop,
      atLeastOneLoop_token_irrel lex e sep CardinalityMany CardinalityAtLeastOne]
    cases atLeastOneLoop lex ⟨e, CardinalityAtLeastOne, sep⟩ (splitLen str sep) str [] with
    | none => simp
    | some v =>
      obtain ⟨subStrings, completed, rest⟩ := v
      cases completed with
      | false => simp
      | true =>
        simp only [Option.map_some', ite_true, Option.some.injEq, true_and]
        rintro a m rfl rfl
        simp only [ge_iff_le, decide_eq_true_eq, implies_true, and_true]
        intro h
        simpa using List.length_pos.2 h
  · rw [parseToken_many_eq]; simp

theorem matchAlternatives_literals (U : UnicodeTables) (l : Lexer) (fuel : Nat)
    (toks : List SyntaxToken) (r : Str) (hr : skipSpace r = r)
    (hOne : ∀ tok ∈ toks, tok.Cardinality = CardinalityOne)
    (hLit : ∀ tok ∈ toks, HasPrefix tok.Ident TermPrefix = false ∧
      HasPrefix tok.Ident BuiltInPrefix = false ∧ HasPrefix tok.Ident LiteralPrefix = false) :
    matchAlternatives (lexString U l fuel) toks r =
      match toks.find? (fun tok => HasPrefix r tok.Ident) with
      | some tok => some ([tok.Ident], true, r.drop tok.Ident.length)
      | none => some ([], false, r) := by
  induction toks with
  | nil => rfl
  | cons tok toks ih =>
    obtain ⟨e, c, sep⟩ := tok
    have hc : c = CardinalityOne := hOne _ (List.mem_cons_self _ _)
    obtain ⟨h1, h2, h3⟩ := hLit _ (List.mem_cons_self _ _)
    subst hc
    simp only at h1 h2 h3
    have ih' := ih (fun t ht => hOne t (List.mem_cons_of_mem _ ht))
      (fun t ht => hLit t (List.mem_cons_of_mem _ ht))
    simp only [matchAlternatives, parseToken_one_literal U l fuel r e sep h1 h2,
      literalOf_eq_self h3, hr]
    by_cases h : HasPrefix r e = true
    · simp [h]
    · simp only [h, if_false, Bool.false_eq_true]
      rw [ih', List.find?_cons_of_neg _ (by simpa using h)]

/-- Ordered alternation, stated on the cursor that the white space loop
leaves (`skipSpace input`).  For a term `T` whose only phrase lists
One-cardinality literal alternatives (none starting with `$`, `!` or `@`),
`lexString(input, "$T")` returns; it matches iff some alternative is a prefix
of `skipSpace input`; when it matches, the captures are exactly the first
alternative in listed order that is such a prefix (every earlier one is not)
and exactly that alternative is consumed; when it does not match nothing is
captured or consumed; and `MatchString` reports success only if what is left
over is white space. -/
theorem ordered_alternation (U : UnicodeTables) (l : Lexer) (T : Str) (toks : List SyntaxToken)
    (fuel : Nat) (input : Str)
    (hOne : ∀ tok ∈ toks, tok.Cardinality = CardinalityOne)
    (hLit : ∀ tok ∈ toks, HasPrefix tok.Ident TermPrefix = false ∧
      HasPrefix tok.Ident BuiltInPrefix = false ∧ HasPrefix tok.Ident LiteralPrefix = false) :
    ∃ res, lexString U (l.AddTerm ⟨[⟨toks⟩]⟩ T) (fuel + 1) input (TermPrefix ++ T) = some res ∧
      (res.matched = true ↔ ∃ tok ∈ toks, tok.Ident <+: skipSpace input) ∧
      (res.matched = true →
        ∃ pre tok post, toks = pre ++ tok :: post ∧
          (∀ p ∈ pre, ¬ p.Ident <+: skipSpace input) ∧
          res.result = [tok.Ident] ∧ skipSpace input = tok.Ident ++ res.rest) ∧
      (res.matched = false → res.result = [] ∧ res.rest = skipSpace input) ∧
      MatchString U (l.AddTerm ⟨[⟨toks⟩]⟩ T) (fuel + 1) input (TermPrefix ++ T) =
        some (res.result, res.matched && trimSpaceIsEmpty res.rest) := by
  have hm := matchAlternatives_literals U (l.AddTerm ⟨[⟨toks⟩]⟩ T) fuel toks (skipSpace input)
    (skipSpace_idem input) hOne hLit
  have hlex : lexString U (l.AddTerm ⟨[⟨toks⟩]⟩ T) (fuel + 1) input (TermPrefix ++ T) =
      match toks.find? (fun tok => HasPrefix (skipSpace input) tok.Ident) with
      | some tok => some ⟨[tok.Ident], 1, true, true, (skipSpace input).drop tok.Ident.length⟩
      | none => some ⟨[], 0, false, false, skipSpace input⟩ := by
    rw [lexString_term_eq]
    simp only [matchTerm, lookup_AddTerm, matchPhrases, hm]
    cases toks.find? (fun tok => HasPrefix (skipSpace input) tok.Ident) <;> simp [matchPhrases]
  cases hf : toks.find? (fun tok => HasPrefix (skipSpace input) tok.Ident) with
  | none =>
    rw [hf] at hlex
    refine ⟨_, hlex, ?_, ?_, ?_, ?_⟩
    · simp only [Bool.false_eq_true, false_iff, not_exists, not_and]
      intro tok htok hp
      have := List.find?_eq_none.1 hf tok htok
      exact this ((hasPrefix_iff _ _).2 hp)
    · intro h; simp at h
    · intro _; exact ⟨rfl, rfl⟩
    · simp [MatchString, hlex]
  | some tok =>
    rw [hf] at hlex
    obtain ⟨hp, pre, post, hsplit, hpre⟩ := List.find?_eq_some.1 hf
    have hp' : tok.Ident <+: skipSpace input := (hasPrefix_iff _ _).1 hp
    refine ⟨_, hlex, ?_, ?_, ?_, ?_⟩
    · simp only [true_iff]
      exact ⟨tok, by rw [hsplit]; simp, hp'⟩
    · intro _
      refine ⟨pre, tok, post, hsplit, ?_, rfl, ?_⟩
      · intro p hpm hpp
        have := hpre p hpm
        simp [(hasPrefix_iff _ _).2 hpp] at this
      · exact (List.prefix_iff_eq_append.1 hp').symm
    · intro h; simp at h
    · simp [MatchString, hlex]

/-- C5 (witness): the literal `foo` with separator `,` on `foo,foo`. -/
theorem many_agrees_with_atLeastOne_witness :
    ascii "foo,foo" ≠ [] ∧
      parseToken (lexString latin1Tables NewLexer 0) (ascii "foo,foo")
        ⟨ascii "foo", CardinalityAtLeastOne, ascii ","⟩ =
          some ⟨[ascii "foo", ascii "foo"], true, []⟩ ∧
      parseToken (lexString latin1Tables NewLexer 0) (ascii "foo,foo")
        ⟨ascii "foo", CardinalityMany, ascii ","⟩ =
          some ⟨[ascii "foo", ascii "foo"], true, []⟩ ∧
      (⟨[ascii "foo", ascii "foo"], true, []⟩ : TokenResult).matched =
        (⟨[ascii "foo", ascii "foo"], true, []⟩ : TokenResult).matched :=
  ⟨by decide, by decide, by decide,
    (((many_agrees_with_atLeastOne (lexString latin1Tables NewLexer 0) (ascii "foo,foo")
      (ascii "foo") (ascii ",")).1 (by decide)).2 ⟨[ascii "foo", ascii "foo"], true, []⟩
      ⟨[ascii "foo", ascii "foo"], true, []⟩ (by decide) (by decide)).1 (by decide)⟩

/-- C5 (counterexample): with the term `E` that has no phrase, the token
`$E` with separator `,` on the input `x` returns no capture and leaves `x`;
AtLeastOne reports failure, Many reports success. -/
theorem many_succeeds_where_atLeastOne_fails :
    parseToken (lexString latin1Tables (NewLexer.AddTerm ⟨[]⟩ (ascii "E")) 1) (ascii "x")
        ⟨ascii "$E", CardinalityAtLeastOne, ascii ","⟩ = some ⟨[], false, ascii "x"⟩ ∧
      parseToken (lexString latin1Tables (NewLexer.AddTerm ⟨[]⟩ (ascii "E")) 1) (ascii "x")
        ⟨ascii "$E", CardinalityMany, ascii ","⟩ = some ⟨[], true, ascii "x"⟩ := by
  decide

/-- C3 (the code at the failing input): on the input `1` the attempt at
`!label` reports no match and no partial match, but with match count 1 and
one empty capture, and the Optional token fails. -/
theorem optional_label_absent_fails :
    lexString latin1Tables NewLexer 0 (ascii "1") (ascii "!label") =
        some ⟨[[]], 1, false, false, ascii "1"⟩ ∧
      parseToken (lexString latin1Tables NewLexer 0) (ascii "1")
        ⟨ascii "!label", CardinalityOptional, []⟩ = some ⟨[[]], false, ascii "1"⟩ := by
  decide

/-- The `int` built-in has the same behaviour when no digit is present. -/
theorem optional_int_absent_fails :
    lexString latin1Tables NewLexer 0 (ascii "x") (ascii "!int") =
        some ⟨[[]], 1, false, false, ascii "x"⟩ ∧
      parseToken (lexString latin1Tables NewLexer 0) (ascii "x")
        ⟨ascii "!int", CardinalityOptional, []⟩ = some ⟨[[]], false, ascii "x"⟩ := by
  decide

/-- Ordered alternation at a concrete input: the alternatives `foo`, `foobar`
on the input ` foobar`. -/
theorem ordered_alternation_witness :
    ∃ res, lexString latin1Tables
        (NewLexer.AddTerm ⟨[⟨[⟨ascii "foo", CardinalityOne, []⟩, ⟨ascii "foobar", CardinalityOne, []⟩]⟩]⟩
          (ascii "T")) 1 (ascii " foobar") (TermPrefix ++ ascii "T") = some res ∧
      (res.matched = true ↔
        ∃ tok ∈ [(⟨ascii "foo", CardinalityOne, []⟩ : SyntaxToken), ⟨ascii "foobar", CardinalityOne, []⟩],
          tok.Ident <+: skipSpace (ascii " foobar")) ∧
      (res.matched = true →
        ∃ pre tok post,
          [(⟨ascii "foo", CardinalityOne, []⟩ : SyntaxToken), ⟨ascii "foobar", CardinalityOne, []⟩] =
            pre ++ tok :: post ∧
          (∀ p ∈ pre, ¬ p.Ident <+: skipSpace (ascii " foobar")) ∧
          res.result = [tok.Ident] ∧ skipSpace (ascii " foobar") = tok.Ident ++ res.rest) ∧
      (res.matched = false → res.result = [] ∧ res.rest = skipSpace (ascii " foobar")) ∧
      MatchString latin1Tables
        (NewLexer.AddTerm ⟨[⟨[⟨ascii "foo", CardinalityOne, []⟩, ⟨ascii "foobar", CardinalityOne, []⟩]⟩]⟩
          (ascii "T")) 1 (ascii " foobar") (TermPrefix ++ ascii "T") =
        some (res.result, res.matched && trimSpaceIsEmpty res.rest) :=
  ordered_alternation latin1Tables NewLexer (ascii "T")
    [⟨ascii "foo", CardinalityOne, []⟩, ⟨ascii "foobar", CardinalityOne, []⟩] 0 (ascii " foobar")
    (by decide) (by decide)

/-- The `match` built-in captures the cursor that the white space loop left
and empties it. -/
theorem lexString_match_eq (U : UnicodeTables) (l : Lexer) (fuel : Nat) (input : Str) :
    lexString U l fuel input (ascii "!match") =
      some ⟨[skipSpace input], 1, true, true, []⟩ := by
  have h : ascii "!match" = BuiltInPrefix ++ ascii "match" := by decide
  rw [h, lexString_builtin_eq]
  have h2 : ascii "match" ≠ ascii "label" := by decide
  simp [matchBuiltIn, h2]

theorem MatchString_match_eq (U : UnicodeTables) (l : Lexer) (fuel : Nat) (input : Str) :
    MatchString U l fuel input (ascii "!match") = some ([skipSpace input], true) := by
  simp [MatchString, lexString_match_eq, trimSpaceIsEmpty_nil]

/-- C10 (the code at the failing input): the input is U+00A0 (bytes C2 A0)
followed by `x`.  The first rune is white space, the loop removes one byte of
it, and the capture of `!match` is the byte A0 followed by `x`, whereas the
input without its leading white space is `x`. -/
theorem match_keeps_half_of_leading_space :
    MatchString latin1Tables NewLexer 0 [0xC2, 0xA0, 0x78] (ascii "!match") =
        some ([[0xA0, 0x78]], true) ∧
      DecodeRuneInString [0xC2, 0xA0, 0x78] = (0xA0, 2) ∧ IsSpace 0xA0 = true ∧
      dropLeadingSpace [0xC2, 0xA0, 0x78] = [0x78] := by
  decide

/-! ## The built-in recognizers -/

theorem isLabelRune_of_start (U : UnicodeTables) (r : Nat) (h : isLabelStartRune U r = true) :
    isLabelRune U r = true := by
  simp [isLabelRune, h]

theorem labelLoop_eq_scan (U : UnicodeTables) (fuel : Nat) (first : Bool) (s : Str) :
    labelLoop U fuel first s = scanRunes (isLabelStartRune U) (isLabelRune U) fuel first s := by
  induction fuel generalizing first s with
  | zero => rfl
  | succ n ih =>
    simp only [labelLoop, scanRunes, ih]
    by_cases hs : s = []
    · simp [hs]
    · simp only [hs, if_false]
      cases first
      · cases h : isLabelRune U (DecodeRuneInString s).1 <;> simp [h]
      · cases h : isLabelStartRune U (DecodeRuneInString s).1
        · simp [h]
        · simp [h, isLabelRune_of_start U _ h]

theorem intLoop_eq_scan (U : UnicodeTables) (fuel : Nat) (first : Bool) (s : Str) :
    intLoop U fuel first s =
      scanRunes (isIntStartRune U) (IsDigit U) fuel first s := by
  induction fuel generalizing first s with
  | zero => rfl
  | succ n ih =>
    simp only [intLoop, scanRunes, ih, isIntStartRune]
    by_cases hs : s = []
    · simp [hs]
    · simp only [hs, if_false]
      cases first
      · cases h : IsDigit U (DecodeRuneInString s).1 <;> simp [h]
      · by_cases h1 : (DecodeRuneInString s).1 = 0x2D
        · simp [h1]
        · cases h : IsDigit U (DecodeRuneInString s).1 <;> simp [h, h1]

theorem isLabelRune_runeError (U : UnicodeTables) (hL : U.letter RuneError = false)
    (hD : U.digit RuneError = false) : isLabelRune U RuneError = false := by
  simp [isLabelRune, isLabelStartRune, IsLetter, IsDigit, RuneError, hL, hD] at *

theorem isLabelStartRune_runeError (U : UnicodeTables) (hL : U.letter RuneError = false) :
    isLabelStartRune U RuneError = false := by
  simp [isLabelStartRune, IsLetter, RuneError] at *
  simp [hL]

theorem isDigit_runeError (U : UnicodeTables) (hD : U.digit RuneError = false) :
    IsDigit U RuneError = false := by
  simp [IsDigit, RuneError] at *
  simp [hD]

theorem matchBuiltIn_label (U : UnicodeTables) (str : Str) :
    matchBuiltIn U str (ascii "label") =
      ⟨[labelLoop U str.length true str], 1, decide ((labelLoop U str.length true str).length > 0),
        decide ((labelLoop U str.length true str).length > 0),
        str.drop (labelLoop U str.length true str).length⟩ := by
  simp [matchBuiltIn]

theorem runShape_iff (pf pr : Nat → Bool) (p : Str) :
    runShape pf pr p = true ↔ p ≠ [] ∧ okRunes pf pr true (runesOf p) = true := by
  unfold runShape
  cases h : runesOf p with
  | nil =>
    have := (runesOf_eq_nil_iff p).1 h
    simp [this]
  | cons c cs =>
    have : p ≠ [] := by
      intro hp; rw [hp, runesOf_nil] at h; cases h
    simp [okRunes, this]

/-- The built-in `label`, stated on the cursor that the white space loop
leaves, for range tables in which U+FFFD is neither a
letter nor a digit.  With `r = skipSpace input`, `lexString(input, "!label")`
returns; it reports matched iff `r` is not empty and its first character is a
letter or underscore; when it matches, the single capture `p` is a prefix of
`r` of the label form (first character a letter or underscore, every later
one a letter, digit, underscore or apostrophe), no prefix of `r` of that form
is longer, and the cursor is left right after `p`; when it does not match the
cursor is left at `r`. -/
theorem lexString_label (U : UnicodeTables) (hL : U.letter RuneError = false)
    (hD : U.digit RuneError = false) (l : Lexer) (fuel : Nat) (input : Str) :
    ∃ res, lexString U l fuel input (ascii "!label") = some res ∧
      (res.matched = true ↔
        skipSpace input ≠ [] ∧
          isLabelStartRune U (DecodeRuneInString (skipSpace input)).1 = true) ∧
      (res.matched = true →
        ∃ p, res.result = [p] ∧ skipSpace input = p ++ res.rest ∧ labelShape U p = true ∧
          ∀ q, q <+: skipSpace input → labelShape U q = true → q.length ≤ p.length) ∧
      (res.matched = false → res.rest = skipSpace input) := by
  have h : ascii "!label" = BuiltInPrefix ++ ascii "label" := by decide
  have hpf := isLabelStartRune_runeError U hL
  have hpr := isLabelRune_runeError U hL hD
  rw [h, lexString_builtin_eq, matchBuiltIn_label, labelLoop_eq_scan]
  generalize skipSpace input = r
  have hpre := scanRunes_starts (isLabelStartRune U) (isLabelRune U) hpf hpr r.length true r
  have hne := scanRunes_ne_nil_iff (isLabelStartRune U) (isLabelRune U) hpf hpr r.length true r
    (le_refl _)
  have hok := scanRunes_ok (isLabelStartRune U) (isLabelRune U) hpf hpr r.length true r
  refine ⟨_, rfl, ?_, ?_, ?_⟩
  · simp only [gt_iff_lt, decide_eq_true_eq, List.length_pos]
    simpa using hne
  · simp only [gt_iff_lt, decide_eq_true_eq, List.length_pos]
    intro hp
    refine ⟨_, rfl, (List.prefix_iff_eq_append.1 hpre).symm, ?_, ?_⟩
    · exact (runShape_iff _ _ _).2 ⟨hp, hok⟩
    · intro q hq hsh
      exact scanRunes_longest (isLabelStartRune U) (isLabelRune U) hpf hpr r.length true r q
        (le_refl _) hq ((runShape_iff _ _ _).1 hsh).2
  · simp only [gt_iff_lt, decide_eq_false_iff_not, List.length_pos, ne_eq, not_not]
    intro hp
    simp [hp]

theorem decode_ascii_inv (s0 : Nat) (t : Str) (h : (DecodeRuneInString (s0 :: t)).1 < 0x80) :
    DecodeRuneInString (s0 :: t) = (s0, 1) ∧ s0 < 0x80 := by
  simp only [DecodeRuneInString] at h ⊢
  split_ifs at h ⊢ with h1 h2 h3 h4
  · exact ⟨rfl, h1⟩
  · simp [RuneError] at h
  · exfalso
    rcases t with _ | ⟨s1, t1⟩
    · simp [RuneError] at h
    · simp only at h
      split_ifs at h with ha
      · simp only at h; omega
      · simp [RuneError] at h
  · exfalso
    rcases t with _ | ⟨s1, _ | ⟨s2, t2⟩⟩
    · simp [RuneError] at h
    · simp [RuneError] at h
    · simp only at h
      split_ifs at h with ha
      · simp only [accepts, isCont, decide_eq_true_eq] at ha
        obtain ⟨ha, -⟩ := ha
        simp only at h
        split_ifs at ha <;> omega
      · simp [RuneError] at h
  · exfalso
    rcases t with _ | ⟨s1, _ | ⟨s2, _ | ⟨s3, t3⟩⟩⟩
    · simp [RuneError] at h
    · simp [RuneError] at h
    · simp [RuneError] at h
    · simp only at h
      split_ifs at h with ha
      · simp only [accepts, isCont, decide_eq_true_eq] at ha
        obtain ⟨ha, -⟩ := ha
        simp only at h
        split_ifs at ha <;> omega
      · simp [RuneError] at h

theorem encodeRune_ascii (c : Nat) (h : c < 0x80) : encodeRune c = [c] := by
  simp [encodeRune, h]

theorem scanRunes_decode (pf pr : Nat → Bool) (hpf : pf RuneError = false)
    (hpr : pr RuneError = false) (fuel : Nat) (first : Bool) (s : Str) (hs : s ≠ [])
    (hc : (if first then pf (DecodeRuneInString s).1 else pr (DecodeRuneInString s).1) = true) :
    scanRunes pf pr (fuel + 1) first s =
        encodeRune (DecodeRuneInString s).1 ++
          scanRunes pf pr fuel false (s.drop (DecodeRuneInString s).2) ∧
      DecodeRuneInString (scanRunes pf pr (fuel + 1) first s) = DecodeRuneInString s ∧
      (scanRunes pf pr (fuel + 1) first s).drop (DecodeRuneInString s).2 =
        scanRunes pf pr fuel false (s.drop (DecodeRuneInString s).2) := by
  have hv := scan_cond_valid pf pr hpf hpr hc
  obtain ⟨he, hlen⟩ := encode_decode s hs hv
  have hw := decode_width_pos s hs
  have hane : encodeRune (DecodeRuneInString s).1 ≠ [] := by
    intro h; rw [h] at hlen; simp at hlen; omega
  have h0 : scanRunes pf pr (fuel + 1) first s =
      encodeRune (DecodeRuneInString s).1 ++
        scanRunes pf pr fuel false (s.drop (DecodeRuneInString s).2) := by
    simp only [scanRunes, hs, if_false, hc, if_true]
  refine ⟨h0, ?_, ?_⟩
  · rw [h0]
    have h1 := decode_prefix_congr (encodeRune (DecodeRuneInString s).1)
      (scanRunes pf pr fuel false (s.drop (DecodeRuneInString s).2))
      (s.drop (DecodeRuneInString s).2) hane (by rw [he]; exact hv) (by rw [he, hlen])
    rw [h1, he]
  · rw [h0, List.drop_left' hlen]

theorem isDigit_minus (U : UnicodeTables) : IsDigit U 0x2D = false := by
  simp [IsDigit]

theorem matchBuiltIn_int (U : UnicodeTables) (str : Str) :
    matchBuiltIn U str (ascii "int") =
      if intLoop U str.length true str = [0x2D] then ⟨[], 0, false, false, str⟩
      else
        ⟨[intLoop U str.length true str], 1, decide ((intLoop U str.length true str).length > 0),
          decide ((intLoop U str.length true str).length > 0),
          str.drop (intLoop U str.length true str).length⟩ := by
  have h1 : ascii "int" ≠ ascii "label" := by decide
  have h2 : ascii "int" ≠ ascii "match" := by decide
  simp [matchBuiltIn, h1, h2]

theorem intShape_ok (U : UnicodeTables) (q : Str) (h : intShape U q = true) :
    okRunes (isIntStartRune U) (IsDigit U) true (runesOf q) = true := by
  unfold intShape at h
  cases hr : runesOf q with
  | nil => rfl
  | cons c cs =>
    rw [hr] at h
    simp only at h
    simp only [okRunes, isIntStartRune, if_true, Bool.and_eq_true, Bool.or_eq_true,
      decide_eq_true_eq]
    split_ifs at h with hc
    · simp only [Bool.and_eq_true] at h
      exact ⟨Or.inl hc, h.2⟩
    · simp only [Bool.and_eq_true] at h
      exact ⟨Or.inr h.1, h.2⟩

/-- The built-in `int`, stated on the cursor that the white space loop leaves,
for range tables in which U+FFFD is not a digit.
With `r = skipSpace input`, `lexString(input, "!int")` returns; it reports
matched iff `r` starts with a decimal digit or with `-` immediately followed
by a decimal digit; when it matches, the single capture `p` is a prefix of `r`
of the form optional `-` then one or more digits, no prefix of `r` of that
form is longer, and the cursor is left right after `p`; when it does not match
(an empty `r` and a lone `-` included) the cursor is left at `r`. -/
theorem lexString_int (U : UnicodeTables) (hD : U.digit RuneError = false) (l : Lexer)
    (fuel : Nat) (input : Str) :
    ∃ res, lexString U l fuel input (ascii "!int") = some res ∧
      (res.matched = true ↔
        (skipSpace input ≠ [] ∧ IsDigit U (DecodeRuneInString (skipSpace input)).1 = true) ∨
          ∃ t, skipSpace input = 0x2D :: t ∧ t ≠ [] ∧
            IsDigit U (DecodeRuneInString t).1 = true) ∧
      (res.matched = true →
        ∃ p, res.result = [p] ∧ skipSpace input = p ++ res.rest ∧ intShape U p = true ∧
          ∀ q, q <+: skipSpace input → intShape U q = true → q.length ≤ p.length) ∧
      (res.matched = false → res.rest = skipSpace input) := by
  have h : ascii "!int" = BuiltInPrefix ++ ascii "int" := by decide
  have hpr := isDigit_runeError U hD
  have hpf : isIntStartRune U RuneError = false := by
    simp only [isIntStartRune, hpr, Bool.or_false, decide_eq_false_iff_not]
    decide
  rw [h, lexString_builtin_eq, matchBuiltIn_int, intLoop_eq_scan]
  generalize skipSpace input = r
  have hpre := scanRunes_starts (isIntStartRune U) (IsDigit U) hpf hpr r.length true r
  have hlong := fun q hq hsh => scanRunes_longest (isIntStartRune U) (IsDigit U) hpf hpr r.length true r q (le_refl _) hq
    (intShape_ok U q hsh)
  rcases r with _ | ⟨b, t⟩
  · -- empty cursor
    refine ⟨_, rfl, ?_, ?_, ?_⟩ <;> simp [scanRunes]
  · have hs : b :: t ≠ [] := by simp
    by_cases hc : isIntStartRune U (DecodeRuneInString (b :: t)).1 = true
    · obtain ⟨h0, hd, hdrop⟩ := scanRunes_decode (isIntStartRune U) (IsDigit U) hpf hpr t.length true (b :: t) hs
        (by simpa using hc)
      simp only [isIntStartRune] at hc
      simp only [List.length_cons] at hpre hlong ⊢
      by_cases hm : (DecodeRuneInString (b :: t)).1 = 0x2D
      · -- the cursor starts with a minus sign
        obtain ⟨hdec, -⟩ := decode_ascii_inv b t (by rw [hm]; decide)
        have hb : b = 0x2D := by rw [hdec] at hm; exact hm
        subst hb
        rw [hdec] at h0 hdrop
        simp only [encodeRune_ascii 0x2D (by decide), List.drop_succ_cons, List.drop_zero,
          List.singleton_append] at h0 hdrop
        have hne := scanRunes_ne_nil_iff (isIntStartRune U) (IsDigit U) hpf hpr t.length false t (le_refl _)
        simp only [Bool.false_eq_true, if_false] at hne
        rw [hdec]
        simp only [isDigit_minus, Bool.false_eq_true, and_false, false_or]
        by_cases hp' : scanRunes (isIntStartRune U) (IsDigit U)
            t.length false t = []
        · have hno : ¬ (t ≠ [] ∧ IsDigit U (DecodeRuneInString t).1 = true) := by
            intro hh; exact (hne.2 hh) hp'
          simp only [h0, hp']
          refine ⟨_, rfl, ?_, ?_, ?_⟩
          · simp only [if_true, Bool.false_eq_true, false_iff]
            rintro ⟨t', ht', h1, h2⟩
            simp only [List.cons.injEq, true_and] at ht'
            subst ht'
            exact hno ⟨h1, h2⟩
          · simp
          · simp
        · have hyes := hne.1 hp'
          have hpne : (0x2D :: scanRunes (isIntStartRune U) (IsDigit U)
              t.length false t) ≠ [0x2D] := by
            simpa using hp'
          simp only [h0] at hpre hlong ⊢
          rw [if_neg hpne]
          refine ⟨_, rfl, ?_, ?_, ?_⟩
          · simp only [List.length_cons, gt_iff_lt, Nat.zero_lt_succ, decide_True, true_iff]
            exact ⟨t, rfl, hyes⟩
          · intro _
            refine ⟨_, rfl, (List.prefix_iff_eq_append.1 hpre).symm, ?_, hlong⟩
            have hok := scanRunes_ok (isIntStartRune U) (IsDigit U) hpf hpr t.length false t
            unfold intShape
            rw [runesOf_eq _ (by simp)]
            have hd2 : DecodeRuneInString (0x2D :: scanRunes (isIntStartRune U) (IsDigit U) t.length false t) = (0x2D, 1) := by
              simp [DecodeRuneInString]
            rw [hd2]
            simp only [List.drop_succ_cons, List.drop_zero, if_true, Bool.and_eq_true,
              Bool.not_eq_true', List.isEmpty_eq_false]
            refine ⟨fun hh => hp' ((runesOf_eq_nil_iff _).1 hh), ?_⟩
            cases hr : runesOf (scanRunes (isIntStartRune U) (IsDigit U)
                t.length false t) with
            | nil => simp
            | cons c cs =>
              rw [hr] at hok
              simpa [okRunes] using hok
          · simp
      · -- the cursor starts with a digit
        have hdig : IsDigit U (DecodeRuneInString (b :: t)).1 = true := by
          simpa [hm] using hc
        have hpne : scanRunes (isIntStartRune U) (IsDigit U)
            (t.length + 1) true (b :: t) ≠ [0x2D] := by
          intro he
          have := hd
          rw [he] at this
          have h2 : DecodeRuneInString [0x2D] = (0x2D, 1) := by decide
          rw [h2] at this
          rw [← this] at hm
          exact hm rfl
        have hpn : scanRunes (isIntStartRune U) (IsDigit U)
            (t.length + 1) true (b :: t) ≠ [] :=
          (scanRunes_ne_nil_iff (isIntStartRune U) (IsDigit U) hpf hpr (t.length + 1) true (b :: t) (le_refl _)).2
            ⟨hs, by simpa [isIntStartRune] using hc⟩
        rw [if_neg hpne]
        refine ⟨_, rfl, ?_, ?_, ?_⟩
        · simp only [gt_iff_lt, decide_eq_true_eq, List.length_pos, ne_eq, hpn,
            not_false_eq_true, true_iff]
          exact Or.inl ⟨hs, hdig⟩
        · intro _
          refine ⟨_, rfl, (List.prefix_iff_eq_append.1 hpre).symm, ?_, hlong⟩
          have hok := scanRunes_ok (isIntStartRune U) (IsDigit U) hpf hpr (t.length + 1) true (b :: t)
          unfold intShape
          rw [runesOf_eq _ hpn] at hok ⊢
          rw [hd] at hok ⊢
          simp only [if_neg hm, hdig, Bool.true_and]
          simp only [okRunes, if_true, Bool.and_eq_true] at hok
          exact hok.2
        · simp only [gt_iff_lt, decide_eq_false_iff_not, List.length_pos, ne_eq, not_not]
          intro hp; exact absurd hp hpn
    · -- neither a minus sign nor a digit
      have hp0 : scanRunes (isIntStartRune U) (IsDigit U)
          (b :: t).length true (b :: t) = [] := by
        by_contra hne
        have := (scanRunes_ne_nil_iff (isIntStartRune U) (IsDigit U) hpf hpr (b :: t).length true (b :: t) (le_refl _)).1 hne
        exact hc (by simpa using this.2)
      simp only [isIntStartRune] at hc
      rw [hp0]
      simp only [Bool.or_eq_true, decide_eq_true_eq, not_or] at hc
      refine ⟨_, rfl, ?_, ?_, ?_⟩
      · simp only [List.nil_eq, reduceCtorEq, if_false, List.length_nil, gt_iff_lt,
          Nat.lt_irrefl, decide_False, Bool.false_eq_true, false_iff, not_or]
        refine ⟨fun hh => ?_, ?_⟩
        · rw [hh.2] at hc; exact hc.2 rfl
        · rintro ⟨t', ht', -, -⟩
          simp only [List.cons.injEq] at ht'
          obtain ⟨rfl, rfl⟩ := ht'
          exact hc.1 (by simp [DecodeRuneInString])
      · simp
      · simp

/-- The built-in `label` at a concrete input: the tables without entries above
Latin-1, input ` f00 bar`. -/
theorem lexString_label_witness :
    latin1Tables.letter RuneError = false ∧ latin1Tables.digit RuneError = false ∧
    ∃ res, lexString latin1Tables NewLexer 0 (ascii " f00 bar") (ascii "!label") = some res ∧
      (res.matched = true ↔
        skipSpace (ascii " f00 bar") ≠ [] ∧
          isLabelStartRune latin1Tables (DecodeRuneInString (skipSpace (ascii " f00 bar"))).1
            = true) ∧
      (res.matched = true →
        ∃ p, res.result = [p] ∧ skipSpace (ascii " f00 bar") = p ++ res.rest ∧
          labelShape latin1Tables p = true ∧
          ∀ q, q <+: skipSpace (ascii " f00 bar") → labelShape latin1Tables q = true →
            q.length ≤ p.length) ∧
      (res.matched = false → res.rest = skipSpace (ascii " f00 bar")) :=
  ⟨rfl, rfl, lexString_label latin1Tables rfl rfl NewLexer 0 (ascii " f00 bar")⟩

/-- The built-in `int` at a concrete input: the tables without entries above
Latin-1, input ` -12x`. -/
theorem lexString_int_witness :
    latin1Tables.digit RuneError = false ∧
    ∃ res, lexString latin1Tables NewLexer 0 (ascii " -12x") (ascii "!int") = some res ∧
      (res.matched = true ↔
        (skipSpace (ascii " -12x") ≠ [] ∧
          IsDigit latin1Tables (DecodeRuneInString (skipSpace (ascii " -12x"))).1 = true) ∨
          ∃ t, skipSpace (ascii " -12x") = 0x2D :: t ∧ t ≠ [] ∧
            IsDigit latin1Tables (DecodeRuneInString t).1 = true) ∧
      (res.matched = true →
        ∃ p, res.result = [p] ∧ skipSpace (ascii " -12x") = p ++ res.rest ∧
          intShape latin1Tables p = true ∧
          ∀ q, q <+: skipSpace (ascii " -12x") → intShape latin1Tables q = true →
            q.length ≤ p.length) ∧
      (res.matched = false → res.rest = skipSpace (ascii " -12x")) :=
  ⟨rfl, lexString_int latin1Tables rfl NewLexer 0 (ascii " -12x")⟩

/-! ## Rules made of literals -/

theorem skipSpace_length_le (s : Str) : (skipSpace s).length ≤ s.length :=
  (skipSpace_suffix s).length_le

theorem hasPrefix_self (s : Str) : HasPrefix s s = true := by simp [HasPrefix]

theorem hasPrefix_false_of_length_lt {s p : Str} (h : s.length < p.length) :
    HasPrefix s p = false := by
  cases hh : HasPrefix s p with
  | false => rfl
  | true =>
    have := ((hasPrefix_iff s p).1 hh).length_le
    omega

/-- C6 (amended): let `a` and `b` be non-empty strings whose first character
is neither white space nor one of `$`, `!`, `@`, the first character of `a`
being a well-formed UTF-8 sequence, and let `T` be the term with the phrases
`[[a One], [b One]]`.  Then `MatchString(a ++ b, "$T")` and
`MatchString(a ++ " " ++ b, "$T")` return captures `[a, b]` and matched = true,
and `MatchString(a, "$T")` and `MatchString(b, "$T")` return matched = false. -/
theorem two_literal_phrases (U : UnicodeTables) (l : Lexer) (T a b sepa sepb : Str) (fuel : Nat)
    (ha : a ≠ []) (hb : b ≠ [])
    (haV : DecodeRuneInString a ≠ (RuneError, 1))
    (haW : IsSpace (DecodeRuneInString a).1 = false)
    (hbW : IsSpace (DecodeRuneInString b).1 = false)
    (haS : HasPrefix a TermPrefix = false ∧ HasPrefix a BuiltInPrefix = false ∧
      HasPrefix a LiteralPrefix = false)
    (hbS : HasPrefix b TermPrefix = false ∧ HasPrefix b BuiltInPrefix = false ∧
      HasPrefix b LiteralPrefix = false) :
    MatchString U (l.AddTerm ⟨[⟨[⟨a, CardinalityOne, sepa⟩]⟩, ⟨[⟨b, CardinalityOne, sepb⟩]⟩]⟩ T)
        (fuel + 1) (a ++ b) (TermPrefix ++ T) = some ([a, b], true) ∧
      MatchString U (l.AddTerm ⟨[⟨[⟨a, CardinalityOne, sepa⟩]⟩, ⟨[⟨b, CardinalityOne, sepb⟩]⟩]⟩ T)
        (fuel + 1) (a ++ ascii " " ++ b) (TermPrefix ++ T) = some ([a, b], true) ∧
      (∃ c, MatchString U
        (l.AddTerm ⟨[⟨[⟨a, CardinalityOne, sepa⟩]⟩, ⟨[⟨b, CardinalityOne, sepb⟩]⟩]⟩ T)
        (fuel + 1) a (TermPrefix ++ T) = some (c, false)) ∧
      (∃ c, MatchString U
        (l.AddTerm ⟨[⟨[⟨a, CardinalityOne, sepa⟩]⟩, ⟨[⟨b, CardinalityOne, sepb⟩]⟩]⟩ T)
        (fuel + 1) b (TermPrefix ++ T) = some (c, false)) := by
  obtain ⟨ha1, ha2, ha3⟩ := haS
  obtain ⟨hb1, hb2, hb3⟩ := hbS
  have hsa : skipSpace a = a := skipSpace_eq_self (Or.inr haW)
  have hsb : skipSpace b = b := skipSpace_eq_self (Or.inr hbW)
  have hsab : skipSpace (a ++ b) = a ++ b :=
    skipSpace_eq_self (Or.inr (by rw [decode_append_of_valid a b ha haV]; exact haW))
  have hsasb : skipSpace (a ++ (0x20 :: b)) = a ++ (0x20 :: b) :=
    skipSpace_eq_self (Or.inr (by rw [decode_append_of_valid a _ ha haV]; exact haW))
  have hssb : skipSpace (0x20 :: b) = b := by
    have : IsSpace (DecodeRuneInString (0x20 :: b)).1 = true := by
      simp [DecodeRuneInString, IsSpace]
    simp [skipSpace, this, hsb]
  have hnb : HasPrefix [] b = false := by
    cases b with
    | nil => exact absurd rfl hb
    | cons x y => rfl
  have pa := fun str => parseToken_one_literal U
    (l.AddTerm ⟨[⟨[⟨a, CardinalityOne, sepa⟩]⟩, ⟨[⟨b, CardinalityOne, sepb⟩]⟩]⟩ T) fuel str a sepa
    ha1 ha2
  have pb := fun str => parseToken_one_literal U
    (l.AddTerm ⟨[⟨[⟨a, CardinalityOne, sepa⟩]⟩, ⟨[⟨b, CardinalityOne, sepb⟩]⟩]⟩ T) fuel str b sepb
    hb1 hb2
  rw [literalOf_eq_self ha3] at pa
  rw [literalOf_eq_self hb3] at pb
  refine ⟨?_, ?_, ?_, ?_⟩
  · simp [MatchString, lexString_term_eq, matchTerm, lookup_AddTerm, matchPhrases,
      matchAlternatives, pa, pb, hsab, hsb, hasPrefix_append, hasPrefix_self,
      trimSpaceIsEmpty_nil]
  · have e : a ++ ascii " " ++ b = a ++ (0x20 :: b) := by simp [ascii]
    rw [e]
    simp [MatchString, lexString_term_eq, matchTerm, lookup_AddTerm, matchPhrases,
      matchAlternatives, pa, pb, hsasb, hssb, hasPrefix_append, hasPrefix_self,
      trimSpaceIsEmpty_nil]
  · simp [MatchString, lexString_term_eq, matchTerm, lookup_AddTerm, matchPhrases,
      matchAlternatives, pa, pb, hsa, hasPrefix_self, skipSpace, hnb]
  · by_cases hp : HasPrefix b a = true
    · have hlt : (skipSpace (b.drop a.length)).length < b.length := by
        have h1 := skipSpace_length_le (b.drop a.length)
        have h2 : 0 < a.length := List.length_pos.2 ha
        have h3 : 0 < b.length := List.length_pos.2 hb
        simp only [List.length_drop] at h1
        omega
      simp [MatchString, lexString_term_eq, matchTerm, lookup_AddTerm, matchPhrases,
        matchAlternatives, pa, pb, hsb, hp, hasPrefix_false_of_length_lt hlt]
    · simp [MatchString, lexString_term_eq, matchTerm, lookup_AddTerm, matchPhrases,
        matchAlternatives, pa, pb, hsb, hp]

/-- C6 (witness): the rule `fooAndBar` of the test grammar. -/
theorem two_literal_phrases_witness :
    MatchString latin1Tables
        (NewLexer.AddTerm ⟨[⟨[⟨ascii "foo", CardinalityOne, []⟩]⟩,
          ⟨[⟨ascii "bar", CardinalityOne, []⟩]⟩]⟩ (ascii "fooAndBar"))
        1 (ascii "foo" ++ ascii "bar") (TermPrefix ++ ascii "fooAndBar")
          = some ([ascii "foo", ascii "bar"], true) ∧
      MatchString latin1Tables
        (NewLexer.AddTerm ⟨[⟨[⟨ascii "foo", CardinalityOne, []⟩]⟩,
          ⟨[⟨ascii "bar", CardinalityOne, []⟩]⟩]⟩ (ascii "fooAndBar"))
        1 (ascii "foo" ++ ascii " " ++ ascii "bar") (TermPrefix ++ ascii "fooAndBar")
          = some ([ascii "foo", ascii "bar"], true) ∧
      (∃ c, MatchString latin1Tables
        (NewLexer.AddTerm ⟨[⟨[⟨ascii "foo", CardinalityOne, []⟩]⟩,
          ⟨[⟨ascii "bar", CardinalityOne, []⟩]⟩]⟩ (ascii "fooAndBar"))
        1 (ascii "foo") (TermPrefix ++ ascii "fooAndBar") = some (c, false)) ∧
      (∃ c, MatchString latin1Tables
        (NewLexer.AddTerm ⟨[⟨[⟨ascii "foo", CardinalityOne, []⟩]⟩,
          ⟨[⟨ascii "bar", CardinalityOne, []⟩]⟩]⟩ (ascii "fooAndBar"))
        1 (ascii "bar") (TermPrefix ++ ascii "fooAndBar") = some (c, false)) :=
  two_literal_phrases latin1Tables NewLexer (ascii "fooAndBar") (ascii "foo") (ascii "bar") [] [] 0
    (by decide) (by decide) (by decide) (by decide) (by decide) (by decide) (by decide)

/-- C6 (counterexample): `a` is the byte C2, `b` the byte A0; the first
character of either is U+FFFD, neither white space nor a sigil.  In `a ++ b`
the two bytes decode as U+00A0, white space: the loop of `lexString` removes
the first byte, the literal `a` is not found, and matched = false. -/
theorem truncated_literal_joins_next_into_space :
    IsSpace (DecodeRuneInString [0xC2]).1 = false ∧ IsSpace (DecodeRuneInString [0xA0]).1 = false ∧
      MatchString latin1Tables
        (NewLexer.AddTerm ⟨[⟨[⟨[0xC2], CardinalityOne, []⟩]⟩, ⟨[⟨[0xA0], CardinalityOne, []⟩]⟩]⟩
          (ascii "T"))
        1 ([0xC2] ++ [0xA0]) (TermPrefix ++ ascii "T") = some ([], false) := by
  decide

/-! ## Repetition over a literal -/

theorem skipSpace_ws_append (w x : Str) (hw : w.all isAsciiSpace = true) :
    skipSpace (w ++ x) = skipSpace x := by
  induction w with
  | nil => rfl
  | cons b w ih =>
    simp only [List.all_cons, Bool.and_eq_true] at hw
    obtain ⟨h1, h2⟩ := isSpace_of_asciiSpace hw.1
    rw [List.cons_append, skipSpace, decode_ascii b _ h2]
    simp only [h1, if_true]
    exact ih hw.2

theorem skipSpace_valid_start (x y : Str) (hx : x ≠ [])
    (hv : DecodeRuneInString x ≠ (RuneError, 1)) (hs : IsSpace (DecodeRuneInString x).1 = false) :
    skipSpace (x ++ y) = x ++ y :=
  skipSpace_eq_self (Or.inr (by rw [decode_append_of_valid x y hx hv]; exact hs))

/-- A literal that starts with a well-formed character other than white space
and the sigils is found after any amount of ASCII white space. -/
theorem lexString_literal_after_ws (U : UnicodeTables) (l : Lexer) (fuel : Nat) (w e rest : Str)
    (hw : w.all isAsciiSpace = true) (he : e ≠ [])
    (hv : DecodeRuneInString e ≠ (RuneError, 1)) (hs : IsSpace (DecodeRuneInString e).1 = false)
    (h1 : HasPrefix e TermPrefix = false) (h2 : HasPrefix e BuiltInPrefix = false)
    (h3 : HasPrefix e LiteralPrefix = false) :
    lexString U l fuel (w ++ (e ++ rest)) e = some ⟨[e], 1, true, true, rest⟩ := by
  rw [lexString_literal_eq U l fuel _ e h1 h2, literalOf_eq_self h3, skipSpace_ws_append _ _ hw,
    skipSpace_valid_start e rest he hv hs, hasPrefix_append, if_pos rfl, List.drop_left]

theorem countSep_joined (t sep : Str) (hsn : sep ≠ [])
    (htv : ValidString t = true) (hsv : ValidString sep = true)
    (hsW : ∀ c ∈ runesOf sep, IsSpace c = false) (hd : ∀ c ∈ runesOf t, c ∉ runesOf sep)
    (ws : List (Str × Str))
    (hws : ∀ p ∈ ws, p.1.all isAsciiSpace = true ∧ p.2.all isAsciiSpace = true)
    (w : Str) (hw : w.all isAsciiSpace = true) (fuel : Nat)
    (hf : (w ++ joined t sep ws).length ≤ fuel) :
    countSep sep fuel (w ++ joined t sep ws) = ws.length := by
  have hNt := noOcc_of_disjoint t sep hsn htv hsv hd
  induction ws generalizing w fuel with
  | nil =>
    exact countSep_none sep _ fuel hsn
      (noOcc_append sep w t (noOcc_asciiSpace sep w hsn hw hsW) hNt)
  | cons p ws ih =>
    obtain ⟨hp1, hp2⟩ := hws p (List.mem_cons_self _ _)
    have hsl : 0 < sep.length := List.length_pos.2 hsn
    obtain ⟨n, rfl⟩ : ∃ n, fuel = n + 1 := by
      refine ⟨fuel - 1, ?_⟩
      simp only [joined, List.length_append] at hf
      omega
    have e : w ++ joined t sep (p :: ws) = (w ++ t ++ p.1) ++ (sep ++ (p.2 ++ joined t sep ws)) := by
      simp [joined, List.append_assoc]
    rw [e, countSep_after sep _ _ n
      (noOcc_append sep _ _ (noOcc_append sep w t (noOcc_asciiSpace sep w hsn hw hsW) hNt)
        (noOcc_asciiSpace sep p.1 hsn hp1 hsW)),
      ih (fun q hq => hws q (List.mem_cons_of_mem _ hq)) p.2 hp2 n (by
        rw [e] at hf
        simp only [List.length_append] at hf ⊢
        omega)]
    simp [Nat.add_comm]

theorem countSep_before (t sep : Str) (hsn : sep ≠ [])
    (htv : ValidString t = true) (hsv : ValidString sep = true)
    (hsW : ∀ c ∈ runesOf sep, IsSpace c = false) (hd : ∀ c ∈ runesOf t, c ∉ runesOf sep)
    (pre : List (Str × Str))
    (hws : ∀ p ∈ pre, p.1.all isAsciiSpace = true ∧ p.2.all isAsciiSpace = true)
    (w : Str) (hw : w.all isAsciiSpace = true) (X : Str) (fuel : Nat)
    (hf : (w ++ (joinedBefore t sep pre ++ X)).length ≤ fuel) :
    pre.length ≤ countSep sep fuel (w ++ (joinedBefore t sep pre ++ X)) := by
  have hNt := noOcc_of_disjoint t sep hsn htv hsv hd
  induction pre generalizing w fuel with
  | nil => simp
  | cons p pre ih =>
    obtain ⟨hp1, hp2⟩ := hws p (List.mem_cons_self _ _)
    have hsl : 0 < sep.length := List.length_pos.2 hsn
    obtain ⟨n, rfl⟩ : ∃ n, fuel = n + 1 := by
      refine ⟨fuel - 1, ?_⟩
      simp only [joinedBefore, List.length_append] at hf
      omega
    have e : w ++ (joinedBefore t sep (p :: pre) ++ X) =
        (w ++ t ++ p.1) ++ (sep ++ (p.2 ++ (joinedBefore t sep pre ++ X))) := by
      simp [joinedBefore, List.append_assoc]
    rw [e, countSep_after sep _ _ n
      (noOcc_append sep _ _ (noOcc_append sep w t (noOcc_asciiSpace sep w hsn hw hsW) hNt)
        (noOcc_asciiSpace sep p.1 hsn hp1 hsW))]
    have := ih (fun q hq => hws q (List.mem_cons_of_mem _ hq)) p.2 hp2 n (by
        rw [e] at hf
        simp only [List.length_append] at hf ⊢
        omega)
    simp only [List.length_cons]
    omega

theorem valid_start (t : Str) (htn : t ≠ []) (htv : ValidString t = true)
    (htW : ∀ c ∈ runesOf t, IsSpace c = false) :
    DecodeRuneInString t ≠ (RuneError, 1) ∧ IsSpace (DecodeRuneInString t).1 = false :=
  ⟨((validString_iff t htn).1 htv).1, htW _ (first_rune_mem t htn)⟩

theorem atLeastOneLoop_joined (U : UnicodeTables) (l : Lexer) (fuel : Nat) (t sep : Str)
    (c : TermCardinality)
    (ht : t ≠ [] ∧ DecodeRuneInString t ≠ (RuneError, 1) ∧
      IsSpace (DecodeRuneInString t).1 = false ∧ HasPrefix t TermPrefix = false ∧
      HasPrefix t BuiltInPrefix = false ∧ HasPrefix t LiteralPrefix = false)
    (hs : sep ≠ [] ∧ DecodeRuneInString sep ≠ (RuneError, 1) ∧
      IsSpace (DecodeRuneInString sep).1 = false ∧ HasPrefix sep TermPrefix = false ∧
      HasPrefix sep BuiltInPrefix = false ∧ HasPrefix sep LiteralPrefix = false)
    (ws : List (Str × Str))
    (hws : ∀ p ∈ ws, p.1.all isAsciiSpace = true ∧ p.2.all isAsciiSpace = true)
    (w : Str) (hw : w.all isAsciiSpace = true) (acc : List Str) :
    atLeastOneLoop (lexString U l fuel) ⟨t, c, sep⟩ (ws.length + 1) (w ++ joined t sep ws) acc =
      some (acc ++ List.replicate (ws.length + 1) t, true, []) := by
  obtain ⟨ht0, ht1, ht2, ht3, ht4, ht5⟩ := ht
  obtain ⟨hs0, hs1, hs2, hs3, hs4, hs5⟩ := hs
  induction ws generalizing w acc with
  | nil =>
    have := lexString_literal_after_ws U l fuel w t [] hw ht0 ht1 ht2 ht3 ht4 ht5
    rw [List.append_nil] at this
    simp [atLeastOneLoop, joined, this]
  | cons p ws ih =>
    obtain ⟨hp1, hp2⟩ := hws p (List.mem_cons_self _ _)
    have e : w ++ joined t sep (p :: ws) = w ++ (t ++ (p.1 ++ (sep ++ (p.2 ++ joined t sep ws)))) := by
      simp [joined, List.append_assoc]
    have h1 := lexString_literal_after_ws U l fuel w t (p.1 ++ (sep ++ (p.2 ++ joined t sep ws)))
      hw ht0 ht1 ht2 ht3 ht4 ht5
    have h2 := lexString_literal_after_ws U l fuel p.1 sep (p.2 ++ joined t sep ws)
      hp1 hs0 hs1 hs2 hs3 hs4 hs5
    rw [e, List.length_cons, atLeastOneLoop]
    simp only [h1, h2, Bool.not_true, Bool.false_or, Nat.zero_lt_succ, if_true]
    simp only [show ((1 : Nat) == 0) = false from rfl, Bool.false_eq_true, if_false]
    rw [ih (fun q hq => hws q (List.mem_cons_of_mem _ hq)) p.2 hp2]
    simp [List.replicate_succ]

theorem atLeastOneLoop_before (U : UnicodeTables) (l : Lexer) (fuel : Nat) (t sep : Str)
    (c : TermCardinality)
    (ht : t ≠ [] ∧ DecodeRuneInString t ≠ (RuneError, 1) ∧
      IsSpace (DecodeRuneInString t).1 = false ∧ HasPrefix t TermPrefix = false ∧
      HasPrefix t BuiltInPrefix = false ∧ HasPrefix t LiteralPrefix = false)
    (hs : sep ≠ [] ∧ DecodeRuneInString sep ≠ (RuneError, 1) ∧
      IsSpace (DecodeRuneInString sep).1 = false ∧ HasPrefix sep TermPrefix = false ∧
      HasPrefix sep BuiltInPrefix = false ∧ HasPrefix sep LiteralPrefix = false)
    (pre : List (Str × Str))
    (hws : ∀ p ∈ pre, p.1.all isAsciiSpace = true ∧ p.2.all isAsciiSpace = true)
    (w : Str) (hw : w.all isAsciiSpace = true) (X : Str) (k : Nat) (acc : List Str) :
    ∃ w' acc', w'.all isAsciiSpace = true ∧
      atLeastOneLoop (lexString U l fuel) ⟨t, c, sep⟩ (pre.length + (k + 1))
          (w ++ (joinedBefore t sep pre ++ X)) acc =
        atLeastOneLoop (lexString U l fuel) ⟨t, c, sep⟩ (k + 1) (w' ++ X) acc' := by
  obtain ⟨ht0, ht1, ht2, ht3, ht4, ht5⟩ := ht
  obtain ⟨hs0, hs1, hs2, hs3, hs4, hs5⟩ := hs
  induction pre generalizing w acc with
  | nil => exact ⟨w, acc, hw, by simp [joinedBefore]⟩
  | cons p pre ih =>
    obtain ⟨hp1, hp2⟩ := hws p (List.mem_cons_self _ _)
    have e : w ++ (joinedBefore t sep (p :: pre) ++ X) =
        w ++ (t ++ (p.1 ++ (sep ++ (p.2 ++ (joinedBefore t sep pre ++ X))))) := by
      simp [joinedBefore, List.append_assoc]
    have h1 := lexString_literal_after_ws U l fuel w t
      (p.1 ++ (sep ++ (p.2 ++ (joinedBefore t sep pre ++ X)))) hw ht0 ht1 ht2 ht3 ht4 ht5
    have h2 := lexString_literal_after_ws U l fuel p.1 sep (p.2 ++ (joinedBefore t sep pre ++ X))
      hp1 hs0 hs1 hs2 hs3 hs4 hs5
    obtain ⟨w', acc', hw', hloop⟩ :=
      ih (fun q hq => hws q (List.mem_cons_of_mem _ hq)) p.2 hp2 (acc ++ [t])
    refine ⟨w', acc', hw', ?_⟩
    have en : (p :: pre).length + (k + 1) = (pre.length + (k + 1)) + 1 := by
      simp only [List.length_cons]; omega
    rw [e, en, atLeastOneLoop]
    simp only [h1, h2, Bool.not_true, Bool.false_or]
    simp only [show ((1 : Nat) == 0) = false from rfl, Bool.false_eq_true, if_false]
    rw [if_pos (by omega)]
    exact hloop

theorem atLeastOneLoop_fails (U : UnicodeTables) (l : Lexer) (fuel : Nat) (t sep : Str)
    (c : TermCardinality) (h1 : HasPrefix t TermPrefix = false)
    (h2 : HasPrefix t BuiltInPrefix = false) (h3 : HasPrefix t LiteralPrefix = false)
    (k : Nat) (str : Str) (acc : List Str) (hno : HasPrefix (skipSpace str) t = false) :
    atLeastOneLoop (lexString U l fuel) ⟨t, c, sep⟩ (k + 1) str acc =
      some (acc, false, skipSpace str) := by
  rw [atLeastOneLoop]
  simp only [lexString_literal_eq U l fuel str t h1 h2, literalOf_eq_self h3, hno,
    Bool.false_eq_true, if_false, Bool.not_false, Bool.true_or, if_true]

theorem joinedAfter_cases (t sep : Str) (post : List (Str × Str))
    (hws : ∀ p ∈ post, p.1.all isAsciiSpace = true ∧ p.2.all isAsciiSpace = true) :
    joinedAfter t sep post = [] ∨
      ∃ q rest, q.all isAsciiSpace = true ∧ joinedAfter t sep post = q ++ (sep ++ rest) := by
  cases post with
  | nil => left; rfl
  | cons p post =>
    right
    exact ⟨p.1, p.2 ++ t ++ joinedAfter t sep post, (hws p (List.mem_cons_self _ _)).1,
      by simp [joinedAfter, List.append_assoc]⟩

theorem validString_single (b : Nat) (hb : b < 0x80) : ValidString [b] = true := by
  rw [validString_iff [b] (by simp), decode_ascii b [] hb]
  constructor
  · intro h
    simp only [Prod.mk.injEq, and_true] at h
    rw [h] at hb
    exact absurd hb (by decide)
  · rfl

theorem runesOf_single (b : Nat) (hb : b < 0x80) : runesOf [b] = [b] := by
  rw [runesOf_eq [b] (by simp), decode_ascii b [] hb]
  rfl

/-- After a copy of `t` is replaced by `u`, the literal `t` is not found at the
place of `u`. -/
theorem replaced_not_found (t sep u : Str) (post : List (Str × Str)) (w : Str)
    (htn : t ≠ []) (hsn : sep ≠ [])
    (htv : ValidString t = true) (hsv : ValidString sep = true)
    (htW : ∀ c ∈ runesOf t, IsSpace c = false) (hsW : ∀ c ∈ runesOf sep, IsSpace c = false)
    (hd : ∀ c ∈ runesOf t, c ∉ runesOf sep)
    (hws : ∀ p ∈ post, p.1.all isAsciiSpace = true ∧ p.2.all isAsciiSpace = true)
    (hw : w.all isAsciiSpace = true)
    (hu1 : ¬ t <+: u) (hu2 : u = [] ∨ IsSpace (DecodeRuneInString u).1 = false) :
    HasPrefix (skipSpace (w ++ (u ++ joinedAfter t sep post))) t = false := by
  obtain ⟨ht1, ht2⟩ := valid_start t htn htv htW
  obtain ⟨hs1, hs2⟩ := valid_start sep hsn hsv hsW
  rw [skipSpace_ws_append _ _ hw]
  have hnotsep : ∀ rest, ¬ t <+: sep ++ rest := by
    intro rest hp
    have := first_rune_eq_of_starts t sep rest htn hsn ht1 hs1 hp
    apply hd _ (first_rune_mem t htn)
    rw [this]
    exact first_rune_mem sep hsn
  cases hres : HasPrefix (skipSpace (u ++ joinedAfter t sep post)) t with
  | false => rfl
  | true =>
    exfalso
    have hpre := (hasPrefix_iff _ _).1 hres
    by_cases hun : u = []
    · subst hun
      rw [List.nil_append] at hpre
      rcases joinedAfter_cases t sep post hws with hQ | ⟨q, rest, hq, hQ⟩
      · rw [hQ] at hpre
        simp only [skipSpace, List.prefix_nil] at hpre
        exact htn hpre
      · rw [hQ, skipSpace_ws_append _ _ hq, skipSpace_valid_start sep rest hsn hs1 hs2] at hpre
        exact hnotsep rest hpre
    · have hu3 : IsSpace (DecodeRuneInString u).1 = false := by
        rcases hu2 with h | h
        · exact absurd h hun
        · exact h
      have hstable : skipSpace (u ++ joinedAfter t sep post) = u ++ joinedAfter t sep post := by
        apply skipSpace_eq_self
        right
        by_cases huv : DecodeRuneInString u = (RuneError, 1)
        · rcases joinedAfter_cases t sep post hws with hQ | ⟨q, rest, hq, hQ⟩
          · rw [hQ, List.append_nil]; exact hu3
          · rw [hQ]
            rcases q with _ | ⟨b, q'⟩
            · rcases sep with _ | ⟨b, sep'⟩
              · exact absurd rfl hsn
              · rw [List.nil_append, List.cons_append,
                  decode_append_of_invalid u _ b hun (lead_not_cont b sep' hs1) huv]
                exact isSpace_runeError
            · simp only [List.all_cons, Bool.and_eq_true] at hq
              have hb := (isSpace_of_asciiSpace hq.1).2
              have hc : isCont b = false := by
                simp only [isCont, decide_eq_false_iff_not, not_and, not_le]; omega
              rw [List.cons_append, decode_append_of_invalid u _ b hun hc huv]
              exact isSpace_runeError
        · rw [decode_append_of_valid u _ hun huv]; exact hu3
      rw [hstable] at hpre
      by_cases hlen : t.length ≤ u.length
      · exact hu1 (List.prefix_of_prefix_length_le hpre (List.prefix_append _ _) hlen)
      · have hut : u <+: t :=
          List.prefix_of_prefix_length_le (List.prefix_append _ _) hpre (by omega)
        obtain ⟨v, hv⟩ := hut
        have hvn : v ≠ [] := by
          rintro rfl
          rw [List.append_nil] at hv
          rw [hv] at hlen
          exact hlen (le_refl _)
        replace hpre : v <+: joinedAfter t sep post :=
          (List.prefix_append_right_inj u).1 (by rw [hv]; exact hpre)
        rcases joinedAfter_cases t sep post hws with hQ | ⟨q, rest, hq, hQ⟩
        · rw [hQ] at hpre
          exact hvn (List.prefix_nil.1 hpre)
        · rw [hQ] at hpre
          rcases q with _ | ⟨b, q'⟩
          · -- `v` meets the separator
            rw [List.nil_append] at hpre
            rcases v with _ | ⟨b, v'⟩
            · exact hvn rfl
            · rcases sep with _ | ⟨b', sep'⟩
              · exact hsn rfl
              · have hbb : b = b' := by
                  obtain ⟨z, hz⟩ := hpre
                  simp only [List.cons_append, List.cons.injEq] at hz
                  exact hz.1
                have hc : isCont b = false := hbb ▸ lead_not_cont b' sep' hs1
                obtain ⟨hv1, hv2⟩ :=
                  suffix_boundary t.length t u (b :: v') b v' (le_refl _) htv hv.symm rfl hc
                have := first_rune_eq_of_starts (b :: v') (b' :: sep') rest hvn hsn hv1 hs1 hpre
                apply hd _ hv2
                rw [this]
                exact first_rune_mem _ hsn
          · -- `v` meets white space
            simp only [List.all_cons, Bool.and_eq_true] at hq
            obtain ⟨hb1, hb2⟩ := isSpace_of_asciiSpace hq.1
            have hN : NoOcc [b] t :=
              noOcc_of_disjoint t [b] (by simp) htv (validString_single b hb2) (by
                intro c hc hcb
                rw [runesOf_single b hb2, List.mem_singleton] at hcb
                have := htW c hc
                rw [hcb, hb1] at this
                cases this)
            apply hN u v [] hv.symm hvn
            rw [List.append_nil]
            rcases v with _ | ⟨b0, v'⟩
            · exact absurd rfl hvn
            · obtain ⟨z, hz⟩ := hpre
              simp only [List.cons_append, List.cons.injEq] at hz
              rw [hz.1]
              exact ⟨v', rfl⟩

theorem matchString_single_token (U : UnicodeTables) (l : Lexer) (T : Str) (tok : SyntaxToken)
    (fuel : Nat) (input : Str) (r : TokenResult)
    (h : parseToken (lexString U (l.AddTerm ⟨[⟨[tok]⟩]⟩ T) fuel) (skipSpace input) tok = some r) :
    MatchString U (l.AddTerm ⟨[⟨[tok]⟩]⟩ T) (fuel + 1) input (TermPrefix ++ T) =
      if r.matched then some (r.result, trimSpaceIsEmpty r.rest) else some ([], false) := by
  simp only [MatchString, lexString_term_eq, matchTerm, lookup_AddTerm, matchPhrases,
    matchAlternatives, h]
  cases hm : r.matched <;> simp [matchPhrases]

theorem splitLen_eq (s sep : Str) (hsn : sep ≠ []) :
    splitLen s sep = countSep sep s.length s + 1 := by
  simp [splitLen, hsn]

/-- C4 (amended): AtLeastOne over a literal.  Let `t` and `sep` be non-empty
valid UTF-8 strings that contain no white space character, share no character
and do not start with `$`, `!` or `@`, and let `T` be the term whose only
phrase is the single token (ident `t`, AtLeastOne, separator `sep`).  For
every input made of `n >= 1` copies of `t` joined by `sep`, with any amount of
ASCII white space before and after each separator, `MatchString(input, "$T")`
returns `n` copies of `t` and matched = true.  On the empty input, and on an
input in which one copy of `t` is replaced by a string `u` that does not begin
with white space and of which `t` is not a prefix, it returns matched = false. -/
theorem atLeastOne_over_literal (U : UnicodeTables) (l : Lexer) (T t sep : Str) (fuel : Nat)
    (htn : t ≠ []) (hsn : sep ≠ [])
    (htv : ValidString t = true) (hsv : ValidString sep = true)
    (htW : ∀ c ∈ runesOf t, IsSpace c = false) (hsW : ∀ c ∈ runesOf sep, IsSpace c = false)
    (hd : ∀ c ∈ runesOf t, c ∉ runesOf sep)
    (htS : HasPrefix t TermPrefix = false ∧ HasPrefix t BuiltInPrefix = false ∧
      HasPrefix t LiteralPrefix = false)
    (hsS : HasPrefix sep TermPrefix = false ∧ HasPrefix sep BuiltInPrefix = false ∧
      HasPrefix sep LiteralPrefix = false) :
    (∀ ws : List (Str × Str),
      (∀ p ∈ ws, p.1.all isAsciiSpace = true ∧ p.2.all isAsciiSpace = true) →
      MatchString U (l.AddTerm ⟨[⟨[⟨t, CardinalityAtLeastOne, sep⟩]⟩]⟩ T) (fuel + 1)
        (joined t sep ws) (TermPrefix ++ T) = some (List.replicate (ws.length + 1) t, true)) ∧
    MatchString U (l.AddTerm ⟨[⟨[⟨t, CardinalityAtLeastOne, sep⟩]⟩]⟩ T) (fuel + 1) []
      (TermPrefix ++ T) = some ([], false) ∧
    (∀ (pre post : List (Str × Str)) (u : Str),
      (∀ p ∈ pre, p.1.all isAsciiSpace = true ∧ p.2.all isAsciiSpace = true) →
      (∀ p ∈ post, p.1.all isAsciiSpace = true ∧ p.2.all isAsciiSpace = true) →
      ¬ t <+: u → (u = [] ∨ IsSpace (DecodeRuneInString u).1 = false) →
      MatchString U (l.AddTerm ⟨[⟨[⟨t, CardinalityAtLeastOne, sep⟩]⟩]⟩ T) (fuel + 1)
        (joinedBefore t sep pre ++ (u ++ joinedAfter t sep post)) (TermPrefix ++ T) =
          some ([], false)) := by
  obtain ⟨ht1, ht2⟩ := valid_start t htn htv htW
  obtain ⟨hs1, hs2⟩ := valid_start sep hsn hsv hsW
  have ht : t ≠ [] ∧ DecodeRuneInString t ≠ (RuneError, 1) ∧
      IsSpace (DecodeRuneInString t).1 = false ∧ HasPrefix t TermPrefix = false ∧
      HasPrefix t BuiltInPrefix = false ∧ HasPrefix t LiteralPrefix = false :=
    ⟨htn, ht1, ht2, htS⟩
  have hs : sep ≠ [] ∧ DecodeRuneInString sep ≠ (RuneError, 1) ∧
      IsSpace (DecodeRuneInString sep).1 = false ∧ HasPrefix sep TermPrefix = false ∧
      HasPrefix sep BuiltInPrefix = false ∧ HasPrefix sep LiteralPrefix = false :=
    ⟨hsn, hs1, hs2, hsS⟩
  have hnil : ([] : Str).all isAsciiSpace = true := rfl
  refine ⟨?_, ?_, ?_⟩
  · intro ws hws
    have hstart : skipSpace (joined t sep ws) = joined t sep ws := by
      cases ws with
      | nil => simpa [joined] using skipSpace_valid_start t [] htn ht1 ht2
      | cons p ws =>
        simp only [joined, List.append_assoc]
        exact skipSpace_valid_start t _ htn ht1 ht2
    have hcount := countSep_joined t sep hsn htv hsv hsW hd ws hws [] hnil
      (joined t sep ws).length (le_refl _)
    have hloop := atLeastOneLoop_joined U (l.AddTerm ⟨[⟨[⟨t, CardinalityAtLeastOne, sep⟩]⟩]⟩ T)
      fuel t sep CardinalityAtLeastOne ht hs ws hws [] hnil []
    simp only [List.nil_append] at hcount hloop
    rw [matchString_single_token U l T _ fuel _
      ⟨List.replicate (ws.length + 1) t, true, []⟩ (by
        rw [hstart, parseToken_atLeastOne_eq, splitLen_eq _ _ hsn, hcount, hloop]
        simp)]
    simp [trimSpaceIsEmpty_nil]
  · rw [matchString_single_token U l T _ fuel _ ⟨[], false, []⟩ (by
      rw [parseToken_atLeastOne_eq, splitLen_eq _ _ hsn]
      have hno : HasPrefix (skipSpace (skipSpace ([] : Str))) t = false := by
        cases t with
        | nil => exact absurd rfl htn
        | cons b t' => rfl
      rw [atLeastOneLoop_fails U _ fuel t sep _ htS.1 htS.2.1 htS.2.2 _ _ [] hno]
      rfl)]
    rfl
  · intro pre post u hpre hpost hu1 hu2
    cases pre with
    | nil =>
      simp only [joinedBefore, List.nil_append]
      have hno := replaced_not_found t sep u post [] htn hsn htv hsv htW hsW hd hpost hnil hu1 hu2
      rw [List.nil_append] at hno
      rw [matchString_single_token U l T _ fuel _
        ⟨[], false, skipSpace (u ++ joinedAfter t sep post)⟩ (by
          rw [parseToken_atLeastOne_eq, splitLen_eq _ _ hsn,
            atLeastOneLoop_fails U _ fuel t sep _ htS.1 htS.2.1 htS.2.2 _ _ []
              (by rw [skipSpace_idem]; exact hno)]
          simp [skipSpace_idem])]
      rfl
    | cons p pre =>
      have hstart : skipSpace (joinedBefore t sep (p :: pre) ++ (u ++ joinedAfter t sep post)) =
          joinedBefore t sep (p :: pre) ++ (u ++ joinedAfter t sep post) := by
        simp only [joinedBefore, List.append_assoc]
        exact skipSpace_valid_start t _ htn ht1 ht2
      have hcount := countSep_before t sep hsn htv hsv hsW hd (p :: pre) hpre [] hnil
        (u ++ joinedAfter t sep post) _ (le_refl _)
      simp only [List.nil_append] at hcount
      obtain ⟨k, hk⟩ : ∃ k, countSep sep
          (joinedBefore t sep (p :: pre) ++ (u ++ joinedAfter t sep post)).length
          (joinedBefore t sep (p :: pre) ++ (u ++ joinedAfter t sep post)) + 1 =
            (p :: pre).length + (k + 1) :=
        ⟨countSep sep (joinedBefore t sep (p :: pre) ++ (u ++ joinedAfter t sep post)).length
          (joinedBefore t sep (p :: pre) ++ (u ++ joinedAfter t sep post)) - (p :: pre).length,
          by omega⟩
      obtain ⟨w', acc', hw', hloop⟩ := atLeastOneLoop_before U
        (l.AddTerm ⟨[⟨[⟨t, CardinalityAtLeastOne, sep⟩]⟩]⟩ T) fuel t sep CardinalityAtLeastOne
        ht hs (p :: pre) hpre [] hnil (u ++ joinedAfter t sep post) k []
      simp only [List.nil_append] at hloop
      have hno := replaced_not_found t sep u post w' htn hsn htv hsv htW hsW hd hpost hw' hu1 hu2
      rw [matchString_single_token U l T _ fuel _
        ⟨acc', false, skipSpace (w' ++ (u ++ joinedAfter t sep post))⟩ (by
          rw [hstart, parseToken_atLeastOne_eq, splitLen_eq _ _ hsn, hk, hloop,
            atLeastOneLoop_fails U _ fuel t sep _ htS.1 htS.2.1 htS.2.2 _ _ _ hno]
          simp)]
      rfl

/-- C4 (witness): the rule `atLeastOneFoo` of the test grammar on
`foo ,foo,\t foo`, on the empty input and on `foo,bar`. -/
theorem atLeastOne_over_literal_witness :
    MatchString latin1Tables
        (NewLexer.AddTerm ⟨[⟨[⟨ascii "foo", CardinalityAtLeastOne, ascii ","⟩]⟩]⟩
          (ascii "atLeastOneFoo")) 1
        (joined (ascii "foo") (ascii ",") [(ascii " ", []), ([], ascii "\t ")])
        (TermPrefix ++ ascii "atLeastOneFoo") =
          some (List.replicate 3 (ascii "foo"), true) ∧
      MatchString latin1Tables
        (NewLexer.AddTerm ⟨[⟨[⟨ascii "foo", CardinalityAtLeastOne, ascii ","⟩]⟩]⟩
          (ascii "atLeastOneFoo")) 1 [] (TermPrefix ++ ascii "atLeastOneFoo") =
          some ([], false) ∧
      MatchString latin1Tables
        (NewLexer.AddTerm ⟨[⟨[⟨ascii "foo", CardinalityAtLeastOne, ascii ","⟩]⟩]⟩
          (ascii "atLeastOneFoo")) 1
        (joinedBefore (ascii "foo") (ascii ",") [([], [])] ++
          (ascii "bar" ++ joinedAfter (ascii "foo") (ascii ",") []))
        (TermPrefix ++ ascii "atLeastOneFoo") = some ([], false) :=
  have h := atLeastOne_over_literal latin1Tables NewLexer (ascii "atLeastOneFoo") (ascii "foo")
    (ascii ",") 0 (by decide) (by decide) (by decide) (by decide) (by decide) (by decide)
    (by decide) (by decide) (by decide)
  ⟨h.1 [(ascii " ", []), ([], ascii "\t ")] (by decide), h.2.1,
    h.2.2 [([], [])] [] (ascii "bar") (by decide) (by decide) (by decide) (by decide)⟩

/-- C4 (counterexample): `t` is `é` (bytes C3 A9), `sep` is the single byte
A9, which is not valid UTF-8 and reads as the character U+FFFD.  Neither holds
white space, they share no character, and the input is one copy of `t`; but
`strings.Split` finds the byte of `sep` inside `é` and reports two pieces, so
after the first match the loop demands a separator and matched = false.
Besides, with `t = foo` and `sep = ,` the second copy of `foo,foo` replaced by
the string ` foo`, of which `foo` is not a prefix, still matches, the leading
white space being skipped. -/
theorem split_finds_separator_inside_character :
    (runesOf [0xC3, 0xA9] = [0xE9] ∧ runesOf [0xA9] = [RuneError] ∧
      IsSpace 0xE9 = false ∧ IsSpace RuneError = false ∧
      joined [0xC3, 0xA9] [0xA9] [] = [0xC3, 0xA9] ∧
      splitLen [0xC3, 0xA9] [0xA9] = 2 ∧
      MatchString latin1Tables
        (NewLexer.AddTerm ⟨[⟨[⟨[0xC3, 0xA9], CardinalityAtLeastOne, [0xA9]⟩]⟩]⟩ (ascii "T")) 1
        [0xC3, 0xA9] (TermPrefix ++ ascii "T") = some ([], false)) ∧
    (¬ ascii "foo" <+: ascii " foo" ∧
      MatchString latin1Tables
        (NewLexer.AddTerm ⟨[⟨[⟨ascii "foo", CardinalityAtLeastOne, ascii ","⟩]⟩]⟩ (ascii "T")) 1
        (ascii "foo" ++ ascii "," ++ ascii " foo") (TermPrefix ++ ascii "T") =
          some ([ascii "foo", ascii "foo"], true)) := by
  decide

/-! ## The built-in `match` behind ASCII white space -/

theorem trimLeftSpace_ws_append (w x : Str) (hw : w.all isAsciiSpace = true)
    (hx : x = [] ∨ IsSpace (DecodeRuneInString x).1 = false) (fuel : Nat)
    (hf : w.length ≤ fuel) : trimLeftSpace fuel (w ++ x) = x := by
  induction w generalizing fuel with
  | nil =>
    cases fuel with
    | zero => rfl
    | succ n =>
      rcases hx with rfl | hx
      · simp [trimLeftSpace]
      · simp [trimLeftSpace, hx]
  | cons b w ih =>
    simp only [List.all_cons, Bool.and_eq_true] at hw
    obtain ⟨h1, h2⟩ := isSpace_of_asciiSpace hw.1
    cases fuel with
    | zero => simp at hf
    | succ n =>
      simp only [List.length_cons, Nat.add_le_add_iff_right] at hf
      rw [List.cons_append, trimLeftSpace, decode_ascii b _ h2]
      simp only [ne_eq, reduceCtorEq, not_false_eq_true, h1, and_self, if_true,
        List.drop_succ_cons, List.drop_zero]
      exact ih hw.2 n hf

/-- When the leading white space of the input is ASCII, the capture of
`!match` is the input without its leading white space. -/
theorem MatchString_match_ascii_space (U : UnicodeTables) (l : Lexer) (fuel : Nat) (w x : Str)
    (hw : w.all isAsciiSpace = true)
    (hx : x = [] ∨ IsSpace (DecodeRuneInString x).1 = false) :
    MatchString U l fuel (w ++ x) (ascii "!match") = some ([x], true) ∧
      dropLeadingSpace (w ++ x) = x := by
  constructor
  · rw [MatchString_match_eq, skipSpace_ws_append _ _ hw, skipSpace_eq_self hx]
  · exact trimLeftSpace_ws_append w x hw hx _ (by simp)

/-! ## Unresolvable references and rule rollback -/

theorem trimLeftSpace_fuel (fuel1 fuel2 : Nat) (s : Str) (h1 : s.length ≤ fuel1)
    (h2 : s.length ≤ fuel2) : trimLeftSpace fuel1 s = trimLeftSpace fuel2 s := by
  induction fuel1 generalizing fuel2 s with
  | zero =>
    have hs : s = [] := List.length_eq_zero.1 (Nat.le_zero.1 h1)
    subst hs
    cases fuel2 <;> simp [trimLeftSpace]
  | succ n ih =>
    cases fuel2 with
    | zero =>
      have hs : s = [] := List.length_eq_zero.1 (Nat.le_zero.1 h2)
      subst hs; simp [trimLeftSpace]
    | succ k =>
      simp only [trimLeftSpace]
      by_cases hs : s = []
      · simp [hs]
      · have hw := decode_width_pos s hs
        have hl : 0 < s.length := List.length_pos.2 hs
        rw [ih k (s.drop (DecodeRuneInString s).2) (by simp; omega) (by simp; omega)]

theorem dropLeadingSpace_nil : dropLeadingSpace [] = [] := rfl

theorem dropLeadingSpace_eq (s : Str) (hs : s ≠ []) :
    dropLeadingSpace s =
      if IsSpace (DecodeRuneInString s).1 then dropLeadingSpace (s.drop (DecodeRuneInString s).2)
      else s := by
  have hl : 0 < s.length := List.length_pos.2 hs
  have hw := decode_width_pos s hs
  obtain ⟨n, hn⟩ : ∃ n, s.length = n + 1 := ⟨s.length - 1, by omega⟩
  rw [dropLeadingSpace, hn, trimLeftSpace]
  by_cases h : IsSpace (DecodeRuneInString s).1 = true
  · simp only [ne_eq, hs, not_false_eq_true, h, and_self, if_true, dropLeadingSpace]
    exact trimLeftSpace_fuel _ _ _ (by simp; omega) (le_refl _)
  · simp [h]

theorem dropLeadingSpace_suffix (n : Nat) (s : Str) (hn : s.length ≤ n) :
    dropLeadingSpace s <:+ s := by
  induction n generalizing s with
  | zero =>
    have hs : s = [] := List.length_eq_zero.1 (Nat.le_zero.1 hn)
    subst hs; exact List.suffix_refl _
  | succ n ih =>
    by_cases hs : s = []
    · subst hs; exact List.suffix_refl _
    · rw [dropLeadingSpace_eq s hs]
      have hl : 0 < s.length := List.length_pos.2 hs
      have hw := decode_width_pos s hs
      split
      · exact (ih _ (by simp; omega)).trans (List.drop_suffix _ _)
      · exact List.suffix_refl _

theorem decode_cont_start (b : Nat) (t : Str) (hb : isCont b = true) :
    DecodeRuneInString (b :: t) = (RuneError, 1) := by
  simp only [isCont, decide_eq_true_eq] at hb
  have h1 : ¬ b < 0x80 := by omega
  have h2 : b < 0xC2 ∨ 0xF4 < b := by omega
  simp only [DecodeRuneInString, h1, if_false, h2, if_true]

/-- What the white space loop of `lexString` leaves still holds everything
that follows the leading white space of the string. -/
theorem dropLeadingSpace_suffix_skipSpace (n : Nat) (s : Str) (hn : s.length ≤ n) :
    dropLeadingSpace s <:+ skipSpace s := by
  induction n generalizing s with
  | zero =>
    have hs : s = [] := List.length_eq_zero.1 (Nat.le_zero.1 hn)
    subst hs; exact List.suffix_refl _
  | succ n ih =>
    rcases s with _ | ⟨b, t⟩
    · exact List.suffix_refl _
    · have hs : b :: t ≠ [] := by simp
      rw [dropLeadingSpace_eq _ hs, skipSpace]
      by_cases h : IsSpace (DecodeRuneInString (b :: t)).1 = true
      · simp only [h, if_true]
        have hv : DecodeRuneInString (b :: t) ≠ (RuneError, 1) := by
          intro he; rw [he, isSpace_runeError] at h; cases h
        obtain ⟨s0, cs, hsh, hcs, -, hlen⟩ := decode_shape (b :: t) hs hv
        simp only [List.cons.injEq] at hsh
        obtain ⟨-, ht⟩ := hsh
        rcases cs with _ | ⟨c, cs⟩
        · -- a single byte of white space
          have hw1 : (DecodeRuneInString (b :: t)).2 = 1 := by simpa using hlen.symm
          rw [hw1]
          simp only [List.drop_succ_cons, List.drop_zero]
          exact ih t (by simpa using hn)
        · -- the loop stops inside the character
          have hc : isCont c = true := hcs c (List.mem_cons_self _ _)
          have hst : skipSpace t = t := by
            rw [ht]
            exact skipSpace_eq_self (Or.inr (by
              rw [List.cons_append, decode_cont_start c _ hc]; exact isSpace_runeError))
          rw [hst]
          have h1 := dropLeadingSpace_suffix _ ((b :: t).drop (DecodeRuneInString (b :: t)).2)
            (le_refl _)
          have h2 : (b :: t).drop (DecodeRuneInString (b :: t)).2 <:+ t := by
            have hwpos := decode_width_pos (b :: t) hs
            obtain ⟨k, hk⟩ : ∃ k, (DecodeRuneInString (b :: t)).2 = k + 1 :=
              ⟨(DecodeRuneInString (b :: t)).2 - 1, by omega⟩
            rw [hk, List.drop_succ_cons]
            exact List.drop_suffix _ _
          exact h1.trans h2
      · simp only [h, if_false, Bool.false_eq_true]
        exact List.suffix_refl _

theorem matchBuiltIn_unknown (U : UnicodeTables) (str name : Str) (h1 : name ≠ ascii "label")
    (h2 : name ≠ ascii "match") (h3 : name ≠ ascii "int") :
    matchBuiltIn U str name = ⟨[], 0, false, false, str⟩ := by
  simp [matchBuiltIn, h1, h2, h3]

/-- C11: an unresolvable reference is an ordinary non-match.  For every
registry, every input and every name that is not registered, `lexString` on
`"$" ++ name` returns no capture, match count 0, no match and no partial
match, and `MatchString` returns no capture and matched = false.  The same
holds for `"!" ++ name` when `name` is none of `label`, `match`, `int`; the
name may be empty, which is the case of the bare expressions `$` and `!`.  The
cursor left behind is the one the white space loop leaves: a suffix of the
input that still holds everything after the leading white space. -/
theorem unresolved_reference_is_non_match (U : UnicodeTables) (l : Lexer) (name input : Str)
    (fuel : Nat) :
    (l.lookup name = none →
      lexString U l (fuel + 1) input (TermPrefix ++ name) =
          some ⟨[], 0, false, false, skipSpace input⟩ ∧
        MatchString U l (fuel + 1) input (TermPrefix ++ name) = some ([], false)) ∧
    (name ≠ ascii "label" → name ≠ ascii "match" → name ≠ ascii "int" →
      lexString U l fuel input (BuiltInPrefix ++ name) =
          some ⟨[], 0, false, false, skipSpace input⟩ ∧
        MatchString U l fuel input (BuiltInPrefix ++ name) = some ([], false)) ∧
    skipSpace input <:+ input ∧ dropLeadingSpace input <:+ skipSpace input := by
  refine ⟨fun h => ?_, fun h1 h2 h3 => ?_, skipSpace_suffix input,
    dropLeadingSpace_suffix_skipSpace _ input (le_refl _)⟩
  · have : lexString U l (fuel + 1) input (TermPrefix ++ name) =
        some ⟨[], 0, false, false, skipSpace input⟩ := by
      rw [lexString_term_eq, matchTerm, h]
    exact ⟨this, by simp [MatchString, this]⟩
  · have : lexString U l fuel input (BuiltInPrefix ++ name) =
        some ⟨[], 0, false, false, skipSpace input⟩ := by
      rw [lexString_builtin_eq, matchBuiltIn_unknown U _ name h1 h2 h3]
    exact ⟨this, by simp [MatchString, this]⟩

/-- C11 (witness): the unregistered rule `$bar` on the input ` bar` and the
bare expression `!` on the input `foo`, with an empty registry. -/
theorem unresolved_reference_is_non_match_witness :
    (lexString latin1Tables NewLexer 1 (ascii " bar") (TermPrefix ++ ascii "bar") =
          some ⟨[], 0, false, false, skipSpace (ascii " bar")⟩ ∧
        MatchString latin1Tables NewLexer 1 (ascii " bar") (TermPrefix ++ ascii "bar") =
          some ([], false)) ∧
    (lexString latin1Tables NewLexer 0 (ascii "foo") (BuiltInPrefix ++ []) =
          some ⟨[], 0, false, false, skipSpace (ascii "foo")⟩ ∧
        MatchString latin1Tables NewLexer 0 (ascii "foo") (BuiltInPrefix ++ []) =
          some ([], false)) :=
  ⟨(unresolved_reference_is_non_match latin1Tables NewLexer (ascii "bar") (ascii " bar") 0).1
      (by decide),
    (unresolved_reference_is_non_match latin1Tables NewLexer [] (ascii "foo") 0).2.1
      (by decide) (by decide) (by decide)⟩

theorem matchPhrases_fail_rest (lex : Str → Str → Option LexResult) (strCopy : Str)
    (phrases : List SyntaxPhrase) (str : Str) (result : List Str) (pm : Bool) (res : LexResult)
    (h : matchPhrases lex strCopy phrases str result pm = some res) (hm : res.matched = false) :
    res.rest = strCopy ∧ res.numMatched = 0 ∧
      (res.partialMatch = true ↔
        pm = true ∨ ∃ n, matchedCount lex phrases str = some n ∧ 1 ≤ n) := by
  induction phrases generalizing str result pm with
  | nil =>
    simp only [matchPhrases, Option.some.injEq] at h
    subst h
    simp at hm
  | cons ph phs ih =>
    simp only [matchPhrases] at h
    simp only [matchedCount]
    cases ha : matchAlternatives lex ph.Alternatives str with
    | none => rw [ha] at h; cases h
    | some v =>
      obtain ⟨ms, matchedOne, str1⟩ := v
      rw [ha] at h
      simp only at h ⊢
      cases matchedOne with
      | true =>
        simp only [if_true] at h ⊢
        obtain ⟨h1, h2, h3⟩ := ih _ _ _ h
        refine ⟨h1, h2, ?_⟩
        rw [h3]
        simp only [true_or, true_iff]
        right
        -- the rule fails later, so the count of the remaining phrases is defined
        cases hc : matchedCount lex phs str1 with
        | none =>
          exfalso
          have : ∀ (phs : List SyntaxPhrase) (str : Str) (result : List Str) (pm : Bool)
              (res : LexResult), matchPhrases lex strCopy phs str result pm = some res →
              matchedCount lex phs str ≠ none := by
            intro phs
            induction phs with
            | nil => intro _ _ _ _ _; simp [matchedCount]
            | cons q qs ihq =>
              intro str result pm res hq
              simp only [matchPhrases] at hq
              simp only [matchedCount]
              cases hb : matchAlternatives lex q.Alternatives str with
              | none => rw [hb] at hq; cases hq
              | some v =>
                obtain ⟨ms', m', s'⟩ := v
                rw [hb] at hq
                simp only at hq ⊢
                cases m' with
                | true =>
                  simp only [if_true] at hq ⊢
                  have := ihq _ _ _ _ hq
                  cases hcc : matchedCount lex qs s' with
                  | none => exact absurd hcc this
                  | some k => simp
                | false => simp
          exact this _ _ _ _ _ h hc
        | some k => exact ⟨k + 1, by simp, by omega⟩
      | false =>
        simp only [Bool.false_eq_true, if_false, Option.some.injEq] at h ⊢
        subst h
        refine ⟨rfl, rfl, ?_⟩
        simp

/-- C12: rule rollback.  For every registry, rule name and cursor `c` on
which `matchTerm` returns, if it reports no match then the cursor after the
call is exactly `c`, and `partialMatch` is true exactly when the rule is
registered and at least one of its phrases had matched before the failing
one. -/
theorem matchTerm_rollback (lex : Str → Str → Option LexResult) (l : Lexer) (c name : Str)
    (res : LexResult) (h : matchTerm lex l c name = some res) (hm : res.matched = false) :
    res.rest = c ∧
      (res.partialMatch = true ↔
        ∃ term n, l.lookup name = some term ∧
          matchedCount lex term.Phrases c = some n ∧ 1 ≤ n) := by
  unfold matchTerm at h
  cases hl : l.lookup name with
  | none =>
    rw [hl] at h
    simp only [Option.some.injEq] at h
    subst h
    simp
  | some term =>
    rw [hl] at h
    simp only at h
    obtain ⟨h1, -, h3⟩ := matchPhrases_fail_rest lex c term.Phrases c [] false res h hm
    refine ⟨h1, ?_⟩
    rw [h3]
    simp

/-- C12 (witness): the rule `fooAndBar` (phrases `foo`, then `bar`) on the
input `foox`: the first phrase matches and consumes `foo`, the second fails,
and the cursor is back on `foox` with `partialMatch` true. -/
theorem matchTerm_rollback_witness :
    (⟨[ascii "foo"], 0, false, true, ascii "foox"⟩ : LexResult).rest = ascii "foox" ∧
      ((⟨[ascii "foo"], 0, false, true, ascii "foox"⟩ : LexResult).partialMatch = true ↔
        ∃ term n,
          (NewLexer.AddTerm ⟨[⟨[⟨ascii "foo", CardinalityOne, []⟩]⟩,
            ⟨[⟨ascii "bar", CardinalityOne, []⟩]⟩]⟩ (ascii "fooAndBar")).lookup
              (ascii "fooAndBar") = some term ∧
          matchedCount (lexString latin1Tables
            (NewLexer.AddTerm ⟨[⟨[⟨ascii "foo", CardinalityOne, []⟩]⟩,
              ⟨[⟨ascii "bar", CardinalityOne, []⟩]⟩]⟩ (ascii "fooAndBar")) 0)
            term.Phrases (ascii "foox") = some n ∧ 1 ≤ n) :=
  matchTerm_rollback
    (lexString latin1Tables
      (NewLexer.AddTerm ⟨[⟨[⟨ascii "foo", CardinalityOne, []⟩]⟩,
        ⟨[⟨ascii "bar", CardinalityOne, []⟩]⟩]⟩ (ascii "fooAndBar")) 0)
    (NewLexer.AddTerm ⟨[⟨[⟨ascii "foo", CardinalityOne, []⟩]⟩,
      ⟨[⟨ascii "bar", CardinalityOne, []⟩]⟩]⟩ (ascii "fooAndBar"))
    (ascii "foox") (ascii "fooAndBar") ⟨[ascii "foo"], 0, false, true, ascii "foox"⟩
    (by decide) rfl

/-! ## Loading a grammar -/

/-- C14: cardinality parsing.  `UnmarshalXMLAttr` succeeds on the four values
`one`, `optional`, `atLeastOne` and `many`, setting the target to One,
Optional, AtLeastOne and Many; on every other value, among them the same
words in another case, it returns an error and leaves the target as it was.
So it succeeds on exactly these four values. -/
theorem unmarshalXMLAttr_spec (tc : TermCardinality) (value : Str) :
    UnmarshalXMLAttr tc (ascii "one") = (CardinalityOne, none) ∧
    UnmarshalXMLAttr tc (ascii "optional") = (CardinalityOptional, none) ∧
    UnmarshalXMLAttr tc (ascii "atLeastOne") = (CardinalityAtLeastOne, none) ∧
    UnmarshalXMLAttr tc (ascii "many") = (CardinalityMany, none) ∧
    (value ∉ [ascii "one", ascii "optional", ascii "atLeastOne", ascii "many"] →
      (UnmarshalXMLAttr tc value).1 = tc ∧ (UnmarshalXMLAttr tc value).2 ≠ none) ∧
    ((UnmarshalXMLAttr tc value).2 = none ↔
      value ∈ [ascii "one", ascii "optional", ascii "atLeastOne", ascii "many"]) ∧
    (UnmarshalXMLAttr tc (ascii "One")).2 ≠ none ∧
    (UnmarshalXMLAttr tc (ascii "atleastone")).2 ≠ none ∧
    (UnmarshalXMLAttr tc (ascii "MANY")).2 ≠ none := by
  refine ⟨rfl, rfl, rfl, rfl, ?_, ?_, ?_, ?_, ?_⟩
  · intro h
    simp only [List.mem_cons, List.mem_singleton, List.not_mem_nil, or_false, not_or] at h
    simp [UnmarshalXMLAttr, h.1, h.2.1, h.2.2.1, h.2.2.2]
  · simp only [List.mem_cons, List.mem_singleton, List.not_mem_nil, or_false]
    unfold UnmarshalXMLAttr
    split_ifs with h1 h2 h3 h4 <;> simp [*]
  · simp [UnmarshalXMLAttr, ascii]
  · simp [UnmarshalXMLAttr, ascii]
  · simp [UnmarshalXMLAttr, ascii]

/-- C14 (witness): the value `One`, with a capital letter, is refused and the
target keeps its value Many. -/
theorem unmarshalXMLAttr_spec_witness :
    (UnmarshalXMLAttr CardinalityMany (ascii "One")).1 = CardinalityMany ∧
      (UnmarshalXMLAttr CardinalityMany (ascii "One")).2 ≠ none :=
  (unmarshalXMLAttr_spec CardinalityMany (ascii "One")).2.2.2.2.1 (by decide)

theorem unmarshalXML_bad_cardinality (e : TokenElement) (value : Str)
    (he : e.cardinality = some value)
    (hv : value ∉ [ascii "one", ascii "optional", ascii "atLeastOne", ascii "many"]) :
    ∃ err, UnmarshalXML e = Except.error err := by
  simp only [List.mem_cons, List.mem_singleton, List.not_mem_nil, or_false, not_or] at hv
  refine ⟨ascii "failed to parse string to TermCardinality " ++ value, ?_⟩
  simp [UnmarshalXML, he, UnmarshalXMLAttr, hv.1, hv.2.1, hv.2.2.1, hv.2.2.2]

theorem unmarshalTokens_bad_cardinality (es : List TokenElement) (value : Str)
    (he : ∃ k ∈ es, k.cardinality = some value)
    (hv : value ∉ [ascii "one", ascii "optional", ascii "atLeastOne", ascii "many"]) :
    ∃ err, unmarshalTokens es = Except.error err := by
  induction es with
  | nil => obtain ⟨k, hk, -⟩ := he; cases hk
  | cons e es ih =>
    simp only [unmarshalTokens]
    cases h1 : UnmarshalXML e with
    | error err => exact ⟨err, rfl⟩
    | ok tok =>
      obtain ⟨k, hk, hkv⟩ := he
      rcases List.mem_cons.1 hk with rfl | hk
      · obtain ⟨err, herr⟩ := unmarshalXML_bad_cardinality k value hkv hv
        rw [herr] at h1; cases h1
      · obtain ⟨err, herr⟩ := ih ⟨k, hk, hkv⟩
        exact ⟨err, by simp only [herr]⟩

theorem unmarshalPhrases_bad_cardinality (es : List PhraseElement) (value : Str)
    (he : ∃ p ∈ es, ∃ k ∈ p.tokens, k.cardinality = some value)
    (hv : value ∉ [ascii "one", ascii "optional", ascii "atLeastOne", ascii "many"]) :
    ∃ err, unmarshalPhrases es = Except.error err := by
  induction es with
  | nil => obtain ⟨p, hp, -⟩ := he; cases hp
  | cons e es ih =>
    simp only [unmarshalPhrases]
    cases h1 : unmarshalTokens e.tokens with
    | error err => exact ⟨err, rfl⟩
    | ok toks =>
      obtain ⟨p, hp, hpv⟩ := he
      rcases List.mem_cons.1 hp with rfl | hp
      · obtain ⟨err, herr⟩ := unmarshalTokens_bad_cardinality p.tokens value hpv hv
        rw [herr] at h1; cases h1
      · obtain ⟨err, herr⟩ := ih ⟨p, hp, hpv⟩
        exact ⟨err, by simp only [herr]⟩

theorem unmarshalTerms_bad_cardinality (es : List TermElement) (value : Str)
    (he : ∃ t ∈ es, ∃ p ∈ t.phrases, ∃ k ∈ p.tokens, k.cardinality = some value)
    (hv : value ∉ [ascii "one", ascii "optional", ascii "atLeastOne", ascii "many"]) :
    ∃ err, unmarshalTerms es = Except.error err := by
  induction es with
  | nil => obtain ⟨p, hp, -⟩ := he; cases hp
  | cons e es ih =>
    simp only [unmarshalTerms]
    cases h1 : unmarshalPhrases e.phrases with
    | error err => exact ⟨err, rfl⟩
    | ok phs =>
      obtain ⟨p, hp, hpv⟩ := he
      rcases List.mem_cons.1 hp with rfl | hp
      · obtain ⟨err, herr⟩ := unmarshalPhrases_bad_cardinality p.phrases value hpv hv
        rw [herr] at h1; cases h1
      · obtain ⟨err, herr⟩ := ih ⟨p, hp, hpv⟩
        exact ⟨err, by simp only [herr]⟩

/-- C13: grammar load is atomic on failure.  For every registry and every
document, if `LoadSyntaxXML` returns an error, the lexer after the call is the
lexer before it, so every rule lookup and every `MatchString` result is
unchanged.  An error is returned when the document cannot be read and when
one of its tokens carries a cardinality other than `one`, `optional`,
`atLeastOne`, `many`.  The old terms are discarded only when the whole document
has been decoded: without an error, the registry is the emptied registry to
which the terms of the document have been added in order. -/
theorem loadSyntaxXML_atomic (readXML : Str → Except Str SyntaxDocument) (lex : Lexer)
    (syntaxData : Str) :
    (∀ err, (LoadSyntaxXML readXML lex syntaxData).2 = some err →
      (LoadSyntaxXML readXML lex syntaxData).1 = lex ∧
      (∀ name, (LoadSyntaxXML readXML lex syntaxData).1.lookup name = lex.lookup name) ∧
      ∀ U fuel str term,
        MatchString U (LoadSyntaxXML readXML lex syntaxData).1 fuel str term =
          MatchString U lex fuel str term) ∧
    (∀ err, readXML syntaxData = Except.error err →
      LoadSyntaxXML readXML lex syntaxData = (lex, some err)) ∧
    (∀ doc value, readXML syntaxData = Except.ok doc → HasCardinality doc value →
      value ∉ [ascii "one", ascii "optional", ascii "atLeastOne", ascii "many"] →
      ∃ err, LoadSyntaxXML readXML lex syntaxData = (lex, some err)) ∧
    ((LoadSyntaxXML readXML lex syntaxData).2 = none →
      ∃ resultXML, Unmarshal readXML syntaxData = Except.ok resultXML ∧
        (LoadSyntaxXML readXML lex syntaxData).1 =
          addTerms resultXML.Terms lex.ClearSyntax) := by
  refine ⟨?_, ?_, ?_, ?_⟩
  · intro err h
    have h1 : (LoadSyntaxXML readXML lex syntaxData).1 = lex := by
      unfold LoadSyntaxXML at h ⊢
      cases hu : Unmarshal readXML syntaxData with
      | error e => rfl
      | ok r => rw [hu] at h; cases h
    rw [h1]
    exact ⟨rfl, fun _ => rfl, fun _ _ _ _ => rfl⟩
  · intro err h
    simp [LoadSyntaxXML, Unmarshal, h]
  · intro doc value h hc hv
    obtain ⟨err, herr⟩ := unmarshalTerms_bad_cardinality doc.terms value hc hv
    exact ⟨err, by simp [LoadSyntaxXML, Unmarshal, h, herr]⟩
  · intro h
    unfold LoadSyntaxXML at h ⊢
    cases hu : Unmarshal readXML syntaxData with
    | error e => rw [hu] at h; cases h
    | ok r => exact ⟨r, rfl, rfl⟩

/-- C13 (witness): a registry holding the rule `foo`.  A document whose only
token has the cardinality `some` and a document that cannot be read: the load
fails and the registry, with every `MatchString` result, is unchanged.  A
document with the rule `bar`: the load succeeds and the registry is the
emptied one with `bar` added. -/
theorem loadSyntaxXML_atomic_witness :
    ((LoadSyntaxXML
        (fun _ => Except.ok ⟨[⟨some (ascii "bar"), [⟨[⟨some (ascii "bar"),
          some (ascii "some"), none⟩]⟩]⟩]⟩)
        (NewLexer.AddTerm ⟨[⟨[⟨ascii "foo", CardinalityOne, []⟩]⟩]⟩ (ascii "foo")) []).1 =
        NewLexer.AddTerm ⟨[⟨[⟨ascii "foo", CardinalityOne, []⟩]⟩]⟩ (ascii "foo") ∧
      ∀ U fuel str term,
        MatchString U (LoadSyntaxXML
          (fun _ => Except.ok ⟨[⟨some (ascii "bar"), [⟨[⟨some (ascii "bar"),
            some (ascii "some"), none⟩]⟩]⟩]⟩)
          (NewLexer.AddTerm ⟨[⟨[⟨ascii "foo", CardinalityOne, []⟩]⟩]⟩ (ascii "foo")) []).1
          fuel str term =
        MatchString U (NewLexer.AddTerm ⟨[⟨[⟨ascii "foo", CardinalityOne, []⟩]⟩]⟩ (ascii "foo"))
          fuel str term) ∧
    (∃ err,
      LoadSyntaxXML
        (fun _ => Except.ok ⟨[⟨some (ascii "bar"), [⟨[⟨some (ascii "bar"),
          some (ascii "some"), none⟩]⟩]⟩]⟩)
        (NewLexer.AddTerm ⟨[⟨[⟨ascii "foo", CardinalityOne, []⟩]⟩]⟩ (ascii "foo")) [] =
        (NewLexer.AddTerm ⟨[⟨[⟨ascii "foo", CardinalityOne, []⟩]⟩]⟩ (ascii "foo"), some err)) ∧
    LoadSyntaxXML (fun _ => Except.error (ascii "EOF"))
        (NewLexer.AddTerm ⟨[⟨[⟨ascii "foo", CardinalityOne, []⟩]⟩]⟩ (ascii "foo")) [] =
      (NewLexer.AddTerm ⟨[⟨[⟨ascii "foo", CardinalityOne, []⟩]⟩]⟩ (ascii "foo"),
        some (ascii "EOF")) ∧
    (∃ resultXML,
      Unmarshal
        (fun _ => Except.ok ⟨[⟨some (ascii "bar"), [⟨[⟨some (ascii "bar"),
          some (ascii "optional"), none⟩]⟩]⟩]⟩) [] = Except.ok resultXML ∧
      (LoadSyntaxXML
        (fun _ => Except.ok ⟨[⟨some (ascii "bar"), [⟨[⟨some (ascii "bar"),
          some (ascii "optional"), none⟩]⟩]⟩]⟩)
        (NewLexer.AddTerm ⟨[⟨[⟨ascii "foo", CardinalityOne, []⟩]⟩]⟩ (ascii "foo")) []).1 =
        addTerms resultXML.Terms
          (NewLexer.AddTerm ⟨[⟨[⟨ascii "foo", CardinalityOne, []⟩]⟩]⟩
            (ascii "foo")).ClearSyntax) :=
  ⟨⟨((loadSyntaxXML_atomic
        (fun _ => Except.ok ⟨[⟨some (ascii "bar"), [⟨[⟨some (ascii "bar"),
          some (ascii "some"), none⟩]⟩]⟩]⟩)
        (NewLexer.AddTerm ⟨[⟨[⟨ascii "foo", CardinalityOne, []⟩]⟩]⟩ (ascii "foo")) []).1
        (ascii "failed to parse string to TermCardinality " ++ ascii "some") rfl).1,
      ((loadSyntaxXML_atomic
        (fun _ => Except.ok ⟨[⟨some (ascii "bar"), [⟨[⟨some (ascii "bar"),
          some (ascii "some"), none⟩]⟩]⟩]⟩)
        (NewLexer.AddTerm ⟨[⟨[⟨ascii "foo", CardinalityOne, []⟩]⟩]⟩ (ascii "foo")) []).1
        (ascii "failed to parse string to TermCardinality " ++ ascii "some") rfl).2.2⟩,
    (loadSyntaxXML_atomic
      (fun _ => Except.ok ⟨[⟨some (ascii "bar"), [⟨[⟨some (ascii "bar"),
        some (ascii "some"), none⟩]⟩]⟩]⟩)
      (NewLexer.AddTerm ⟨[⟨[⟨ascii "foo", CardinalityOne, []⟩]⟩]⟩ (ascii "foo")) []).2.2.1
      ⟨[⟨some (ascii "bar"), [⟨[⟨some (ascii "bar"), some (ascii "some"), none⟩]⟩]⟩]⟩
      (ascii "some") rfl
      ⟨_, List.mem_cons_self _ _, _, List.mem_cons_self _ _, _, List.mem_cons_self _ _, rfl⟩
      (by decide),
    (loadSyntaxXML_atomic (fun _ => Except.error (ascii "EOF"))
      (NewLexer.AddTerm ⟨[⟨[⟨ascii "foo", CardinalityOne, []⟩]⟩]⟩ (ascii "foo")) []).2.1
      (ascii "EOF") rfl,
    (loadSyntaxXML_atomic
      (fun _ => Except.ok ⟨[⟨some (ascii "bar"), [⟨[⟨some (ascii "bar"),
        some (ascii "optional"), none⟩]⟩]⟩]⟩)
      (NewLexer.AddTerm ⟨[⟨[⟨ascii "foo", CardinalityOne, []⟩]⟩]⟩ (ascii "foo")) []).2.2.2
      rfl⟩

/-! ## Leading white space -/

theorem lexString_skipSpace (U : UnicodeTables) (l : Lexer) (fuel : Nat) (str e : Str) :
    lexString U l fuel (skipSpace str) e = lexString U l fuel str e := by
  cases fuel <;> simp only [lexString, skipSpace_idem]

/-- Leading ASCII white space is skipped: the result of `MatchString` is the
same with and without it. -/
theorem MatchString_ascii_space_append (U : UnicodeTables) (l : Lexer) (fuel : Nat)
    (w s e : Str) (hw : w.all isAsciiSpace = true) :
    MatchString U l fuel (w ++ s) e = MatchString U l fuel s e := by
  simp only [MatchString]
  rw [← lexString_skipSpace U l fuel (w ++ s), skipSpace_ws_append w s hw, lexString_skipSpace]

/-- C15 (the code at the failing input): U+00A0 and U+2003 are white space
characters; the literal rule `foo` matches `foo`, but on `foo` preceded by
U+00A0 (bytes C2 A0) or by U+2003 (bytes E2 80 83) `MatchString` returns no
capture and matched = false: the white space loop of `lexString` removes the
first byte of the character only, and what is left is no white space. -/
theorem multibyte_leading_space_not_skipped :
    runesOf [0xC2, 0xA0] = [0xA0] ∧ IsSpace 0xA0 = true ∧
    runesOf [0xE2, 0x80, 0x83] = [0x2003] ∧ IsSpace 0x2003 = true ∧
    MatchString latin1Tables NewLexer 0 (ascii "foo") (ascii "foo") =
      some ([ascii "foo"], true) ∧
    MatchString latin1Tables NewLexer 0 ([0xC2, 0xA0] ++ ascii "foo") (ascii "foo") =
      some ([], false) ∧
    MatchString latin1Tables NewLexer 0 ([0xE2, 0x80, 0x83] ++ ascii "foo") (ascii "foo") =
      some ([], false) ∧
    skipSpace ([0xC2, 0xA0] ++ ascii "foo") = [0xA0] ++ ascii "foo" ∧
    skipSpace ([0xE2, 0x80, 0x83] ++ ascii "foo") = [0x80, 0x83] ++ ascii "foo" := by
  decide

/-! ## Termination -/

theorem lexString_nonref_total (U : UnicodeTables) (l : Lexer) (fuel : Nat) (str e : Str)
    (h : HasPrefix e TermPrefix = false) : (lexString U l fuel str e).isSome = true := by
  cases fuel <;> simp [lexString, h] <;> split_ifs <;> simp

theorem atLeastOneLoop_total (lex : Str → Str → Option LexResult) (token : SyntaxToken)
    (h1 : ∀ s, (lex s token.Ident).isSome = true)
    (h2 : ∀ s, (lex s token.Separator).isSome = true) (n : Nat) (str : Str) (acc : List Str) :
    (atLeastOneLoop lex token n str acc).isSome = true := by
  induction n generalizing str acc with
  | zero => rfl
  | succ n ih =>
    simp only [atLeastOneLoop]
    obtain ⟨r, hr⟩ := Option.isSome_iff_exists.1 (h1 str)
    rw [hr]
    simp only
    split_ifs
    · rfl
    · obtain ⟨rs, hrs⟩ := Option.isSome_iff_exists.1 (h2 r.rest)
      rw [hrs]
      simp only
      split_ifs
      · rfl
      · exact ih _ _
    · exact ih _ _

theorem parseToken_total (lex : Str → Str → Option LexResult) (token : SyntaxToken)
    (h1 : ∀ s, (lex s token.Ident).isSome = true)
    (h2 : ∀ s, (lex s token.Separator).isSome = true) (str : Str) :
    (parseToken lex str token).isSome = true := by
  unfold parseToken
  obtain ⟨r, hr⟩ := Option.isSome_iff_exists.1 (h1 str)
  split_ifs
  · rfl
  · rw [hr]; simp only; split_ifs <;> rfl
  · obtain ⟨v, hv⟩ := Option.isSome_iff_exists.1
      (atLeastOneLoop_total lex token h1 h2 (splitLen str token.Separator) str [])
    rw [hv]
    obtain ⟨a, b, c⟩ := v
    simp only; split_ifs <;> rfl
  · rfl
  · rw [manyLoop_eq_atLeastOneLoop]
    obtain ⟨v, hv⟩ := Option.isSome_iff_exists.1
      (atLeastOneLoop_total lex token h1 h2 (splitLen str token.Separator) str [])
    rw [hv]
    obtain ⟨a, b, c⟩ := v
    simp only; split_ifs <;> rfl
  · rw [hr]; simp only; split_ifs <;> rfl

theorem matchAlternatives_total (lex : Str → Str → Option LexResult) (tokens : List SyntaxToken)
    (h : ∀ tok ∈ tokens, (∀ s, (lex s tok.Ident).isSome = true) ∧
      ∀ s, (lex s tok.Separator).isSome = true) (str : Str) :
    (matchAlternatives lex tokens str).isSome = true := by
  induction tokens generalizing str with
  | nil => rfl
  | cons tok toks ih =>
    simp only [matchAlternatives]
    obtain ⟨h1, h2⟩ := h tok (List.mem_cons_self _ _)
    obtain ⟨r, hr⟩ := Option.isSome_iff_exists.1 (parseToken_total lex tok h1 h2 str)
    rw [hr]
    simp only
    split_ifs
    · rfl
    · exact ih (fun t ht => h t (List.mem_cons_of_mem _ ht)) _

theorem matchPhrases_total (lex : Str → Str → Option LexResult) (strCopy : Str)
    (phrases : List SyntaxPhrase)
    (h : ∀ ph ∈ phrases, ∀ tok ∈ ph.Alternatives, (∀ s, (lex s tok.Ident).isSome = true) ∧
      ∀ s, (lex s tok.Separator).isSome = true) (str : Str) (result : List Str) (pm : Bool) :
    (matchPhrases lex strCopy phrases str result pm).isSome = true := by
  induction phrases generalizing str result pm with
  | nil => rfl
  | cons ph phs ih =>
    simp only [matchPhrases]
    obtain ⟨v, hv⟩ := Option.isSome_iff_exists.1
      (matchAlternatives_total lex ph.Alternatives (h ph (List.mem_cons_self _ _)) str)
    rw [hv]
    obtain ⟨a, b, c⟩ := v
    simp only
    split_ifs
    · exact ih (fun p hp => h p (List.mem_cons_of_mem _ hp)) _ _ _
    · rfl

theorem matchTerm_total (lex : Str → Str → Option LexResult) (l : Lexer) (name : Str)
    (h : ∀ term, l.lookup name = some term → ∀ ph ∈ term.Phrases, ∀ tok ∈ ph.Alternatives,
      (∀ s, (lex s tok.Ident).isSome = true) ∧ ∀ s, (lex s tok.Separator).isSome = true)
    (str : Str) : (matchTerm lex l str name).isSome = true := by
  unfold matchTerm
  cases hl : l.lookup name with
  | none => rfl
  | some term => exact matchPhrases_total lex str term.Phrases (h term hl) str [] false

theorem eq_termPrefix_append (e : Str) (h : HasPrefix e TermPrefix = true) :
    e = TermPrefix ++ e.drop 1 := by
  obtain ⟨t, ht⟩ := (hasPrefix_iff e TermPrefix).1 h
  rw [← ht]
  rfl

/-- With as much fuel as the longest reference chain from `name` has terms,
`lexString` returns on `$name`. -/
theorem lexString_total_of_chains (U : UnicodeTables) (l : Lexer) (d : Nat) (name : Str)
    (h : ∀ chain, List.Chain (References l) name chain → chain.length < d) (str : Str) :
    (lexString U l d str (TermPrefix ++ name)).isSome = true := by
  induction d generalizing name str with
  | zero => exact absurd (h [] List.Chain.nil) (by simp)
  | succ d ih =>
    rw [lexString_term_eq]
    apply matchTerm_total
    intro term hl ph hph tok htok
    have key : ∀ e, (e = tok.Ident ∨ e = tok.Separator) →
        ∀ s, (lexString U l d s e).isSome = true := by
      intro e he s
      by_cases hp : HasPrefix e TermPrefix = true
      · rw [eq_termPrefix_append e hp]
        apply ih
        intro chain hc
        have hr : References l name (e.drop 1) := by
          refine ⟨term, ph, tok, hl, hph, htok, ?_⟩
          rcases he with he | he
          · left; rw [← he]; exact eq_termPrefix_append e hp
          · right; rw [← he]; exact eq_termPrefix_append e hp
        have := h (e.drop 1 :: chain) (List.Chain.cons hr hc)
        simpa using this
      · exact lexString_nonref_total U l d s e (by simpa using hp)
    exact ⟨key _ (Or.inl rfl), key _ (Or.inr rfl)⟩

theorem chain_transGen (l : Lexer) (a : Str) (chain : List Str)
    (h : List.Chain (References l) a chain) :
    ∀ b ∈ chain, Relation.TransGen (References l) a b := by
  induction chain generalizing a with
  | nil => intro b hb; cases hb
  | cons c cs ih =>
    intro b hb
    rw [List.chain_cons] at h
    rcases List.mem_cons.1 hb with rfl | hb
    · exact Relation.TransGen.single h.1
    · exact Relation.TransGen.head h.1 (ih c h.2 b hb)

theorem chain_nodup (l : Lexer) (hA : Acyclic l) (a : Str) (chain : List Str)
    (h : List.Chain (References l) a chain) : (a :: chain).Nodup := by
  induction chain generalizing a with
  | nil => simp
  | cons c cs ih =>
    rw [List.nodup_cons]
    refine ⟨fun hm => hA a (chain_transGen l a _ h a hm), ?_⟩
    rw [List.chain_cons] at h
    exact ih c h.2

theorem mem_keys_of_lookup (l : Lexer) (A : Str) (term : SyntaxTerm)
    (h : l.lookup A = some term) : A ∈ l.registeredTerms.map Prod.fst := by
  unfold Lexer.lookup at h
  cases hf : l.registeredTerms.find? (fun e => e.1 == A) with
  | none => rw [hf] at h; cases h
  | some e =>
    have h1 := List.find?_some hf
    have h2 := List.mem_of_find?_eq_some hf
    simp only [beq_iff_eq] at h1
    exact List.mem_map.2 ⟨e, h2, h1⟩

theorem chain_dropLast_registered (l : Lexer) (a : Str) (chain : List Str)
    (h : List.Chain (References l) a chain) :
    ∀ x ∈ (a :: chain).dropLast, x ∈ l.registeredTerms.map Prod.fst := by
  induction chain generalizing a with
  | nil => intro x hx; simp at hx
  | cons c cs ih =>
    intro x hx
    rw [List.chain_cons] at h
    rw [List.dropLast_cons₂] at hx
    rcases List.mem_cons.1 hx with rfl | hx
    · obtain ⟨term, -, -, hl, -⟩ := h.1
      exact mem_keys_of_lookup l _ term hl
    · exact ih c h.2 x hx

/-- In a registry without a reference cycle no reference chain is longer than
the registry. -/
theorem chain_length_le (l : Lexer) (hA : Acyclic l) (a : Str) (chain : List Str)
    (h : List.Chain (References l) a chain) : chain.length ≤ l.registeredTerms.length := by
  have hn : ((a :: chain).dropLast).Nodup :=
    (chain_nodup l hA a chain h).sublist (List.dropLast_sublist _)
  have hs := List.subperm_of_subset hn (chain_dropLast_registered l a chain h)
  have := hs.length_le
  simpa using this

theorem mem_references_iff (l : Lexer) (A B : Str) : B ∈ references l A ↔ References l A B := by
  unfold references References
  cases hl : l.lookup A with
  | none => simp
  | some term =>
    simp only [List.mem_filterMap, List.mem_flatMap, Option.some.injEq, exists_eq_left']
    constructor
    · rintro ⟨e, ⟨ph, hph, tok, htok, he⟩, h⟩
      split_ifs at h with hp
      simp only [Option.some.injEq] at h
      have := eq_termPrefix_append e hp
      rw [h] at this
      refine ⟨term, ph, tok, rfl, hph, htok, ?_⟩
      simp only [List.mem_cons, List.mem_singleton, List.not_mem_nil, or_false] at he
      rcases he with rfl | rfl
      · exact Or.inl this
      · exact Or.inr this
    · rintro ⟨term1, ph, tok, hl1, hph, htok, h⟩
      cases hl1
      rcases h with h | h
      · exact ⟨tok.Ident, ⟨ph, hph, tok, htok, by simp⟩, by rw [h]; simp [HasPrefix, TermPrefix]⟩
      · exact ⟨tok.Separator, ⟨ph, hph, tok, htok, by simp⟩,
          by rw [h]; simp [HasPrefix, TermPrefix]⟩

theorem references_rank (l : Lexer) (rank : Str → Nat)
    (h : ∀ e ∈ l.registeredTerms, ∀ B ∈ references l e.1, rank B < rank e.1) (A B : Str)
    (hr : References l A B) : rank B < rank A := by
  have hm := (mem_references_iff l A B).2 hr
  obtain ⟨term, -, -, hl, -⟩ := hr
  obtain ⟨e, he, rfl⟩ := List.mem_map.1 (mem_keys_of_lookup l A term hl)
  exact h e he B hm

/-- A registry whose references go down along a rank has no reference cycle. -/
theorem acyclic_of_rank (l : Lexer) (rank : Str → Nat)
    (h : ∀ e ∈ l.registeredTerms, ∀ B ∈ references l e.1, rank B < rank e.1) : Acyclic l := by
  have key : ∀ A B, Relation.TransGen (References l) A B → rank B < rank A := by
    intro A B hAB
    induction hAB with
    | single h1 => exact references_rank l rank h _ _ h1
    | tail _ h2 ih => exact lt_trans (references_rank l rank h _ _ h2) ih
  intro A hA
  exact lt_irrefl _ (key A A hA)

/-- Along a rank that references go down, a chain is no longer than the rank
of its first term. -/
theorem chain_length_le_rank (l : Lexer) (rank : Str → Nat)
    (h : ∀ e ∈ l.registeredTerms, ∀ B ∈ references l e.1, rank B < rank e.1) (a : Str)
    (chain : List Str) (hc : List.Chain (References l) a chain) : chain.length ≤ rank a := by
  induction chain generalizing a with
  | nil => exact Nat.zero_le _
  | cons c cs ih =>
    rw [List.chain_cons] at hc
    have h1 := references_rank l rank h a c hc.1
    have h2 := ih c hc.2
    simp only [List.length_cons]
    omega

theorem selfReferential_loops (U : UnicodeTables) (fuel : Nat) (input : Str) :
    lexString U selfReferential fuel input (TermPrefix ++ ascii "A") = none := by
  induction fuel generalizing input with
  | zero => rfl
  | succ n ih =>
    rw [lexString_term_eq]
    simp only [selfReferential, matchTerm, lookup_AddTerm, matchPhrases, matchAlternatives,
      parseToken_one_eq]
    have := ih (skipSpace input)
    simp only [selfReferential] at this
    rw [this]

/-- C17: termination on acyclic grammars.  Fuel counts the nesting depth of
rule references: `lexString` with fuel `d` returns a result when no more than
`d` rule resolutions are ever nested.  For every registry: an expression that
is not a rule reference is matched without any nesting; on `$name`,
`MatchString` returns whenever the fuel is at least `d`, where every reference
chain from `name` has fewer than `d` references, so the depth is bounded by the
longest chain; and when the reference relation has no cycle, no chain is
longer than the registry and `MatchString` returns on every input and every
expression with any fuel above the number of registered terms.  The registry
`selfReferential`, whose term `A` is the single token `$A`, references itself,
and on every input the resolution of `$A` returns with no amount of fuel. -/
theorem terminates_on_acyclic_registry (U : UnicodeTables) (l : Lexer) :
    (∀ e, HasPrefix e TermPrefix = false →
      ∀ fuel input, (MatchString U l fuel input e).isSome = true) ∧
    (∀ name d fuel, (∀ chain, List.Chain (References l) name chain → chain.length < d) →
      d ≤ fuel → ∀ input, (MatchString U l fuel input (TermPrefix ++ name)).isSome = true) ∧
    (Acyclic l →
      (∀ name chain, List.Chain (References l) name chain →
        chain.length ≤ l.registeredTerms.length) ∧
      ∀ fuel, l.registeredTerms.length < fuel →
        ∀ input e, (MatchString U l fuel input e).isSome = true) ∧
    (References selfReferential (ascii "A") (ascii "A") ∧
      ∀ fuel input,
        MatchString U selfReferential fuel input (TermPrefix ++ ascii "A") = none) := by
  refine ⟨?_, ?_, ?_, ?_, ?_⟩
  · intro e he fuel input
    simp only [MatchString, Option.isSome_map']
    exact lexString_nonref_total U l fuel input e he
  · intro name d fuel h hd input
    simp only [MatchString, Option.isSome_map']
    exact lexString_total_of_chains U l fuel name (fun c hc => lt_of_lt_of_le (h c hc) hd) input
  · intro hA
    refine ⟨fun name chain hc => chain_length_le l hA name chain hc, ?_⟩
    intro fuel hf input e
    simp only [MatchString, Option.isSome_map']
    by_cases hp : HasPrefix e TermPrefix = true
    · rw [eq_termPrefix_append e hp]
      exact lexString_total_of_chains U l fuel _
        (fun c hc => lt_of_le_of_lt (chain_length_le l hA _ c hc) hf) input
    · exact lexString_nonref_total U l fuel input e (by simpa using hp)
  · exact ⟨_, _, _, lookup_AddTerm _ _ _, List.mem_cons_self _ _, List.mem_cons_self _ _,
      Or.inl rfl⟩
  · intro fuel input
    simp only [MatchString, selfReferential_loops, Option.map_none']

/-- C17 (witness): the registry with the rules `foo` (the literal `foo`) and
`fooTerm` (the reference `$foo`), whose references go down along the rank that
is 1 on `fooTerm` and 0 elsewhere: the literal `foo` is matched with no fuel,
`$fooTerm` with fuel 2, and every expression with fuel 3. -/
theorem terminates_on_acyclic_registry_witness :
    (MatchString latin1Tables
      ((NewLexer.AddTerm ⟨[⟨[⟨ascii "foo", CardinalityOne, []⟩]⟩]⟩ (ascii "foo")).AddTerm
        ⟨[⟨[⟨ascii "$foo", CardinalityOne, []⟩]⟩]⟩ (ascii "fooTerm"))
      0 (ascii "foo") (ascii "foo")).isSome = true ∧
    (MatchString latin1Tables
      ((NewLexer.AddTerm ⟨[⟨[⟨ascii "foo", CardinalityOne, []⟩]⟩]⟩ (ascii "foo")).AddTerm
        ⟨[⟨[⟨ascii "$foo", CardinalityOne, []⟩]⟩]⟩ (ascii "fooTerm"))
      2 (ascii "foo") (TermPrefix ++ ascii "fooTerm")).isSome = true ∧
    (MatchString latin1Tables
      ((NewLexer.AddTerm ⟨[⟨[⟨ascii "foo", CardinalityOne, []⟩]⟩]⟩ (ascii "foo")).AddTerm
        ⟨[⟨[⟨ascii "$foo", CardinalityOne, []⟩]⟩]⟩ (ascii "fooTerm"))
      3 (ascii "foo") (ascii "$fooTerm")).isSome = true :=
  have h := terminates_on_acyclic_registry latin1Tables
    ((NewLexer.AddTerm ⟨[⟨[⟨ascii "foo", CardinalityOne, []⟩]⟩]⟩ (ascii "foo")).AddTerm
      ⟨[⟨[⟨ascii "$foo", CardinalityOne, []⟩]⟩]⟩ (ascii "fooTerm"))
  ⟨h.1 (ascii "foo") (by decide) 0 (ascii "foo"),
    h.2.1 (ascii "fooTerm") 2 2
      (fun chain hc => Nat.lt_succ_of_le
        (chain_length_le_rank _ (fun s => if s = ascii "fooTerm" then 1 else 0) (by decide)
          (ascii "fooTerm") chain hc))
      (le_refl _) (ascii "foo"),
    (h.2.2.1 (acyclic_of_rank _ (fun s => if s = ascii "fooTerm" then 1 else 0)
      (by decide))).2 3 (by decide) (ascii "foo") (ascii "$fooTerm")⟩

/-! ## Separators of repetition tokens -/

/-- In any string, a suffix that starts with a byte that is not a continuation
byte starts where a character starts. -/
theorem suffix_rune_mem (n : Nat) (t x1 x2 : Str) (b : Nat) (x2' : Str) (hn : t.length ≤ n)
    (ht : t = x1 ++ x2) (hx : x2 = b :: x2') (hb : isCont b = false) :
    (DecodeRuneInString x2).1 ∈ runesOf t := by
  induction n generalizing t x1 with
  | zero =>
    have : t = [] := List.length_eq_zero.1 (Nat.le_zero.1 hn)
    subst this; subst hx
    simp at ht
  | succ n ih =>
    have htn : t ≠ [] := by
      rintro rfl; subst hx; simp at ht
    rcases x1 with _ | ⟨d, x1'⟩
    · simp only [List.nil_append] at ht
      subst ht
      exact first_rune_mem _ htn
    · have hl : 0 < t.length := List.length_pos.2 htn
      by_cases hd : DecodeRuneInString t = (RuneError, 1)
      · have e : t.drop (DecodeRuneInString t).2 = x1' ++ x2 := by
          rw [hd, ht]; rfl
        exact runes_drop_subset t htn _
          (ih (t.drop (DecodeRuneInString t).2) x1' (by rw [hd]; simp; omega) e)
      · obtain ⟨s0, cs, hsh, hcs, -, hlen⟩ := decode_shape t htn hd
        have hw := decode_width_pos t htn
        have e : cs ++ t.drop (DecodeRuneInString t).2 = x1' ++ x2 := by
          have := hsh.symm.trans ht
          simp only [List.cons_append, List.cons.injEq] at this
          exact this.2
        obtain ⟨y, hy⟩ := suffix_after_cont cs _ x1' x2 b x2' hcs e hx hb
        exact runes_drop_subset t htn _
          (ih (t.drop (DecodeRuneInString t).2) y (by simp; omega) hy)

/-- A separator that begins with a well-formed character and shares no
character with `t` does not occur at an offset inside `t`, when `t` is
followed by nothing or by a byte that starts a character. -/
theorem noOcc_before (sep t y : Str) (hsn : sep ≠ [])
    (hsv : DecodeRuneInString sep ≠ (RuneError, 1))
    (hd : ∀ c ∈ runesOf t, c ∉ runesOf sep)
    (hy : y = [] ∨ ∃ b y', y = b :: y' ∧ isCont b = false) :
    ∀ x1 x2, t = x1 ++ x2 → x2 ≠ [] → ¬ sep <+: x2 ++ y := by
  intro x1 x2 ht hx2 hpre
  rcases x2 with _ | ⟨b, x2'⟩
  · exact hx2 rfl
  · rcases sep with _ | ⟨b', sep'⟩
    · exact hsn rfl
    · have hbb : b' = b := by
        obtain ⟨z, hz⟩ := hpre
        simp only [List.cons_append, List.cons.injEq] at hz
        exact hz.1
      have hb : isCont b = false := hbb ▸ lead_not_cont b' sep' hsv
      have hmem := suffix_rune_mem t.length t x1 (b :: x2') b x2' (le_refl _) ht rfl hb
      have hdec : DecodeRuneInString (b :: x2' ++ y) = DecodeRuneInString (b' :: sep') := by
        obtain ⟨z, hz⟩ := hpre
        rw [← hz, decode_append_of_valid _ z hsn hsv]
      by_cases hv : DecodeRuneInString (b :: x2') = (RuneError, 1)
      · rcases hy with rfl | ⟨c, y', rfl, hc⟩
        · rw [List.append_nil, hv] at hdec
          exact hsv hdec.symm
        · rw [decode_append_of_invalid _ y' c hx2 hc hv] at hdec
          exact hsv hdec.symm
      · rw [decode_append_of_valid _ y hx2 hv] at hdec
        apply hd _ hmem
        rw [hdec]
        exact first_rune_mem _ hsn

theorem index_skip (sep x y : Str)
    (h : ∀ x1 x2, x = x1 ++ x2 → x2 ≠ [] → ¬ sep <+: x2 ++ y) :
    Index (x ++ y) sep = (Index y sep).map (· + x.length) := by
  induction x with
  | nil => simp
  | cons b x ih =>
    have hnp : HasPrefix (b :: x ++ y) sep = false := by
      cases hh : HasPrefix (b :: x ++ y) sep with
      | false => rfl
      | true => exact absurd ((hasPrefix_iff _ _).1 hh) (h [] (b :: x) rfl (by simp))
    rw [Index.eq_def, hnp]
    simp only [Bool.false_eq_true, if_false, List.cons_append]
    rw [ih (fun x1 x2 hx hx2 => h (b :: x1) x2 (by rw [hx]; rfl) hx2)]
    cases Index y sep <;> simp [Nat.add_assoc]

/-- The pieces `strings.Split` reports for `t ++ sep ++ t`: two. -/
theorem splitLen_pair (t sep : Str) (htn : t ≠ []) (hsn : sep ≠ [])
    (hsv : DecodeRuneInString sep ≠ (RuneError, 1))
    (hd : ∀ c ∈ runesOf t, c ∉ runesOf sep) : splitLen (t ++ (sep ++ t)) sep = 2 := by
  rw [splitLen_eq _ _ hsn]
  obtain ⟨b, s', rfl⟩ : ∃ b s', sep = b :: s' := by
    cases sep with
    | nil => exact absurd rfl hsn
    | cons b s' => exact ⟨b, s', rfl⟩
  have hb : isCont b = false := lead_not_cont b s' hsv
  have h1 : Index (t ++ (b :: s' ++ t)) (b :: s') = some t.length := by
    rw [index_skip (b :: s') t ((b :: s') ++ t) (noOcc_before (b :: s') t ((b :: s') ++ t)
      hsn hsv hd (Or.inr ⟨b, s' ++ t, rfl, hb⟩)), index_self]
    simp
  have h2 : Index t (b :: s') = none := by
    have := index_skip (b :: s') t [] (noOcc_before (b :: s') t [] hsn hsv hd (Or.inl rfl))
    rw [List.append_nil, index_nil _ hsn] at this
    simpa using this
  have hl : 0 < t.length := List.length_pos.2 htn
  obtain ⟨n, hn⟩ : ∃ n, (t ++ (b :: s' ++ t)).length = n + 2 :=
    ⟨(t ++ (b :: s' ++ t)).length - 2, by simp; omega⟩
  rw [hn, countSep, h1]
  simp only
  have hdrop : (t ++ (b :: s' ++ t)).drop (t.length + (b :: s').length) = t := by
    rw [← List.append_assoc, ← List.length_append, List.drop_left]
  rw [hdrop, countSep, h2]
  rfl

/-- The loop of a repetition token over the literal `t` on `t ++ sep ++ t`,
for a separator that is a literal. -/
theorem atLeastOneLoop_pair (U : UnicodeTables) (l : Lexer) (fuel : Nat) (t sep : Str)
    (c : TermCardinality) (htn : t ≠ []) (hsn : sep ≠ [])
    (hsv : DecodeRuneInString sep ≠ (RuneError, 1))
    (htW : ∀ c ∈ runesOf t, IsSpace c = false) (hsW : ∀ c ∈ runesOf sep, IsSpace c = false)
    (htS : HasPrefix t TermPrefix = false ∧ HasPrefix t BuiltInPrefix = false ∧
      HasPrefix t LiteralPrefix = false)
    (hsS : HasPrefix sep TermPrefix = false ∧ HasPrefix sep BuiltInPrefix = false ∧
      HasPrefix sep LiteralPrefix = false) :
    skipSpace (t ++ (sep ++ t)) = t ++ (sep ++ t) ∧
    atLeastOneLoop (lexString U l fuel) ⟨t, c, sep⟩ 2 (t ++ (sep ++ t)) [] =
      some ([t, t], true, []) := by
  obtain ⟨b, s', rfl⟩ : ∃ b s', sep = b :: s' := by
    cases sep with
    | nil => exact absurd rfl hsn
    | cons b s' => exact ⟨b, s', rfl⟩
  have hb : isCont b = false := lead_not_cont b s' hsv
  have ht0 : IsSpace (DecodeRuneInString t).1 = false := htW _ (first_rune_mem t htn)
  have hs0 : IsSpace (DecodeRuneInString (b :: s')).1 = false := hsW _ (first_rune_mem _ hsn)
  have e1 : skipSpace (t ++ ((b :: s') ++ t)) = t ++ ((b :: s') ++ t) := by
    apply skipSpace_eq_self
    right
    by_cases hv : DecodeRuneInString t = (RuneError, 1)
    · have := decode_append_of_invalid t (s' ++ t) b htn hb hv
      rw [List.cons_append, this]
      exact isSpace_runeError
    · rw [decode_append_of_valid t _ htn hv]
      exact ht0
  have e2 : skipSpace ((b :: s') ++ t) = (b :: s') ++ t :=
    skipSpace_valid_start _ t hsn hsv hs0
  have e3 : skipSpace t = t := skipSpace_eq_self (Or.inr ht0)
  have l1 : lexString U l fuel (t ++ ((b :: s') ++ t)) t =
      some ⟨[t], 1, true, true, (b :: s') ++ t⟩ := by
    rw [lexString_literal_eq U l fuel _ t htS.1 htS.2.1, literalOf_eq_self htS.2.2, e1,
      hasPrefix_append, if_pos rfl, List.drop_left]
  have l2 : lexString U l fuel ((b :: s') ++ t) (b :: s') = some ⟨[b :: s'], 1, true, true, t⟩ := by
    rw [lexString_literal_eq U l fuel _ _ hsS.1 hsS.2.1, literalOf_eq_self hsS.2.2, e2,
      hasPrefix_append, if_pos rfl, List.drop_left]
  have l3 : lexString U l fuel t t = some ⟨[t], 1, true, true, []⟩ := by
    rw [lexString_literal_eq U l fuel _ t htS.1 htS.2.1, literalOf_eq_self htS.2.2, e3,
      hasPrefix_self, if_pos rfl, List.drop_length]
  refine ⟨e1, ?_⟩
  rw [atLeastOneLoop]
  simp only [l1, l2]
  simp only [Bool.not_true, Bool.false_or, beq_iff_eq, one_ne_zero, Bool.false_eq_true,
    if_false, Nat.lt_add_one, if_true, List.nil_append]
  rw [atLeastOneLoop]
  simp only [l3]
  simp [atLeastOneLoop]

/-- C18 (amended): the separator of a repetition token that does not start
with a sigil is matched as literal text.  Let `sep` be a non-empty separator
without white space that begins with a well-formed UTF-8 character other than
`$`, `!` and `@`, and `t` a non-empty literal without white space that does
not start with a sigil and shares no character with `sep`.  For the term `T`
whose only phrase is the token (ident `t`, AtLeastOne or Many, separator
`sep`), `MatchString(t ++ sep ++ t, "$T")` returns `[t, t]` and matched =
true. -/
theorem separator_matched_as_literal (U : UnicodeTables) (l : Lexer) (T t sep : Str)
    (c : TermCardinality) (fuel : Nat)
    (hc : c = CardinalityAtLeastOne ∨ c = CardinalityMany)
    (htn : t ≠ []) (hsn : sep ≠ [])
    (hsv : DecodeRuneInString sep ≠ (RuneError, 1))
    (htW : ∀ c ∈ runesOf t, IsSpace c = false) (hsW : ∀ c ∈ runesOf sep, IsSpace c = false)
    (hd : ∀ c ∈ runesOf t, c ∉ runesOf sep)
    (htS : HasPrefix t TermPrefix = false ∧ HasPrefix t BuiltInPrefix = false ∧
      HasPrefix t LiteralPrefix = false)
    (hsS : HasPrefix sep TermPrefix = false ∧ HasPrefix sep BuiltInPrefix = false ∧
      HasPrefix sep LiteralPrefix = false) :
    MatchString U (l.AddTerm ⟨[⟨[⟨t, c, sep⟩]⟩]⟩ T) (fuel + 1) (t ++ sep ++ t)
      (TermPrefix ++ T) = some ([t, t], true) := by
  obtain ⟨e1, hloop⟩ := atLeastOneLoop_pair U (l.AddTerm ⟨[⟨[⟨t, c, sep⟩]⟩]⟩ T) fuel t sep c
    htn hsn hsv htW hsW htS hsS
  have hsplit := splitLen_pair t sep htn hsn hsv hd
  have hne : t ++ (sep ++ t) ≠ [] := by simp [htn]
  rw [List.append_assoc]
  rw [matchString_single_token U l T _ fuel _ ⟨[t, t], true, []⟩ (by
    rw [e1]
    rcases hc with rfl | rfl
    · rw [parseToken_atLeastOne_eq]
      simp only [hsplit, hloop]
      rfl
    · rw [parseToken_many_eq, if_neg hne, manyLoop_eq_atLeastOneLoop]
      simp only [hsplit, hloop]
      rfl)]
  simp [trimSpaceIsEmpty_nil]

/-- C18 (witness): the separators `,` with AtLeastOne and `=>` with Many
between two copies of `foo`. -/
theorem separator_matched_as_literal_witness :
    MatchString latin1Tables
      (NewLexer.AddTerm ⟨[⟨[⟨ascii "foo", CardinalityAtLeastOne, ascii ","⟩]⟩]⟩ (ascii "T")) 1
      (ascii "foo" ++ ascii "," ++ ascii "foo") (TermPrefix ++ ascii "T") =
        some ([ascii "foo", ascii "foo"], true) ∧
    MatchString latin1Tables
      (NewLexer.AddTerm ⟨[⟨[⟨ascii "foo", CardinalityMany, ascii "=>"⟩]⟩]⟩ (ascii "T")) 1
      (ascii "foo" ++ ascii "=>" ++ ascii "foo") (TermPrefix ++ ascii "T") =
        some ([ascii "foo", ascii "foo"], true) :=
  ⟨separator_matched_as_literal latin1Tables NewLexer (ascii "T") (ascii "foo") (ascii ",")
      CardinalityAtLeastOne 0 (Or.inl rfl) (by decide) (by decide) (by decide) (by decide)
      (by decide) (by decide) (by decide) (by decide),
    separator_matched_as_literal latin1Tables NewLexer (ascii "T") (ascii "foo") (ascii "=>")
      CardinalityMany 0 (Or.inr rfl) (by decide) (by decide) (by decide) (by decide)
      (by decide) (by decide) (by decide) (by decide)⟩

/-- C18 (counterexample): with `t = a` and the separators `$`, `!` and `@`,
non-empty, without white space and sharing no character with `a`,
`MatchString(t ++ sep ++ t, "$T")` returns no capture and matched = false, for
AtLeastOne and for Many: the separator goes through the sigil dispatch of
`lexString`, where `$` is a reference to the unregistered rule with the empty
name, `!` an unknown built-in and `@` the escaped empty literal.  Besides,
with `t` the character U+20AC (bytes E2 82 AC) and `sep` the single byte AC,
which is not valid UTF-8 and reads as the character U+FFFD, `strings.Split`
finds the byte inside `t` and the match fails too. -/
theorem sigil_separator_is_dispatched :
    (∀ c ∈ [CardinalityAtLeastOne, CardinalityMany],
      ∀ sep ∈ [ascii "$", ascii "!", ascii "@"],
        (∀ r ∈ runesOf sep, IsSpace r = false) ∧
        (∀ r ∈ runesOf (ascii "a"), IsSpace r = false ∧ r ∉ runesOf sep) ∧
        MatchString latin1Tables
          (NewLexer.AddTerm ⟨[⟨[⟨ascii "a", c, sep⟩]⟩]⟩ (ascii "T")) 2
          (ascii "a" ++ sep ++ ascii "a") (TermPrefix ++ ascii "T") = some ([], false)) ∧
    (runesOf [0xE2, 0x82, 0xAC] = [0x20AC] ∧ runesOf [0xAC] = [RuneError] ∧
      IsSpace 0x20AC = false ∧ IsSpace RuneError = false ∧
      splitLen ([0xE2, 0x82, 0xAC] ++ [0xAC] ++ [0xE2, 0x82, 0xAC]) [0xAC] = 4 ∧
      ∀ c ∈ [CardinalityAtLeastOne, CardinalityMany],
        MatchString latin1Tables
          (NewLexer.AddTerm ⟨[⟨[⟨[0xE2, 0x82, 0xAC], c, [0xAC]⟩]⟩]⟩ (ascii "T")) 2
          ([0xE2, 0x82, 0xAC] ++ [0xAC] ++ [0xE2, 0x82, 0xAC]) (TermPrefix ++ ascii "T") =
            some ([], false)) := by
  decide

/-! ## Failed token attempts -/

theorem matchPhrases_count (lex : Str → Str → Option LexResult) (strCopy : Str)
    (phrases : List SyntaxPhrase) (str : Str) (result : List Str) (pm : Bool) (res : LexResult)
    (h : matchPhrases lex strCopy phrases str result pm = some res) :
    (res.matched = true → res.numMatched = 1) ∧ (res.matched = false → res.numMatched = 0) := by
  induction phrases generalizing str result pm with
  | nil =>
    simp only [matchPhrases, Option.some.injEq] at h
    subst h
    simp
  | cons ph phs ih =>
    simp only [matchPhrases] at h
    cases ha : matchAlternatives lex ph.Alternatives str with
    | none => rw [ha] at h; cases h
    | some v =>
      obtain ⟨ms, matchedOne, str1⟩ := v
      rw [ha] at h
      simp only at h
      cases matchedOne with
      | true => exact ih _ _ _ h
      | false =>
        simp only [Bool.false_eq_true, if_false, Option.some.injEq] at h
        subst h
        simp

/-- What `matchTerm` reports: the match count is 1 on a match and 0 otherwise,
and without a match the cursor is the one it was called with. -/
theorem matchTerm_report (lex : Str → Str → Option LexResult) (l : Lexer) (str name : Str)
    (res : LexResult) (h : matchTerm lex l str name = some res) :
    (res.matched = true → res.numMatched = 1) ∧
      (res.matched = false → res.numMatched = 0 ∧ res.rest = str) := by
  unfold matchTerm at h
  cases hl : l.lookup name with
  | none =>
    rw [hl] at h
    simp only [Option.some.injEq] at h
    subst h
    simp
  | some term =>
    rw [hl] at h
    simp only at h
    obtain ⟨h1, h2⟩ := matchPhrases_count lex str term.Phrases str [] false res h
    exact ⟨h1, fun hm => ⟨h2 hm, (matchPhrases_fail_rest lex str term.Phrases str [] false res h
      hm).1⟩⟩

theorem matchBuiltIn_report (U : UnicodeTables) (str name : Str) :
    ((matchBuiltIn U str name).matched = true → (matchBuiltIn U str name).numMatched = 1) ∧
      ((matchBuiltIn U str name).matched = false → (matchBuiltIn U str name).rest = str) := by
  unfold matchBuiltIn
  by_cases h1 : name = ascii "label"
  · simp only [h1, if_true, gt_iff_lt, decide_eq_true_eq, decide_eq_false_iff_not, not_lt,
      Nat.le_zero_eq, true_and, implies_true]
    intro h
    rw [h, List.drop_zero]
  · by_cases h2 : name = ascii "match"
    · simp [h2, ascii]
    · by_cases h3 : name = ascii "int"
      · subst h3
        simp only [if_neg h1, if_neg h2, if_true]
        by_cases h4 : intLoop U str.length true str = [0x2D]
        · simp [h4]
        · simp only [h4, if_false, gt_iff_lt, decide_eq_true_eq, decide_eq_false_iff_not,
            not_lt, Nat.le_zero_eq, true_and, implies_true]
          intro h
          rw [h, List.drop_zero]
      · simp [h1, h2, h3]

/-- What `lexString` reports: the match count is 1 on a match, and without a
match the cursor is the input after the white space loop. -/
theorem lexString_report (U : UnicodeTables) (l : Lexer) (fuel : Nat) (str e : Str)
    (r : LexResult) (h : lexString U l fuel str e = some r) :
    (r.matched = true → r.numMatched = 1) ∧ (r.matched = false → r.rest = skipSpace str) := by
  by_cases h1 : HasPrefix e TermPrefix = true
  · rw [eq_termPrefix_append e h1] at h
    cases fuel with
    | zero => simp [lexString, HasPrefix, TermPrefix] at h
    | succ n =>
      rw [lexString_term_eq] at h
      obtain ⟨h2, h3⟩ := matchTerm_report _ l _ _ r h
      exact ⟨h2, fun hm => (h3 hm).2⟩
  · have h1' : HasPrefix e TermPrefix = false := by simpa using h1
    by_cases h2 : HasPrefix e BuiltInPrefix = true
    · have he : e = BuiltInPrefix ++ e.drop 1 := by
        obtain ⟨t, ht⟩ := (hasPrefix_iff e BuiltInPrefix).1 h2
        rw [← ht]; rfl
      rw [he, lexString_builtin_eq] at h
      simp only [Option.some.injEq] at h
      subst h
      exact matchBuiltIn_report U _ _
    · have h2' : HasPrefix e BuiltInPrefix = false := by simpa using h2
      rw [lexString_literal_eq U l fuel str e h1' h2'] at h
      split_ifs at h
      · simp only [Option.some.injEq] at h
        subst h
        simp
      · simp only [Option.some.injEq] at h
        subst h
        simp

/-- A failed attempt at a token of cardinality One or Optional leaves the
cursor where the white space loop put it. -/
theorem parseToken_single_fail_rest (U : UnicodeTables) (l : Lexer) (fuel : Nat) (str : Str)
    (token : SyntaxToken) (r : TokenResult)
    (hc : token.Cardinality = CardinalityOne ∨ token.Cardinality = CardinalityOptional)
    (h : parseToken (lexString U l fuel) str token = some r) (hm : r.matched = false) :
    r.rest = skipSpace str := by
  unfold parseToken at h
  rcases hc with hc | hc
  · rw [hc] at h
    simp only [CardinalityOne, CardinalityOptional, CardinalityAtLeastOne, CardinalityMany,
      Int.reduceEq, if_false] at h
    cases hl : lexString U l fuel str token.Ident with
    | none => rw [hl] at h; cases h
    | some lr =>
      rw [hl] at h
      obtain ⟨h1, h2⟩ := lexString_report U l fuel str _ lr hl
      simp only at h
      split_ifs at h with hn
      · simp only [Option.some.injEq] at h
        subst h
        cases hlm : lr.matched with
        | true => exact absurd (h1 hlm) hn
        | false => exact h2 hlm
      · simp only [Option.some.injEq] at h
        subst h
        exact h2 hm
  · rw [hc] at h
    simp only [if_true] at h
    split_ifs at h with hs
    · simp only [Option.some.injEq] at h
      subst h
      cases hm
    · cases hl : lexString U l fuel str token.Ident with
      | none => rw [hl] at h; cases h
      | some lr =>
        rw [hl] at h
        obtain ⟨h1, h2⟩ := lexString_report U l fuel str _ lr hl
        simp only at h
        split_ifs at h with hn
        · simp only [Option.some.injEq] at h
          subst h
          cases hlm : lr.matched with
          | true => have := h1 hlm; omega
          | false => exact h2 hlm
        · simp only [Option.some.injEq] at h
          subst h
          exact h2 hm

/-- C19 (the code at the failing input): on the cursor `foo,bar` the token
(ident `foo`, AtLeastOne or Many, separator `,`) reports no match, and the
cursor afterwards is `bar`: the first element and the separator stay
consumed.  So in the rule whose only phrase has the alternatives (`foo`,
AtLeastOne, `,`) and (`bar`, One), the second alternative is attempted at
`bar`, not at `foo,bar`, and `MatchString` returns the capture `bar` and
matched = true on the input `foo,bar`. -/
theorem failed_repetition_keeps_consumed_input :
    parseToken (lexString latin1Tables NewLexer 0) (ascii "foo,bar")
        ⟨ascii "foo", CardinalityAtLeastOne, ascii ","⟩ =
      some ⟨[ascii "foo"], false, ascii "bar"⟩ ∧
    parseToken (lexString latin1Tables NewLexer 0) (ascii "foo,bar")
        ⟨ascii "foo", CardinalityMany, ascii ","⟩ =
      some ⟨[ascii "foo"], false, ascii "bar"⟩ ∧
    skipSpace (ascii "foo,bar") = ascii "foo,bar" ∧
    dropLeadingSpace (ascii "foo,bar") = ascii "foo,bar" ∧
    MatchString latin1Tables
      (NewLexer.AddTerm ⟨[⟨[⟨ascii "foo", CardinalityAtLeastOne, ascii ","⟩,
        ⟨ascii "bar", CardinalityOne, []⟩]⟩]⟩ (ascii "T")) 1
      (ascii "foo,bar") (TermPrefix ++ ascii "T") = some ([ascii "bar"], true) := by
  decide

/-! ## Captures account for the input -/

theorem stripSpace_append (a b : Str) : stripSpace (a ++ b) = stripSpace a ++ stripSpace b := by
  simp [stripSpace]

theorem isASCII_append (a b : Str) : isASCII (a ++ b) = (isASCII a && isASCII b) := by
  simp [isASCII]

theorem isASCII_cons (b : Nat) (t : Str) :
    isASCII (b :: t) = true ↔ b < 0x80 ∧ isASCII t = true := by
  simp [isASCII]

theorem isASCII_drop (n : Nat) (s : Str) (h : isASCII s = true) : isASCII (s.drop n) = true := by
  simp only [isASCII, List.all_eq_true] at h ⊢
  exact fun b hb => h b (List.mem_of_mem_drop hb)

theorem isASCII_of_starts (p s : Str) (hp : p <+: s) (h : isASCII s = true) :
    isASCII p = true := by
  simp only [isASCII, List.all_eq_true] at h ⊢
  exact fun b hb => h b (hp.subset hb)

theorem isAsciiSpace_of_isSpace {b : Nat} (hb : b < 0x80) (h : IsSpace b = true) :
    isAsciiSpace b = true := by
  have h1 : b ≤ 0xFF := by omega
  simp only [IsSpace, h1, if_true, Bool.decide_or, Bool.or_eq_true, decide_eq_true_eq] at h
  simp only [isAsciiSpace, Bool.decide_or, Bool.or_eq_true, decide_eq_true_eq]
  omega

theorem isSpace_eq_isAsciiSpace {b : Nat} (hb : b < 0x80) : IsSpace b = isAsciiSpace b := by
  cases h : isAsciiSpace b with
  | true => exact (isSpace_of_asciiSpace h).1
  | false =>
    cases h2 : IsSpace b with
    | false => rfl
    | true => rw [isAsciiSpace_of_isSpace hb h2] at h; cases h

/-- On an ASCII string the white space loop removes ASCII white space only. -/
theorem skipSpace_ascii (s : Str) (h : isASCII s = true) :
    isASCII (skipSpace s) = true ∧ stripSpace (skipSpace s) = stripSpace s := by
  induction s with
  | nil => exact ⟨rfl, rfl⟩
  | cons b t ih =>
    obtain ⟨hb, ht⟩ := (isASCII_cons b t).1 h
    rw [skipSpace, decode_ascii b t hb]
    simp only
    rw [isSpace_eq_isAsciiSpace hb]
    cases hs : isAsciiSpace b with
    | true =>
      simp only [if_true]
      refine ⟨(ih ht).1, ?_⟩
      rw [(ih ht).2]
      simp [stripSpace, hs]
    | false =>
      simp only [Bool.false_eq_true, if_false]
      exact ⟨h, trivial⟩

/-- On an ASCII string, deleting the white space characters is deleting the
ASCII white space bytes. -/
theorem deleteSpace_ascii (fuel : Nat) (s : Str) (h : isASCII s = true) (hf : s.length ≤ fuel) :
    deleteSpace fuel s = stripSpace s := by
  induction fuel generalizing s with
  | zero =>
    have : s = [] := List.length_eq_zero.1 (Nat.le_zero.1 hf)
    subst this; rfl
  | succ n ih =>
    rcases s with _ | ⟨b, t⟩
    · rfl
    · obtain ⟨hb, ht⟩ := (isASCII_cons b t).1 h
      simp only [List.length_cons, Nat.add_le_add_iff_right] at hf
      rw [deleteSpace, decode_ascii b t hb]
      simp only [reduceCtorEq, if_false, List.drop_succ_cons, List.drop_zero,
        List.take_succ_cons, List.take_zero]
      rw [isSpace_eq_isAsciiSpace hb, ih t ht hf]
      cases hs : isAsciiSpace b <;> simp [stripSpace, hs]

theorem withoutSpace_ascii (s : Str) (h : isASCII s = true) : withoutSpace s = stripSpace s :=
  deleteSpace_ascii _ s h (le_refl _)

/-- An ASCII string that `strings.TrimSpace` empties holds white space only. -/
theorem stripSpace_of_trim (fuel : Nat) (s : Str) (h : isASCII s = true)
    (hf : s.length ≤ fuel) (ht : trimLeftSpace fuel s = []) : stripSpace s = [] := by
  induction fuel generalizing s with
  | zero =>
    have : s = [] := List.length_eq_zero.1 (Nat.le_zero.1 hf)
    subst this; rfl
  | succ n ih =>
    rcases s with _ | ⟨b, t⟩
    · rfl
    · obtain ⟨hb, htA⟩ := (isASCII_cons b t).1 h
      simp only [List.length_cons, Nat.add_le_add_iff_right] at hf
      rw [trimLeftSpace, decode_ascii b t hb] at ht
      simp only [ne_eq, reduceCtorEq, not_false_eq_true, true_and, List.drop_succ_cons,
        List.drop_zero] at ht
      rw [isSpace_eq_isAsciiSpace hb] at ht
      cases hs : isAsciiSpace b with
      | true =>
        rw [hs] at ht
        simp only [if_true] at ht
        have := ih t htA hf ht
        simp [stripSpace, hs] at this ⊢
        exact this
      | false =>
        rw [hs] at ht
        simp at ht

/-- On an ASCII string the two `range` loops of `matchBuiltIn` build a prefix
of the string. -/
theorem scanRunes_ascii (pf pr : Nat → Bool) (fuel : Nat) (first : Bool) (s : Str)
    (h : isASCII s = true) : scanRunes pf pr fuel first s <+: s := by
  induction fuel generalizing first s with
  | zero => exact List.nil_prefix
  | succ n ih =>
    rcases s with _ | ⟨b, t⟩
    · simp [scanRunes]
    · obtain ⟨hb, ht⟩ := (isASCII_cons b t).1 h
      rw [scanRunes, decode_ascii b t hb]
      simp only [reduceCtorEq, if_false, List.drop_succ_cons, List.drop_zero]
      split_ifs
      all_goals first
        | exact List.nil_prefix
        | (rw [encodeRune_ascii b hb]; exact (List.prefix_cons_inj b).2 (ih false t ht))

theorem accounted_of_starts (str p : Str) (h : isASCII str = true) (hp : p <+: str) (m : Bool)
    (hm : m = false → p = []) : Accounted str [p] m (str.drop p.length) := by
  obtain ⟨q, rfl⟩ := hp
  rw [isASCII_append, Bool.and_eq_true] at h
  rw [List.drop_left]
  refine ⟨h.2, ?_, ?_, ?_⟩
  · intro c hc
    rw [List.mem_singleton] at hc
    rw [hc]; exact h.1
  · intro _
    simp [stripSpace_append]
  · intro hf
    rw [hm hf]
    rfl

theorem accounted_skip (str : Str) (result : List Str) (m : Bool) (rest : Str)
    (h : isASCII str = true) (ha : Accounted (skipSpace str) result m rest) :
    Accounted str result m rest := by
  obtain ⟨h1, h2, h3, h4⟩ := ha
  have e := (skipSpace_ascii str h).2
  exact ⟨h1, h2, fun hm => e ▸ h3 hm, fun hm => e ▸ h4 hm⟩

theorem matchBuiltIn_sound (U : UnicodeTables) (str name : Str) (h : isASCII str = true) :
    Accounted str (matchBuiltIn U str name).result (matchBuiltIn U str name).matched
        (matchBuiltIn U str name).rest ∧
      ((matchBuiltIn U str name).numMatched = 0 → (matchBuiltIn U str name).partialMatch = false →
        (matchBuiltIn U str name).result = []) := by
  unfold matchBuiltIn
  by_cases h1 : name = ascii "label"
  · simp only [h1, if_true]
    refine ⟨accounted_of_starts str _ h (by
      rw [labelLoop_eq_scan]; exact scanRunes_ascii _ _ _ _ _ h) _ ?_, by simp⟩
    intro hm
    simpa using hm
  · by_cases h2 : name = ascii "match"
    · subst h2
      simp only [if_neg h1, if_true]
      refine ⟨⟨rfl, ?_, ?_, ?_⟩, by simp⟩
      · intro c hc
        rw [List.mem_singleton] at hc
        rw [hc]; exact h
      · intro _; simp [stripSpace]
      · intro hf; cases hf
    · by_cases h3 : name = ascii "int"
      · subst h3
        simp only [if_neg h1, if_neg h2, if_true]
        by_cases h4 : intLoop U str.length true str = [0x2D]
        · simp only [h4, if_true]
          exact ⟨⟨h, by simp, by simp, fun _ => rfl⟩, by simp⟩
        · simp only [h4, if_false]
          refine ⟨accounted_of_starts str _ h (by
            rw [intLoop_eq_scan]; exact scanRunes_ascii _ _ _ _ _ h) _ ?_, by simp⟩
          intro hm
          simpa using hm
      · simp only [if_neg h1, if_neg h2, if_neg h3]
        exact ⟨⟨h, by simp, by simp, fun _ => rfl⟩, by simp⟩

theorem parseToken_sound (lex : Str → Str → Option LexResult) (hlex : LexSound lex)
    (token : SyntaxToken)
    (hc : token.Cardinality = CardinalityOne ∨ token.Cardinality = CardinalityOptional)
    (str : Str) (h : isASCII str = true) (r : TokenResult)
    (hp : parseToken lex str token = some r) : Accounted str r.result r.matched r.rest := by
  unfold parseToken at hp
  rcases hc with hc | hc
  · rw [hc] at hp
    simp only [CardinalityOne, CardinalityOptional, CardinalityAtLeastOne, CardinalityMany,
      Int.reduceEq, if_false] at hp
    cases hl : lex str token.Ident with
    | none => rw [hl] at hp; cases hp
    | some lr =>
      rw [hl] at hp
      obtain ⟨hA, hn1, -⟩ := hlex str _ lr h hl
      simp only at hp
      split_ifs at hp with hn
      · simp only [Option.some.injEq] at hp
        subst hp
        have hlm : lr.matched = false := by
          cases hlm : lr.matched with
          | true => exact absurd (hn1 hlm) hn
          | false => rfl
        exact ⟨hA.1, hA.2.1, (fun hf => by cases hf), fun _ => hA.2.2.2 hlm⟩
      · simp only [Option.some.injEq] at hp
        subst hp
        exact hA
  · rw [hc] at hp
    simp only [if_true] at hp
    split_ifs at hp with hs
    · simp only [Option.some.injEq] at hp
      subst hp
      subst hs
      exact ⟨rfl, by simp, fun _ => rfl, fun _ => rfl⟩
    · cases hl : lex str token.Ident with
      | none => rw [hl] at hp; cases hp
      | some lr =>
        rw [hl] at hp
        obtain ⟨hA, hn1, hn0⟩ := hlex str _ lr h hl
        simp only at hp
        split_ifs at hp with hn
        · simp only [Option.some.injEq] at hp
          subst hp
          have hlm : lr.matched = false := by
            cases hlm : lr.matched with
            | true => have := hn1 hlm; omega
            | false => rfl
          refine ⟨hA.1, hA.2.1, ?_, fun _ => hA.2.2.2 hlm⟩
          intro hpm
          have hpm2 : lr.partialMatch = false := by simpa using hpm
          rw [hn0 hn hpm2, ← hA.2.2.2 hlm]
          rfl
        · simp only [Option.some.injEq] at hp
          subst hp
          exact hA

theorem matchAlternatives_sound (lex : Str → Str → Option LexResult) (hlex : LexSound lex)
    (tokens : List SyntaxToken)
    (hc : ∀ tok ∈ tokens,
      tok.Cardinality = CardinalityOne ∨ tok.Cardinality = CardinalityOptional)
    (str : Str) (h : isASCII str = true) (ms : List Str) (m : Bool) (rest : Str)
    (hp : matchAlternatives lex tokens str = some (ms, m, rest)) : Accounted str ms m rest := by
  induction tokens generalizing str with
  | nil =>
    simp only [matchAlternatives, Option.some.injEq, Prod.mk.injEq] at hp
    obtain ⟨rfl, rfl, rfl⟩ := hp
    exact ⟨h, by simp, (fun hf => by cases hf), fun _ => rfl⟩
  | cons tok toks ih =>
    simp only [matchAlternatives] at hp
    cases hr : parseToken lex str tok with
    | none => rw [hr] at hp; cases hp
    | some r =>
      rw [hr] at hp
      have hA := parseToken_sound lex hlex tok (hc tok (List.mem_cons_self _ _)) str h r hr
      simp only at hp
      cases hrm : r.matched with
      | true =>
        rw [hrm] at hp hA
        simp only [if_true, Option.some.injEq, Prod.mk.injEq] at hp
        obtain ⟨rfl, rfl, rfl⟩ := hp
        exact hA
      | false =>
        rw [hrm] at hp hA
        simp only [Bool.false_eq_true, if_false] at hp
        obtain ⟨h1, h2, h3, h4⟩ := ih (fun t ht => hc t (List.mem_cons_of_mem _ ht)) r.rest
          hA.1 hp
        have e := hA.2.2.2 rfl
        exact ⟨h1, h2, fun hm => e ▸ h3 hm, fun hm => e ▸ h4 hm⟩

theorem matchPhrases_sound (lex : Str → Str → Option LexResult) (hlex : LexSound lex)
    (strCopy : Str) (hcopy : isASCII strCopy = true) (phrases : List SyntaxPhrase)
    (hc : ∀ ph ∈ phrases, ∀ tok ∈ ph.Alternatives,
      tok.Cardinality = CardinalityOne ∨ tok.Cardinality = CardinalityOptional)
    (str : Str) (h : isASCII str = true) (acc : List Str) (pm : Bool)
    (hacc : ∀ c ∈ acc, isASCII c = true)
    (hpre : stripSpace strCopy = stripSpace acc.flatten ++ stripSpace str)
    (hpm : pm = false → acc = []) (r : LexResult)
    (hp : matchPhrases lex strCopy phrases str acc pm = some r) :
    Accounted strCopy r.result r.matched r.rest ∧ (r.matched = true → r.numMatched = 1) ∧
      (r.numMatched = 0 → r.partialMatch = false → r.result = []) := by
  induction phrases generalizing str acc pm with
  | nil =>
    simp only [matchPhrases, Option.some.injEq] at hp
    subst hp
    exact ⟨⟨h, hacc, fun _ => hpre, (fun hf => by cases hf)⟩, fun _ => rfl,
      (fun hf => by cases hf)⟩
  | cons ph phs ih =>
    simp only [matchPhrases] at hp
    cases ha : matchAlternatives lex ph.Alternatives str with
    | none => rw [ha] at hp; cases hp
    | some v =>
      obtain ⟨ms, m, str1⟩ := v
      rw [ha] at hp
      have hA := matchAlternatives_sound lex hlex ph.Alternatives
        (hc ph (List.mem_cons_self _ _)) str h ms m str1 ha
      simp only at hp
      cases m with
      | true =>
        simp only [if_true] at hp
        refine ih (fun p hp1 => hc p (List.mem_cons_of_mem _ hp1)) str1 hA.1 (acc ++ ms) true
          ?_ ?_ (fun hf => by cases hf) hp
        · intro c hcm
          rcases List.mem_append.1 hcm with hcm | hcm
          · exact hacc c hcm
          · exact hA.2.1 c hcm
        · rw [hpre, hA.2.2.1 rfl, List.flatten_append, stripSpace_append, List.append_assoc]
      | false =>
        simp only [Bool.false_eq_true, if_false, Option.some.injEq] at hp
        subst hp
        exact ⟨⟨hcopy, hacc, (fun hf => by cases hf), fun _ => rfl⟩, (fun hf => by cases hf),
          fun _ hpm1 => hpm hpm1⟩

theorem lookup_mem (l : Lexer) (A : Str) (term : SyntaxTerm) (h : l.lookup A = some term) :
    (A, term) ∈ l.registeredTerms := by
  unfold Lexer.lookup at h
  cases hf : l.registeredTerms.find? (fun e => e.1 == A) with
  | none => rw [hf] at h; cases h
  | some e =>
    rw [hf] at h
    simp only [Option.map_some', Option.some.injEq] at h
    have h1 := List.find?_some hf
    have h2 := List.mem_of_find?_eq_some hf
    simp only [beq_iff_eq] at h1
    rw [← h1, ← h]
    exact h2

theorem oneOrOptional_tokens (l : Lexer) (hl : OneOrOptional l = true) (A : Str)
    (term : SyntaxTerm) (h : l.lookup A = some term) :
    ∀ ph ∈ term.Phrases, ∀ tok ∈ ph.Alternatives,
      tok.Cardinality = CardinalityOne ∨ tok.Cardinality = CardinalityOptional := by
  intro ph hph tok htok
  simp only [OneOrOptional, List.all_eq_true, decide_eq_true_eq] at hl
  exact hl _ (lookup_mem l A term h) ph hph tok htok

theorem matchTerm_sound (lex : Str → Str → Option LexResult) (hlex : LexSound lex) (l : Lexer)
    (hl : OneOrOptional l = true) (str name : Str) (h : isASCII str = true) (r : LexResult)
    (hp : matchTerm lex l str name = some r) :
    Accounted str r.result r.matched r.rest ∧ (r.matched = true → r.numMatched = 1) ∧
      (r.numMatched = 0 → r.partialMatch = false → r.result = []) := by
  unfold matchTerm at hp
  cases hk : l.lookup name with
  | none =>
    rw [hk] at hp
    simp only [Option.some.injEq] at hp
    subst hp
    exact ⟨⟨h, by simp, (fun hf => by cases hf), fun _ => rfl⟩, (fun hf => by cases hf),
      fun _ _ => rfl⟩
  | some term =>
    rw [hk] at hp
    exact matchPhrases_sound lex hlex str h term.Phrases (oneOrOptional_tokens l hl name term hk)
      str h [] false (by simp) (by simp [stripSpace]) (fun _ => rfl) r hp

theorem lexString_nonref_sound (U : UnicodeTables) (l : Lexer) (fuel : Nat) (s e : Str)
    (r : LexResult) (hs : isASCII s = true) (h1 : HasPrefix e TermPrefix = false)
    (h : lexString U l fuel s e = some r) :
    Accounted s r.result r.matched r.rest ∧ (r.matched = true → r.numMatched = 1) ∧
      (r.numMatched = 0 → r.partialMatch = false → r.result = []) := by
  have hrep := (lexString_report U l fuel s e r h).1
  obtain ⟨hsA, -⟩ := skipSpace_ascii s hs
  by_cases h2 : HasPrefix e BuiltInPrefix = true
  · have he : e = BuiltInPrefix ++ e.drop 1 := by
      obtain ⟨t, ht⟩ := (hasPrefix_iff e BuiltInPrefix).1 h2
      rw [← ht]; rfl
    rw [he, lexString_builtin_eq] at h
    simp only [Option.some.injEq] at h
    subst h
    obtain ⟨hA, h3⟩ := matchBuiltIn_sound U (skipSpace s) (e.drop 1) hsA
    exact ⟨accounted_skip s _ _ _ hs hA, hrep, h3⟩
  · have h2' : HasPrefix e BuiltInPrefix = false := by simpa using h2
    rw [lexString_literal_eq U l fuel s e h1 h2'] at h
    split_ifs at h with hp
    · simp only [Option.some.injEq] at h
      subst h
      exact ⟨accounted_skip s _ _ _ hs
        (accounted_of_starts _ _ hsA ((hasPrefix_iff _ _).1 hp) true (fun hf => by cases hf)),
        fun _ => rfl, (fun hf => by cases hf)⟩
    · simp only [Option.some.injEq] at h
      subst h
      exact ⟨accounted_skip s _ _ _ hs ⟨hsA, by simp, (fun hf => by cases hf), fun _ => rfl⟩,
        (fun hf => by cases hf), fun _ _ => rfl⟩

/-- In a registry of One and Optional tokens, `lexString` accounts for its
ASCII input, whatever the fuel. -/
theorem lexString_sound (U : UnicodeTables) (l : Lexer) (hl : OneOrOptional l = true)
    (fuel : Nat) : LexSound (lexString U l fuel) := by
  induction fuel with
  | zero =>
    intro s e r hs h
    by_cases h1 : HasPrefix e TermPrefix = true
    · rw [eq_termPrefix_append e h1] at h
      simp [lexString, HasPrefix, TermPrefix] at h
    · exact lexString_nonref_sound U l 0 s e r hs (by simpa using h1) h
  | succ n ih =>
    intro s e r hs h
    by_cases h1 : HasPrefix e TermPrefix = true
    · rw [eq_termPrefix_append e h1, lexString_term_eq] at h
      obtain ⟨hA, h2, h3⟩ := matchTerm_sound _ ih l hl _ _ (skipSpace_ascii s hs).1 r h
      exact ⟨accounted_skip s _ _ _ hs hA, h2, h3⟩
    · exact lexString_nonref_sound U l (n + 1) s e r hs (by simpa using h1) h

theorem isASCII_flatten (caps : List Str) (h : ∀ c ∈ caps, isASCII c = true) :
    isASCII caps.flatten = true := by
  induction caps with
  | nil => rfl
  | cons c cs ih =>
    rw [List.flatten_cons, isASCII_append, Bool.and_eq_true]
    exact ⟨h c (List.mem_cons_self _ _), ih (fun x hx => h x (List.mem_cons_of_mem _ hx))⟩

/-- C20: captures account for the whole input.  For every registry all of
whose tokens have cardinality One or Optional, every rule expression `e` and
every ASCII input `s`, if `MatchString(s, e)` returns, with matched = true,
then the concatenation of the captures in order, with all white space
characters deleted, is `s` with all white space characters deleted. -/
theorem captures_account_for_input (U : UnicodeTables) (l : Lexer) (fuel : Nat) (s e : Str)
    (caps : List Str) (hl : OneOrOptional l = true) (hs : isASCII s = true)
    (h : MatchString U l fuel s e = some (caps, true)) :
    withoutSpace caps.flatten = withoutSpace s := by
  unfold MatchString at h
  cases hr : lexString U l fuel s e with
  | none => rw [hr] at h; cases h
  | some r =>
    rw [hr] at h
    simp only [Option.map_some', Option.some.injEq, Prod.mk.injEq, Bool.and_eq_true] at h
    obtain ⟨rfl, hm, ht⟩ := h
    obtain ⟨⟨h1, h2, h3, -⟩, -, -⟩ := lexString_sound U l hl fuel s e r hs hr
    have hrest : stripSpace r.rest = [] :=
      stripSpace_of_trim _ r.rest h1 (le_refl _) (by simpa [trimSpaceIsEmpty] using ht)
    rw [withoutSpace_ascii _ (isASCII_flatten _ h2), withoutSpace_ascii _ hs, h3 hm, hrest,
      List.append_nil]

/-- C20 (witness): the rule `fooOptionalBar` (phrases `foo`, then an optional
`bar`) on the input ` foo bar `: the captures `foo`, `bar` and the input are
both `foobar` once the white space is deleted. -/
theorem captures_account_for_input_witness :
    withoutSpace [ascii "foo", ascii "bar"].flatten = withoutSpace (ascii " foo bar ") :=
  captures_account_for_input latin1Tables
    (NewLexer.AddTerm ⟨[⟨[⟨ascii "foo", CardinalityOne, []⟩]⟩,
      ⟨[⟨ascii "bar", CardinalityOptional, []⟩]⟩]⟩ (ascii "fooOptionalBar"))
    1 (ascii " foo bar ") (ascii "$fooOptionalBar") [ascii "foo", ascii "bar"]
    (by decide) (by decide) (by decide)

/-! ## Trailing white space -/

theorem trails_refl (c : Str) : Trails c c := ⟨[], rfl, by simp⟩

theorem all_space_drop (y : Str) (n : Nat) (hy : y.all isAsciiSpace = true) :
    (y.drop n).all isAsciiSpace = true := by
  rw [List.all_eq_true] at hy ⊢
  exact fun b hb => hy b (List.mem_of_mem_drop hb)

theorem trails_drop (c c' : Str) (n : Nat) (h : Trails c c') : Trails (c.drop n) (c'.drop n) := by
  obtain ⟨y, hy, rfl⟩ := h
  exact ⟨y.drop (n - c.length), all_space_drop y _ hy, List.drop_append_eq_append_drop⟩

theorem decode_width_le_length (x : Str) (hx : x ≠ []) :
    (DecodeRuneInString x).2 ≤ x.length := by
  by_cases hv : DecodeRuneInString x = (RuneError, 1)
  · rw [hv]
    exact List.length_pos.2 hx
  · obtain ⟨s0, cs, hsh, -, -, hlen⟩ := decode_shape x hx hv
    have := congrArg List.length hsh
    simp only [List.length_cons, List.length_append] at this
    omega

/-- ASCII white space after a non-empty string does not change its first
character. -/
theorem decode_append_space (x y : Str) (hx : x ≠ []) (hy : y.all isAsciiSpace = true) :
    DecodeRuneInString (x ++ y) = DecodeRuneInString x := by
  by_cases hv : DecodeRuneInString x = (RuneError, 1)
  · rcases y with _ | ⟨b, y'⟩
    · rw [List.append_nil]
    · simp only [List.all_cons, Bool.and_eq_true] at hy
      rw [decode_append_of_invalid x y' b hx
        (isCont_false_of_lt (isSpace_of_asciiSpace hy.1).2) hv, hv]
  · exact decode_append_of_valid x y hx hv

theorem skipSpace_space (y : Str) (hy : y.all isAsciiSpace = true) : skipSpace y = [] := by
  have := skipSpace_ws_append y [] hy
  rwa [List.append_nil] at this

/-- The white space loop on a cursor followed by ASCII white space. -/
theorem skipSpace_append_space (c y : Str) (hy : y.all isAsciiSpace = true) :
    skipSpace (c ++ y) = if skipSpace c = [] then [] else skipSpace c ++ y := by
  induction c with
  | nil => simp [skipSpace_space y hy, skipSpace]
  | cons b t ih =>
    have hd := decode_append_space (b :: t) y (by simp) hy
    rw [List.cons_append] at hd ⊢
    rw [skipSpace, skipSpace, hd]
    by_cases hs : IsSpace (DecodeRuneInString (b :: t)).1 = true
    · simp only [hs, if_true]
      exact ih
    · simp [hs]

theorem skipSpace_eq_nil (c : Str) (h : skipSpace c = []) : c.all isAsciiSpace = true := by
  induction c with
  | nil => rfl
  | cons b t ih =>
    rw [skipSpace] at h
    split_ifs at h with hs
    -- the first byte alone is the white space character, or the loop stops
    have ht := ih h
    rw [List.all_cons, ht, Bool.and_true]
    by_cases hb : b < 0x80
    · rw [decode_ascii b t hb] at hs
      exact isAsciiSpace_of_isSpace hb hs
    · exfalso
      have hv : DecodeRuneInString (b :: t) ≠ (RuneError, 1) := by
        intro he; rw [he, isSpace_runeError] at hs; cases hs
      obtain ⟨s0, cs, hsh, hcs, -, hlen⟩ := decode_shape (b :: t) (by simp) hv
      simp only [List.cons.injEq] at hsh
      rcases cs with _ | ⟨c, cs⟩
      · have hw1 : (DecodeRuneInString (b :: t)).2 = 1 := by simpa using hlen.symm
        simp only [DecodeRuneInString, hb, if_false] at hw1 hv
        split_ifs at hw1 hv with h2
        · exact hv rfl
        · revert hv hw1; split <;> [split_ifs; skip] <;> simp
        · revert hv hw1; split <;> [split_ifs; skip] <;> simp
        · revert hv hw1; split <;> [split_ifs; skip] <;> simp
      · have hc : isCont c = true := hcs c (List.mem_cons_self _ _)
        rw [hsh.2] at ht
        simp only [List.cons_append, List.all_cons, Bool.and_eq_true] at ht
        have := (isSpace_of_asciiSpace ht.1).2
        simp only [isCont, decide_eq_true_eq] at hc
        omega

/-- A string without ASCII white space that starts `x ++ y`, with `y` ASCII
white space, starts `x`. -/
theorem hasPrefix_append_space (x y p : Str) (hy : y.all isAsciiSpace = true)
    (hp : spaceFree p = true) : HasPrefix (x ++ y) p = HasPrefix x p := by
  cases h1 : HasPrefix x p with
  | true =>
    rw [hasPrefix_iff] at h1 ⊢
    exact h1.trans (List.prefix_append x y)
  | false =>
    cases h2 : HasPrefix (x ++ y) p with
    | false => rfl
    | true =>
      exfalso
      rw [hasPrefix_iff] at h2
      have h1' : ¬ p <+: x := by rw [← hasPrefix_iff, h1]; simp
      rcases List.prefix_or_prefix_of_prefix h2 (List.prefix_append x y) with h | h
      · exact h1' h
      · obtain ⟨q, rfl⟩ := h
        have hq : q <+: y := (List.prefix_append_right_inj x).1 h2
        rcases q with _ | ⟨b, q'⟩
        · exact h1' (by simp)
        · have hb1 : isAsciiSpace b = true := by
            rw [List.all_eq_true] at hy
            exact hy b (hq.subset (List.mem_cons_self _ _))
          have hb2 : isAsciiSpace b = false := by
            simp only [spaceFree, List.all_eq_true, Bool.not_eq_true'] at hp
            exact hp b (by simp)
          rw [hb1] at hb2; cases hb2

theorem trim_append_space (fuel fuel1 : Nat) (x y : Str) (hy : y.all isAsciiSpace = true)
    (hf : x.length ≤ fuel) (hf1 : (x ++ y).length ≤ fuel1) (h : trimLeftSpace fuel x = []) :
    trimLeftSpace fuel1 (x ++ y) = [] := by
  induction fuel generalizing fuel1 x with
  | zero =>
    have hx : x = [] := List.length_eq_zero.1 (Nat.le_zero.1 hf)
    subst hx
    have := trimLeftSpace_ws_append y [] hy (Or.inl rfl) fuel1 (by simpa using hf1)
    simpa using this
  | succ n ih =>
    rcases x with _ | ⟨b, t⟩
    · have := trimLeftSpace_ws_append y [] hy (Or.inl rfl) fuel1 (by simpa using hf1)
      simpa using this
    · cases fuel1 with
      | zero => simp at hf1
      | succ m =>
        have hd := decode_append_space (b :: t) y (by simp) hy
        have hw := decode_width_le_length (b :: t) (by simp)
        have hwp := decode_width_pos (b :: t) (by simp)
        rw [trimLeftSpace] at h ⊢
        rw [hd]
        by_cases hs : IsSpace (DecodeRuneInString (b :: t)).1 = true
        · simp only [ne_eq, reduceCtorEq, not_false_eq_true, hs, and_self, if_true] at h
          simp only [ne_eq, List.append_eq_nil, reduceCtorEq, false_and, not_false_eq_true, hs,
            and_self, if_true]
          rw [List.drop_append_of_le_length hw]
          simp only [List.length_cons, List.length_append] at hf hf1 hw
          exact ih m _ (by simp; omega) (by simp; omega) h
        · simp [hs] at h

/-- Trailing ASCII white space keeps `strings.TrimSpace(rest) == ""` true. -/
theorem trimSpaceIsEmpty_trails (c c' : Str) (h : Trails c c')
    (ht : trimSpaceIsEmpty c = true) : trimSpaceIsEmpty c' = true := by
  obtain ⟨y, hy, rfl⟩ := h
  simp only [trimSpaceIsEmpty, beq_iff_eq] at ht ⊢
  exact trim_append_space _ _ c y hy (le_refl _) (le_refl _) ht

theorem scanRunes_space (pf pr : Nat → Bool) (hpf : ∀ b, isAsciiSpace b = true → pf b = false)
    (hpr : ∀ b, isAsciiSpace b = true → pr b = false) (n : Nat) (first : Bool) (y : Str)
    (hy : y.all isAsciiSpace = true) : scanRunes pf pr n first y = [] := by
  cases n with
  | zero => rfl
  | succ n =>
    rcases y with _ | ⟨b, y'⟩
    · simp [scanRunes]
    · simp only [List.all_cons, Bool.and_eq_true] at hy
      rw [scanRunes, decode_ascii b y' (isSpace_of_asciiSpace hy.1).2]
      simp only [reduceCtorEq, if_false, hpf b hy.1, hpr b hy.1, ite_self, Bool.false_eq_true]

/-- The `range` loops of `matchBuiltIn` stop at trailing ASCII white space. -/
theorem scanRunes_append_space (pf pr : Nat → Bool)
    (hpf : ∀ b, isAsciiSpace b = true → pf b = false)
    (hpr : ∀ b, isAsciiSpace b = true → pr b = false) (m n : Nat) (first : Bool) (x y : Str)
    (hy : y.all isAsciiSpace = true) (hn : (x ++ y).length ≤ n) (hm : x.length ≤ m) :
    scanRunes pf pr n first (x ++ y) = scanRunes pf pr m first x := by
  induction m generalizing n first x with
  | zero =>
    have hx : x = [] := List.length_eq_zero.1 (Nat.le_zero.1 hm)
    subst hx
    rw [List.nil_append, scanRunes_space pf pr hpf hpr n first y hy]
    rfl
  | succ m ih =>
    by_cases hx : x = []
    · subst hx
      rw [List.nil_append, scanRunes_space pf pr hpf hpr n first y hy]
      simp [scanRunes]
    · have hl : 0 < x.length := List.length_pos.2 hx
      cases n with
      | zero => exfalso; simp only [List.length_append] at hn; omega
      | succ n =>
        have hd := decode_append_space x y hx hy
        have hw := decode_width_le_length x hx
        have hwp := decode_width_pos x hx
        have hxy : x ++ y ≠ [] := by simp [hx]
        rw [scanRunes, scanRunes, if_neg hxy, if_neg hx, hd,
          List.drop_append_of_le_length hw]
        simp only [List.length_append] at hn
        rw [ih n false (x.drop (DecodeRuneInString x).2) (by simp; omega) (by simp; omega)]

theorem labelRunes_space (U : UnicodeTables) (b : Nat) (h : isAsciiSpace b = true) :
    isLabelStartRune U b = false ∧ isLabelRune U b = false ∧ isIntStartRune U b = false ∧
      IsDigit U b = false := by
  simp only [isAsciiSpace, Bool.decide_or, Bool.or_eq_true, decide_eq_true_eq] at h
  rcases h with h | h | h | h | h | h <;> subst h <;>
    simp [isLabelStartRune, isLabelRune, isIntStartRune, IsLetter, IsDigit]

theorem labelLoop_append_space (U : UnicodeTables) (x y : Str)
    (hy : y.all isAsciiSpace = true) :
    labelLoop U (x ++ y).length true (x ++ y) = labelLoop U x.length true x := by
  rw [labelLoop_eq_scan, labelLoop_eq_scan]
  exact scanRunes_append_space _ _ (fun b hb => (labelRunes_space U b hb).1)
    (fun b hb => (labelRunes_space U b hb).2.1) _ _ _ x y hy (le_refl _) (le_refl _)

theorem intLoop_append_space (U : UnicodeTables) (x y : Str) (hy : y.all isAsciiSpace = true) :
    intLoop U (x ++ y).length true (x ++ y) = intLoop U x.length true x := by
  rw [intLoop_eq_scan, intLoop_eq_scan]
  exact scanRunes_append_space _ _ (fun b hb => (labelRunes_space U b hb).2.2.1)
    (fun b hb => (labelRunes_space U b hb).2.2.2) _ _ _ x y hy (le_refl _) (le_refl _)

/-- The built-ins report the same on a cursor followed by ASCII white space. -/
theorem matchBuiltIn_trails (U : UnicodeTables) (s y name : Str)
    (hy : y.all isAsciiSpace = true) :
    SameOutcome (matchBuiltIn U s name) (matchBuiltIn U (s ++ y) name) := by
  have htr : Trails s (s ++ y) := ⟨y, hy, rfl⟩
  unfold matchBuiltIn
  by_cases h1 : name = ascii "label"
  · simp only [h1, if_true, labelLoop_append_space U s y hy]
    exact ⟨rfl, rfl, rfl, trails_drop _ _ _ htr, by simp⟩
  · by_cases h2 : name = ascii "match"
    · subst h2
      simp only [if_neg h1, if_true]
      exact ⟨rfl, rfl, rfl, trails_refl _, by simp⟩
    · by_cases h3 : name = ascii "int"
      · subst h3
        simp only [if_neg h1, if_neg h2, if_true, intLoop_append_space U s y hy]
        by_cases h4 : intLoop U s.length true s = [0x2D]
        · rw [if_pos h4, if_pos h4]
          exact ⟨rfl, rfl, rfl, htr, by simp⟩
        · rw [if_neg h4, if_neg h4]
          exact ⟨rfl, rfl, rfl, trails_drop _ _ _ htr, by simp⟩
      · simp only [if_neg h1, if_neg h2, if_neg h3]
        exact ⟨rfl, rfl, rfl, htr, by simp⟩

theorem index_space (y sep : Str) (hy : y.all isAsciiSpace = true) (hsn : sep ≠ [])
    (hsf : spaceFree sep = true) : Index y sep = none := by
  induction y with
  | nil => exact index_nil sep hsn
  | cons b y' ih =>
    simp only [List.all_cons, Bool.and_eq_true] at hy
    have hp : HasPrefix (b :: y') sep = false := by
      have := hasPrefix_append_space [] (b :: y') sep (by simp [hy.1, hy.2]) hsf
      rw [List.nil_append] at this
      rw [this]
      cases sep with
      | nil => exact absurd rfl hsn
      | cons c s' => rfl
    rw [Index.eq_def, hp]
    simp [ih hy.2]

theorem index_append_space (c y sep : Str) (hy : y.all isAsciiSpace = true) (hsn : sep ≠ [])
    (hsf : spaceFree sep = true) : Index (c ++ y) sep = Index c sep := by
  induction c with
  | nil => rw [List.nil_append, index_space y sep hy hsn hsf, index_nil sep hsn]
  | cons b t ih =>
    rw [Index.eq_def, Index.eq_def (b :: t), hasPrefix_append_space (b :: t) y sep hy hsf]
    simp only [List.cons_append, ih]

theorem index_bound (c sep : Str) (i : Nat) (h : Index c sep = some i) :
    i + sep.length ≤ c.length := by
  induction c generalizing i with
  | nil =>
    rw [Index.eq_def] at h
    by_cases hp : HasPrefix [] sep = true
    · have := ((hasPrefix_iff _ _).1 hp).length_le
      simp only [hp, if_true, Option.some.injEq] at h
      omega
    · simp [hp] at h
  | cons b t ih =>
    rw [Index.eq_def] at h
    by_cases hp : HasPrefix (b :: t) sep = true
    · have := ((hasPrefix_iff _ _).1 hp).length_le
      simp only [hp, if_true, Option.some.injEq] at h
      omega
    · simp only [hp, Bool.false_eq_true, if_false] at h
      cases hi : Index t sep with
      | none => rw [hi] at h; simp at h
      | some j =>
        rw [hi] at h
        simp only [Option.map_some', Option.some.injEq] at h
        have := ih j hi
        simp only [List.length_cons]
        omega

theorem countSep_append_space (sep : Str) (hsn : sep ≠ []) (hsf : spaceFree sep = true)
    (m n : Nat) (c y : Str) (hy : y.all isAsciiSpace = true) (hn : (c ++ y).length ≤ n)
    (hm : c.length ≤ m) : countSep sep n (c ++ y) = countSep sep m c := by
  have hsl : 0 < sep.length := List.length_pos.2 hsn
  induction m generalizing n c with
  | zero =>
    have hc : c = [] := List.length_eq_zero.1 (Nat.le_zero.1 hm)
    subst hc
    cases n with
    | zero => rfl
    | succ n => simp [countSep, index_space y sep hy hsn hsf]
  | succ m ih =>
    cases n with
    | zero =>
      have hc : c = [] := by
        have : c.length = 0 := by simp only [List.length_append] at hn; omega
        exact List.length_eq_zero.1 this
      subst hc
      simp [countSep, index_nil sep hsn]
    | succ n =>
      rw [countSep, countSep, index_append_space c y sep hy hsn hsf]
      cases hi : Index c sep with
      | none => rfl
      | some i =>
        have hb := index_bound c sep i hi
        simp only
        rw [List.drop_append_of_le_length hb]
        simp only [List.length_append] at hn
        rw [ih n (c.drop (i + sep.length)) (by simp; omega) (by simp; omega)]

/-- `strings.Split` on a separator without white space reports as many pieces
with and without trailing ASCII white space. -/
theorem splitLen_trails (c c' sep : Str) (h : Trails c c') (hsn : sep ≠ [])
    (hsf : spaceFree sep = true) : splitLen c' sep = splitLen c sep := by
  obtain ⟨y, hy, rfl⟩ := h
  rw [splitLen_eq _ _ hsn, splitLen_eq _ _ hsn,
    countSep_append_space sep hsn hsf c.length _ c y hy (le_refl _) (le_refl _)]

theorem sameOutcome_refl (r : LexResult) : SameOutcome r r :=
  ⟨rfl, rfl, rfl, trails_refl _, Iff.rfl⟩

theorem lexString_of_space (U : UnicodeTables) (l : Lexer) (fuel : Nat) (c y e : Str)
    (hy : y.all isAsciiSpace = true) (hc : skipSpace c = []) :
    lexString U l fuel (c ++ y) e = lexString U l fuel c e := by
  rw [← lexString_skipSpace U l fuel (c ++ y), ← lexString_skipSpace U l fuel c,
    skipSpace_append_space c y hy, if_pos hc, hc]

theorem spaceFree_drop (e : Str) (n : Nat) (h : spaceFree e = true) :
    spaceFree (e.drop n) = true := by
  simp only [spaceFree, List.all_eq_true] at h ⊢
  exact fun b hb => h b (List.mem_of_mem_drop hb)

theorem literalOf_spaceFree (e : Str) (h : spaceFree e = true) :
    spaceFree (literalOf e) = true := by
  unfold literalOf
  split_ifs
  · exact spaceFree_drop e 1 h
  · exact h

theorem tokenTolerant_iff (tok : SyntaxToken) (h : tokenTolerant tok = true) :
    (isLiteralIdent tok.Ident = true → spaceFree tok.Ident = true) ∧
      (tok.Cardinality = CardinalityOne ∨
        (tok.Cardinality = CardinalityOptional ∧ isLiteralIdent tok.Ident = true) ∨
        (tok.Cardinality = CardinalityAtLeastOne ∧ tok.Separator ≠ [] ∧
          spaceFree tok.Separator = true)) := by
  simp only [tokenTolerant, Bool.and_eq_true, Bool.or_eq_true, Bool.not_eq_true',
    decide_eq_true_eq] at h
  obtain ⟨h1, h2⟩ := h
  refine ⟨fun hl => ?_, ?_⟩
  · rcases h1 with h1 | h1
    · rw [hl] at h1; cases h1
    · exact h1
  · rcases h2 with (h2 | h2) | h2
    · exact Or.inl h2
    · exact Or.inr (Or.inl h2)
    · exact Or.inr (Or.inr ⟨h2.1.1, h2.1.2, h2.2⟩)

theorem tolerant_tokens (l : Lexer) (hl : registryTolerant l = true) (A : Str)
    (term : SyntaxTerm) (h : l.lookup A = some term) :
    ∀ ph ∈ term.Phrases, ∀ tok ∈ ph.Alternatives, tokenTolerant tok = true := by
  intro ph hph tok htok
  simp only [registryTolerant, List.all_eq_true] at hl
  exact hl _ (lookup_mem l A term h) ph hph tok htok

/-- On an expression that is no rule reference, `lexString` reports the same
with trailing ASCII white space, when the literal holds no white space. -/
theorem lexString_nonref_trails (U : UnicodeTables) (l : Lexer) (fuel : Nat) (c y e : Str)
    (r : LexResult) (hy : y.all isAsciiSpace = true) (h1 : HasPrefix e TermPrefix = false)
    (he : isLiteralIdent e = true → spaceFree e = true)
    (h : lexString U l fuel c e = some r) :
    ∃ r', lexString U l fuel (c ++ y) e = some r' ∧ SameOutcome r r' := by
  by_cases hs : skipSpace c = []
  · exact ⟨r, by rw [lexString_of_space U l fuel c y e hy hs, h], sameOutcome_refl r⟩
  · have hsk : skipSpace (c ++ y) = skipSpace c ++ y := by
      rw [skipSpace_append_space c y hy, if_neg hs]
    by_cases h2 : HasPrefix e BuiltInPrefix = true
    · have hb : e = BuiltInPrefix ++ e.drop 1 := by
        obtain ⟨t, ht⟩ := (hasPrefix_iff e BuiltInPrefix).1 h2
        rw [← ht]; rfl
      rw [hb, lexString_builtin_eq] at h ⊢
      simp only [Option.some.injEq] at h
      subst h
      exact ⟨_, by rw [hsk], matchBuiltIn_trails U _ y _ hy⟩
    · have h2' : HasPrefix e BuiltInPrefix = false := by simpa using h2
      have hL := literalOf_spaceFree e (he (by simp [isLiteralIdent, h1, h2']))
      rw [lexString_literal_eq U l fuel _ e h1 h2'] at h ⊢
      rw [hsk, hasPrefix_append_space _ y _ hy hL]
      have htr : Trails (skipSpace c) (skipSpace c ++ y) := ⟨y, hy, rfl⟩
      split_ifs at h ⊢ with hp
      · simp only [Option.some.injEq] at h
        subst h
        exact ⟨_, rfl, rfl, rfl, rfl, trails_drop _ _ _ htr, by simp⟩
      · simp only [Option.some.injEq] at h
        subst h
        exact ⟨_, rfl, rfl, rfl, rfl, htr, by simp⟩

/-- A literal that matches still matches with trailing ASCII white space,
whatever the literal holds. -/
theorem lexString_literal_trails (U : UnicodeTables) (l : Lexer) (fuel : Nat) (c y e : Str)
    (r : LexResult) (hy : y.all isAsciiSpace = true) (hl : isLiteralIdent e = true)
    (h : lexString U l fuel c e = some r) (hm : r.matched = true) :
    ∃ r', lexString U l fuel (c ++ y) e = some r' ∧ r'.matched = true ∧
      Trails r.rest r'.rest := by
  simp only [isLiteralIdent, Bool.and_eq_true, Bool.not_eq_true'] at hl
  by_cases hs : skipSpace c = []
  · exact ⟨r, by rw [lexString_of_space U l fuel c y e hy hs, h], hm, trails_refl _⟩
  · have hsk : skipSpace (c ++ y) = skipSpace c ++ y := by
      rw [skipSpace_append_space c y hy, if_neg hs]
    rw [lexString_literal_eq U l fuel _ e hl.1 hl.2] at h ⊢
    have htr : Trails (skipSpace c) (skipSpace c ++ y) := ⟨y, hy, rfl⟩
    split_ifs at h with hp
    · simp only [Option.some.injEq] at h
      subst h
      have hp' : HasPrefix (skipSpace (c ++ y)) (literalOf e) = true := by
        rw [hsk, hasPrefix_iff]
        exact ((hasPrefix_iff _ _).1 hp).trans (List.prefix_append _ _)
      rw [if_pos hp', hsk]
      exact ⟨_, rfl, rfl, trails_drop _ _ _ htr⟩
    · simp only [Option.some.injEq] at h
      subst h
      cases hm

theorem matchBuiltIn_capture (U : UnicodeTables) (s name : Str)
    (hm : (matchBuiltIn U s name).matched = true) : (matchBuiltIn U s name).result ≠ [] := by
  revert hm
  unfold matchBuiltIn
  by_cases k1 : name = ascii "label"
  · simp [k1]
  · by_cases k2 : name = ascii "match"
    · simp [k2, ascii]
    · by_cases k3 : name = ascii "int"
      · subst k3
        simp only [if_neg k1, if_neg k2, if_true]
        by_cases k4 : intLoop U s.length true s = [0x2D]
        · simp [k4]
        · simp [k4]
      · simp [k1, k2, k3]

/-- A match of an expression that is no rule reference has a capture. -/
theorem lexString_nonref_capture (U : UnicodeTables) (l : Lexer) (fuel : Nat) (str e : Str)
    (r : LexResult) (h1 : HasPrefix e TermPrefix = false)
    (h : lexString U l fuel str e = some r) (hm : r.matched = true) : r.result ≠ [] := by
  by_cases h2 : HasPrefix e BuiltInPrefix = true
  · have hb : e = BuiltInPrefix ++ e.drop 1 := by
      obtain ⟨t, ht⟩ := (hasPrefix_iff e BuiltInPrefix).1 h2
      rw [← ht]; rfl
    rw [hb, lexString_builtin_eq] at h
    simp only [Option.some.injEq] at h
    subst h
    exact matchBuiltIn_capture U _ _ hm
  · have h2' : HasPrefix e BuiltInPrefix = false := by simpa using h2
    rw [lexString_literal_eq U l fuel _ e h1 h2'] at h
    split_ifs at h
    · simp only [Option.some.injEq] at h
      subst h
      simp
    · simp only [Option.some.injEq] at h
      subst h
      cases hm

/-- The loop of an AtLeastOne token that runs at least once: when it breaks
off the cursor is one the white space loop left, and when it completes so is
the cursor, or there is a capture. -/
theorem atLeastOneLoop_settled (U : UnicodeTables) (l : Lexer) (fuel : Nat)
    (ih : ∀ s e r, lexString U l fuel s e = some r → r.matched = true →
      skipSpace r.rest = r.rest ∨ r.result ≠ [])
    (token : SyntaxToken) (n : Nat) (c : Str) (acc subs : List Str) (completed : Bool)
    (rest : Str)
    (h : atLeastOneLoop (lexString U l fuel) token (n + 1) c acc = some (subs, completed, rest)) :
    (completed = false → skipSpace rest = rest) ∧
      (completed = true → skipSpace rest = rest ∨ subs ≠ []) := by
  induction n generalizing c acc with
  | zero =>
    rw [atLeastOneLoop] at h
    cases hr : lexString U l fuel c token.Ident with
    | none => rw [hr] at h; cases h
    | some r =>
      rw [hr] at h
      obtain ⟨hr1, hr2⟩ := lexString_report U l fuel c _ r hr
      simp only at h
      split_ifs at h with hc
      · simp only [Option.some.injEq, Prod.mk.injEq] at h
        obtain ⟨-, rfl, rfl⟩ := h
        have hm : r.matched = false := by
          cases hm : r.matched with
          | false => rfl
          | true => have := hr1 hm; simp [hm, this] at hc
        refine ⟨fun _ => ?_, (fun hf => by cases hf)⟩
        rw [hr2 hm, skipSpace_idem]
      · exact absurd (Nat.lt_irrefl 0) (by simpa using ‹0 < 0›)
      · simp only [atLeastOneLoop, Option.some.injEq, Prod.mk.injEq] at h
        obtain ⟨rfl, rfl, rfl⟩ := h
        have hm : r.matched = true := by
          cases hm : r.matched with
          | true => rfl
          | false => simp [hm] at hc
        refine ⟨(fun hf => by cases hf), fun _ => ?_⟩
        rcases ih c _ r hr hm with h1 | h1
        · exact Or.inl h1
        · exact Or.inr (by simp [h1])
  | succ n ihn =>
    rw [atLeastOneLoop] at h
    cases hr : lexString U l fuel c token.Ident with
    | none => rw [hr] at h; cases h
    | some r =>
      rw [hr] at h
      obtain ⟨hr1, hr2⟩ := lexString_report U l fuel c _ r hr
      simp only at h
      split_ifs at h with hc hn
      · simp only [Option.some.injEq, Prod.mk.injEq] at h
        obtain ⟨-, rfl, rfl⟩ := h
        have hm : r.matched = false := by
          cases hm : r.matched with
          | false => rfl
          | true => have := hr1 hm; simp [hm, this] at hc
        refine ⟨fun _ => ?_, (fun hf => by cases hf)⟩
        rw [hr2 hm, skipSpace_idem]
      · cases hrs : lexString U l fuel r.rest token.Separator with
        | none => rw [hrs] at h; cases h
        | some rs =>
          rw [hrs] at h
          obtain ⟨-, hs2⟩ := lexString_report U l fuel r.rest _ rs hrs
          simp only at h
          split_ifs at h with hcs
          · simp only [Option.some.injEq, Prod.mk.injEq] at h
            obtain ⟨-, rfl, rfl⟩ := h
            have hm : rs.matched = false := by
              cases hm : rs.matched with
              | false => rfl
              | true =>
                exfalso
                simp only [hm, Bool.not_true, Bool.false_or, beq_iff_eq] at hcs
                simp [hcs] at hc
            refine ⟨fun _ => ?_, (fun hf => by cases hf)⟩
            rw [hs2 hm, skipSpace_idem]
          · exact ihn _ _ h
      · exact absurd (Nat.succ_pos n) hn

/-- After a tolerant token the cursor is one the white space loop left,
unless the token matched with a capture. -/
theorem parseToken_settled (U : UnicodeTables) (l : Lexer) (fuel : Nat)
    (ih : ∀ s e r, lexString U l fuel s e = some r → r.matched = true →
      skipSpace r.rest = r.rest ∨ r.result ≠ [])
    (token : SyntaxToken) (ht : tokenTolerant token = true) (c : Str) (r : TokenResult)
    (h : parseToken (lexString U l fuel) c token = some r) :
    (r.matched = false → skipSpace r.rest = r.rest) ∧
      (r.matched = true → skipSpace r.rest = r.rest ∨ r.result ≠ []) := by
  obtain ⟨-, hk⟩ := tokenTolerant_iff token ht
  rcases hk with hk | ⟨hk, -⟩ | ⟨hk, hsn, -⟩
  · -- One
    unfold parseToken at h
    rw [hk] at h
    simp only [CardinalityOne, CardinalityOptional, CardinalityAtLeastOne, CardinalityMany,
      Int.reduceEq, if_false] at h
    cases hl : lexString U l fuel c token.Ident with
    | none => rw [hl] at h; cases h
    | some lr =>
      rw [hl] at h
      obtain ⟨h1, h2⟩ := lexString_report U l fuel c _ lr hl
      have hfail : lr.matched = false → skipSpace lr.rest = lr.rest := fun hm => by
        rw [h2 hm, skipSpace_idem]
      simp only at h
      split_ifs at h with hn
      · simp only [Option.some.injEq] at h
        subst h
        refine ⟨fun _ => hfail ?_, (fun hf => by cases hf)⟩
        cases hlm : lr.matched with
        | true => exact absurd (h1 hlm) hn
        | false => rfl
      · simp only [Option.some.injEq] at h
        subst h
        exact ⟨hfail, ih c _ lr hl⟩
  · -- Optional
    unfold parseToken at h
    rw [hk] at h
    simp only [if_true] at h
    split_ifs at h with hs
    · simp only [Option.some.injEq] at h
      subst h
      subst hs
      exact ⟨fun _ => rfl, fun _ => Or.inl rfl⟩
    · cases hl : lexString U l fuel c token.Ident with
      | none => rw [hl] at h; cases h
      | some lr =>
        rw [hl] at h
        obtain ⟨h1, h2⟩ := lexString_report U l fuel c _ lr hl
        have hfail : lr.matched = false → skipSpace lr.rest = lr.rest := fun hm => by
          rw [h2 hm, skipSpace_idem]
        simp only at h
        split_ifs at h with hn
        · simp only [Option.some.injEq] at h
          subst h
          have hlm : lr.matched = false := by
            cases hlm : lr.matched with
            | true => have := h1 hlm; omega
            | false => rfl
          exact ⟨fun _ => hfail hlm, fun _ => Or.inl (hfail hlm)⟩
        · simp only [Option.some.injEq] at h
          subst h
          exact ⟨hfail, ih c _ lr hl⟩
  · -- AtLeastOne
    rw [show token = ⟨token.Ident, CardinalityAtLeastOne, token.Separator⟩ from by
      rw [← hk], parseToken_atLeastOne_eq, splitLen_eq _ _ hsn] at h
    cases hloop : atLeastOneLoop (lexString U l fuel)
        ⟨token.Ident, CardinalityAtLeastOne, token.Separator⟩
        (countSep token.Separator c.length c + 1) c [] with
    | none => rw [hloop] at h; cases h
    | some v =>
      obtain ⟨subs, completed, rest⟩ := v
      rw [hloop] at h
      obtain ⟨h1, h2⟩ := atLeastOneLoop_settled U l fuel ih _ _ c [] subs completed rest hloop
      simp only at h
      cases completed with
      | true =>
        simp only [if_true, Option.some.injEq] at h
        subst h
        refine ⟨fun hm => ?_, fun hm => ?_⟩
        · simp only [ge_iff_le, decide_eq_false_iff_not, not_le, Nat.lt_one_iff] at hm
          rcases h2 rfl with h3 | h3
          · exact h3
          · exact absurd (List.length_eq_zero.1 hm) h3
        · simp only [ge_iff_le, decide_eq_true_eq] at hm
          exact Or.inr (fun h0 => by
            have h0' : subs = [] := h0
            rw [h0'] at hm; simp at hm)
      | false =>
        simp only [Bool.false_eq_true, if_false, Option.some.injEq] at h
        subst h
        exact ⟨fun _ => h1 rfl, (fun hf => by cases hf)⟩

theorem matchAlternatives_settled (U : UnicodeTables) (l : Lexer) (fuel : Nat)
    (ih : ∀ s e r, lexString U l fuel s e = some r → r.matched = true →
      skipSpace r.rest = r.rest ∨ r.result ≠ [])
    (tokens : List SyntaxToken) (ht : ∀ tok ∈ tokens, tokenTolerant tok = true) (c : Str)
    (ms : List Str) (rest : Str)
    (h : matchAlternatives (lexString U l fuel) tokens c = some (ms, true, rest)) :
    skipSpace rest = rest ∨ ms ≠ [] := by
  induction tokens generalizing c with
  | nil => simp [matchAlternatives] at h
  | cons tok toks iht =>
    simp only [matchAlternatives] at h
    cases hr : parseToken (lexString U l fuel) c tok with
    | none => rw [hr] at h; cases h
    | some r =>
      rw [hr] at h
      obtain ⟨-, h2⟩ := parseToken_settled U l fuel ih tok (ht tok (List.mem_cons_self _ _)) c r hr
      simp only at h
      cases hrm : r.matched with
      | true =>
        rw [hrm] at h
        simp only [if_true, Option.some.injEq, Prod.mk.injEq, true_and] at h
        obtain ⟨rfl, rfl⟩ := h
        exact h2 hrm
      | false =>
        rw [hrm] at h
        simp only [Bool.false_eq_true, if_false] at h
        exact iht (fun t htm => ht t (List.mem_cons_of_mem _ htm)) _ h

theorem matchPhrases_settled (U : UnicodeTables) (l : Lexer) (fuel : Nat)
    (ih : ∀ s e r, lexString U l fuel s e = some r → r.matched = true →
      skipSpace r.rest = r.rest ∨ r.result ≠ [])
    (strCopy : Str) (phrases : List SyntaxPhrase)
    (ht : ∀ ph ∈ phrases, ∀ tok ∈ ph.Alternatives, tokenTolerant tok = true) (c : Str)
    (acc : List Str) (pm : Bool) (hc : skipSpace c = c ∨ acc ≠ []) (r : LexResult)
    (h : matchPhrases (lexString U l fuel) strCopy phrases c acc pm = some r)
    (hm : r.matched = true) : skipSpace r.rest = r.rest ∨ r.result ≠ [] := by
  induction phrases generalizing c acc pm with
  | nil =>
    simp only [matchPhrases, Option.some.injEq] at h
    subst h
    exact hc
  | cons ph phs ihp =>
    simp only [matchPhrases] at h
    cases ha : matchAlternatives (lexString U l fuel) ph.Alternatives c with
    | none => rw [ha] at h; cases h
    | some v =>
      obtain ⟨ms, m, c1⟩ := v
      rw [ha] at h
      simp only at h
      cases m with
      | true =>
        simp only [if_true] at h
        refine ihp (fun p hp => ht p (List.mem_cons_of_mem _ hp)) c1 (acc ++ ms) true ?_ h
        rcases matchAlternatives_settled U l fuel ih ph.Alternatives
            (ht ph (List.mem_cons_self _ _)) c ms c1 ha with h1 | h1
        · exact Or.inl h1
        · exact Or.inr (by simp [h1])
      | false =>
        simp only [Bool.false_eq_true, if_false, Option.some.injEq] at h
        subst h
        cases hm

/-- In a tolerant registry, after a match the cursor is one the white space
loop left, or there is a capture. -/
theorem lexString_settled (U : UnicodeTables) (l : Lexer) (hl : registryTolerant l = true)
    (fuel : Nat) (s e : Str) (r : LexResult) (h : lexString U l fuel s e = some r)
    (hm : r.matched = true) : skipSpace r.rest = r.rest ∨ r.result ≠ [] := by
  induction fuel generalizing s e r with
  | zero =>
    by_cases h1 : HasPrefix e TermPrefix = true
    · rw [eq_termPrefix_append e h1] at h
      simp [lexString, HasPrefix, TermPrefix] at h
    · exact Or.inr (lexString_nonref_capture U l 0 s e r (by simpa using h1) h hm)
  | succ n ih =>
    by_cases h1 : HasPrefix e TermPrefix = true
    · rw [eq_termPrefix_append e h1, lexString_term_eq] at h
      unfold matchTerm at h
      cases hk : l.lookup (e.drop 1) with
      | none =>
        rw [hk] at h
        simp only [Option.some.injEq] at h
        subst h
        cases hm
      | some term =>
        rw [hk] at h
        exact matchPhrases_settled U l n ih _ term.Phrases (tolerant_tokens l hl _ term hk) _ []
          false (Or.inl (skipSpace_idem s)) r h hm
    · exact Or.inr (lexString_nonref_capture U l (n + 1) s e r (by simpa using h1) h hm)

theorem append_nil_iff {a a' b b' : List Str} (h1 : a = [] ↔ a' = []) (h2 : b = [] ↔ b' = []) :
    a ++ b = [] ↔ a' ++ b' = [] := by
  simp only [List.append_eq_nil, h1, h2]

theorem atLeastOneLoop_trails (lex : Str → Str → Option LexResult) (hsim : LexTrails lex)
    (token : SyntaxToken) (hi : isLiteralIdent token.Ident = true → spaceFree token.Ident = true)
    (hs : isLiteralIdent token.Separator = true → spaceFree token.Separator = true)
    (n : Nat) (c c' : Str) (acc acc' subs : List Str) (completed : Bool) (rest : Str)
    (htr : Trails c c') (hacc : acc = [] ↔ acc' = [])
    (h : atLeastOneLoop lex token n c acc = some (subs, completed, rest)) :
    ∃ subs' rest', atLeastOneLoop lex token n c' acc' = some (subs', completed, rest') ∧
      Trails rest rest' ∧ (subs = [] ↔ subs' = []) := by
  induction n generalizing c c' acc acc' with
  | zero =>
    simp only [atLeastOneLoop, Option.some.injEq, Prod.mk.injEq] at h
    obtain ⟨rfl, rfl, rfl⟩ := h
    exact ⟨acc', c', rfl, htr, hacc⟩
  | succ n ih =>
    rw [atLeastOneLoop] at h ⊢
    cases hr : lex c token.Ident with
    | none => rw [hr] at h; cases h
    | some r =>
      rw [hr] at h
      obtain ⟨r', hr', hm, hn, -, hrest, hres⟩ := hsim c c' _ r htr hi hr
      rw [hr']
      simp only [hm, hn] at h ⊢
      by_cases hc : (!r.matched || r.numMatched == 0) = true
      · rw [if_pos hc] at h ⊢
        simp only [Option.some.injEq, Prod.mk.injEq] at h
        obtain ⟨rfl, rfl, rfl⟩ := h
        exact ⟨acc', r'.rest, rfl, hrest, hacc⟩
      · rw [if_neg hc] at h ⊢
        by_cases hn0 : 0 < n
        · rw [if_pos hn0] at h ⊢
          cases hrs : lex r.rest token.Separator with
          | none => rw [hrs] at h; cases h
          | some rs =>
            rw [hrs] at h
            obtain ⟨rs', hrs', hsm, -, -, hsrest, -⟩ := hsim r.rest r'.rest _ rs hrest hs hrs
            rw [hrs']
            simp only [hsm] at h ⊢
            by_cases hcs : (!rs.matched || r.numMatched == 0) = true
            · rw [if_pos hcs] at h ⊢
              simp only [Option.some.injEq, Prod.mk.injEq] at h
              obtain ⟨rfl, rfl, rfl⟩ := h
              exact ⟨_, _, rfl, hsrest, append_nil_iff hacc hres⟩
            · rw [if_neg hcs] at h ⊢
              exact ih _ _ _ _ hsrest (append_nil_iff hacc hres) h
        · rw [if_neg hn0] at h ⊢
          exact ih _ _ _ _ hrest (append_nil_iff hacc hres) h

/-- A tolerant token reports the same on a cursor followed by ASCII white
space; its captures are both absent or both present, unless the cursor with
the white space is not one the white space loop left. -/
theorem parseToken_trails (U : UnicodeTables) (l : Lexer) (fuel : Nat)
    (hsim : LexTrails (lexString U l fuel)) (token : SyntaxToken)
    (ht : tokenTolerant token = true) (c c' : Str) (htr : Trails c c') (r : TokenResult)
    (h : parseToken (lexString U l fuel) c token = some r) :
    ∃ r', parseToken (lexString U l fuel) c' token = some r' ∧ r'.matched = r.matched ∧
      Trails r.rest r'.rest ∧ ((r.result = [] ↔ r'.result = []) ∨ skipSpace c' ≠ c') := by
  obtain ⟨hi, hk⟩ := tokenTolerant_iff token ht
  rcases hk with hk | ⟨hk, hlit⟩ | ⟨hk, hsn, hsf⟩
  · -- One
    unfold parseToken at h ⊢
    rw [hk] at h ⊢
    simp only [CardinalityOne, CardinalityOptional, CardinalityAtLeastOne, CardinalityMany,
      Int.reduceEq, if_false] at h ⊢
    cases hl : lexString U l fuel c token.Ident with
    | none => rw [hl] at h; cases h
    | some lr =>
      rw [hl] at h
      obtain ⟨lr', hl', hm, hn, -, hrest, hres⟩ := hsim c c' _ lr htr hi hl
      rw [hl']
      simp only [hn, hm] at h ⊢
      split_ifs at h ⊢ with hc
      · simp only [Option.some.injEq] at h
        subst h
        exact ⟨_, rfl, rfl, hrest, Or.inl hres⟩
      · simp only [Option.some.injEq] at h
        subst h
        exact ⟨_, rfl, rfl, hrest, Or.inl hres⟩
  · -- Optional over a literal
    obtain ⟨y, hy, rfl⟩ := htr
    unfold parseToken at h ⊢
    rw [hk] at h ⊢
    simp only [if_true] at h ⊢
    by_cases hc : c = []
    · subst hc
      simp only [if_true, Option.some.injEq] at h
      subst h
      by_cases hy0 : y = []
      · subst hy0
        exact ⟨_, by simp, rfl, trails_refl _, Or.inl Iff.rfl⟩
      · have hne : ([] : Str) ++ y ≠ [] := by simpa using hy0
        have hunst : skipSpace ([] ++ y) ≠ [] ++ y := by
          rw [List.nil_append, skipSpace_space y hy]
          exact fun hh => hy0 hh.symm
        simp only [isLiteralIdent, Bool.and_eq_true, Bool.not_eq_true'] at hlit
        rw [if_neg hne, lexString_of_space U l fuel [] y _ hy rfl,
          lexString_literal_eq U l fuel [] _ hlit.1 hlit.2]
        split_ifs with hp
        · exact ⟨_, rfl, rfl, by simpa [skipSpace] using trails_refl [], Or.inr hunst⟩
        · exact ⟨_, rfl, rfl, by simpa [skipSpace] using trails_refl [], Or.inr hunst⟩
    · have hne : c ++ y ≠ [] := by simp [hc]
      rw [if_neg hc] at h
      rw [if_neg hne]
      cases hl : lexString U l fuel c token.Ident with
      | none => rw [hl] at h; cases h
      | some lr =>
        rw [hl] at h
        obtain ⟨lr', hl', hm, hn, hpm, hrest, hres⟩ := hsim c (c ++ y) _ lr ⟨y, hy, rfl⟩ hi hl
        rw [hl']
        simp only [hn, hm, hpm] at h ⊢
        split_ifs at h ⊢ with hc0
        · simp only [Option.some.injEq] at h
          subst h
          exact ⟨_, rfl, rfl, hrest, Or.inl hres⟩
        · simp only [Option.some.injEq] at h
          subst h
          exact ⟨_, rfl, rfl, hrest, Or.inl hres⟩
  · -- AtLeastOne
    have htok : token = ⟨token.Ident, CardinalityAtLeastOne, token.Separator⟩ := by rw [← hk]
    rw [htok, parseToken_atLeastOne_eq] at h ⊢
    rw [splitLen_trails c c' _ htr hsn hsf]
    cases hloop : atLeastOneLoop (lexString U l fuel)
        ⟨token.Ident, CardinalityAtLeastOne, token.Separator⟩
        (splitLen c token.Separator) c [] with
    | none => rw [hloop] at h; cases h
    | some v =>
      obtain ⟨subs, completed, rest⟩ := v
      rw [hloop] at h
      obtain ⟨subs', rest', hloop', hrest, hres⟩ := atLeastOneLoop_trails _ hsim
        ⟨token.Ident, CardinalityAtLeastOne, token.Separator⟩ hi
        (fun _ => hsf) _ c c' [] [] subs completed rest htr Iff.rfl hloop
      rw [hloop']
      simp only at h ⊢
      cases completed with
      | true =>
        simp only [if_true, Option.some.injEq] at h ⊢
        subst h
        refine ⟨_, rfl, ?_, hrest, Or.inl hres⟩
        simp only [ge_iff_le, decide_eq_decide, Nat.one_le_iff_ne_zero, ne_eq,
          List.length_eq_zero]
        exact not_congr hres.symm
      | false =>
        simp only [Bool.false_eq_true, if_false, Option.some.injEq] at h ⊢
        subst h
        exact ⟨_, rfl, rfl, hrest, Or.inl hres⟩

theorem matchAlternatives_trails (U : UnicodeTables) (l : Lexer) (hl : registryTolerant l = true)
    (fuel : Nat) (hsim : LexTrails (lexString U l fuel)) (tokens : List SyntaxToken)
    (ht : ∀ tok ∈ tokens, tokenTolerant tok = true) (c c' : Str) (htr : Trails c c')
    (ms : List Str) (m : Bool) (rest : Str)
    (h : matchAlternatives (lexString U l fuel) tokens c = some (ms, m, rest)) :
    ∃ ms' rest', matchAlternatives (lexString U l fuel) tokens c' = some (ms', m, rest') ∧
      Trails rest rest' ∧ (m = true → (ms = [] ↔ ms' = []) ∨ skipSpace c' ≠ c') := by
  induction tokens generalizing c c' with
  | nil =>
    simp only [matchAlternatives, Option.some.injEq, Prod.mk.injEq] at h ⊢
    obtain ⟨rfl, rfl, rfl⟩ := h
    exact ⟨[], c', ⟨rfl, rfl, rfl⟩, htr, (fun hf => by cases hf)⟩
  | cons tok toks ih =>
    simp only [matchAlternatives] at h ⊢
    cases hr : parseToken (lexString U l fuel) c tok with
    | none => rw [hr] at h; cases h
    | some r =>
      rw [hr] at h
      obtain ⟨r', hr', hm, hrest, hres⟩ := parseToken_trails U l fuel hsim tok
        (ht tok (List.mem_cons_self _ _)) c c' htr r hr
      rw [hr']
      simp only [hm] at h ⊢
      cases hrm : r.matched with
      | true =>
        rw [hrm] at h
        simp only [if_true, Option.some.injEq, Prod.mk.injEq] at h ⊢
        obtain ⟨rfl, rfl, rfl⟩ := h
        exact ⟨_, _, ⟨rfl, rfl, rfl⟩, hrest, fun _ => hres⟩
      | false =>
        rw [hrm] at h
        simp only [Bool.false_eq_true, if_false] at h ⊢
        obtain ⟨ms', rest', h1, h2, h3⟩ := ih (fun t htm => ht t (List.mem_cons_of_mem _ htm))
          r.rest r'.rest hrest h
        refine ⟨ms', rest', h1, h2, fun hmt => ?_⟩
        have hst := (parseToken_settled U l fuel
          (fun s e r0 => lexString_settled U l hl fuel s e r0) tok
          (ht tok (List.mem_cons_self _ _)) c' r' hr').1 (by rw [hm, hrm])
        rcases h3 hmt with h4 | h4
        · exact Or.inl h4
        · exact absurd hst h4

theorem matchPhrases_trails (U : UnicodeTables) (l : Lexer) (hl : registryTolerant l = true)
    (fuel : Nat) (hsim : LexTrails (lexString U l fuel)) (strCopy strCopy' : Str)
    (hcopy : Trails strCopy strCopy') (phrases : List SyntaxPhrase)
    (ht : ∀ ph ∈ phrases, ∀ tok ∈ ph.Alternatives, tokenTolerant tok = true) (c c' : Str)
    (htr : Trails c c') (acc acc' : List Str) (pm : Bool) (hacc : acc = [] ↔ acc' = [])
    (hst : skipSpace c' = c' ∨ acc' ≠ []) (r : LexResult)
    (h : matchPhrases (lexString U l fuel) strCopy phrases c acc pm = some r) :
    ∃ r', matchPhrases (lexString U l fuel) strCopy' phrases c' acc' pm = some r' ∧
      SameOutcome r r' := by
  induction phrases generalizing c c' acc acc' pm with
  | nil =>
    simp only [matchPhrases, Option.some.injEq] at h ⊢
    subst h
    exact ⟨_, rfl, rfl, rfl, rfl, htr, hacc⟩
  | cons ph phs ih =>
    simp only [matchPhrases] at h ⊢
    cases ha : matchAlternatives (lexString U l fuel) ph.Alternatives c with
    | none => rw [ha] at h; cases h
    | some v =>
      obtain ⟨ms, m, c1⟩ := v
      rw [ha] at h
      obtain ⟨ms', c1', ha', hrest, hres⟩ := matchAlternatives_trails U l hl fuel hsim
        ph.Alternatives (ht ph (List.mem_cons_self _ _)) c c' htr ms m c1 ha
      rw [ha']
      simp only at h ⊢
      cases m with
      | true =>
        simp only [if_true] at h ⊢
        refine ih (fun p hp => ht p (List.mem_cons_of_mem _ hp)) c1 c1' hrest (acc ++ ms)
          (acc' ++ ms') true ?_ ?_ h
        · rcases hres rfl with h1 | h1
          · exact append_nil_iff hacc h1
          · have h2 : acc' ≠ [] := by
              rcases hst with h3 | h3
              · exact absurd h3 h1
              · exact h3
            have h4 : acc ≠ [] := fun h5 => h2 (hacc.1 h5)
            simp [h2, h4]
        · rcases matchAlternatives_settled U l fuel
            (fun s e r0 => lexString_settled U l hl fuel s e r0) ph.Alternatives
            (ht ph (List.mem_cons_self _ _)) c' ms' c1' ha' with h1 | h1
          · exact Or.inl h1
          · exact Or.inr (by simp [h1])
      | false =>
        simp only [Bool.false_eq_true, if_false, Option.some.injEq] at h ⊢
        subst h
        exact ⟨_, rfl, rfl, rfl, rfl, hcopy, hacc⟩

/-- In a tolerant registry `lexString` reports the same on a cursor followed
by ASCII white space, whatever the fuel. -/
theorem lexString_trails (U : UnicodeTables) (l : Lexer) (hl : registryTolerant l = true)
    (fuel : Nat) : LexTrails (lexString U l fuel) := by
  induction fuel with
  | zero =>
    rintro c c' e r ⟨y, hy, rfl⟩ he h
    by_cases h1 : HasPrefix e TermPrefix = true
    · rw [eq_termPrefix_append e h1] at h
      simp [lexString, HasPrefix, TermPrefix] at h
    · exact lexString_nonref_trails U l 0 c y e r hy (by simpa using h1) he h
  | succ n ih =>
    rintro c c' e r ⟨y, hy, rfl⟩ he h
    by_cases h1 : HasPrefix e TermPrefix = true
    · by_cases hs : skipSpace c = []
      · exact ⟨r, by rw [lexString_of_space U l (n + 1) c y e hy hs, h], sameOutcome_refl r⟩
      · have hsk : skipSpace (c ++ y) = skipSpace c ++ y := by
          rw [skipSpace_append_space c y hy, if_neg hs]
        have hst : skipSpace (skipSpace c ++ y) = skipSpace c ++ y := by
          rw [← hsk, skipSpace_idem]
        have htr : Trails (skipSpace c) (skipSpace c ++ y) := ⟨y, hy, rfl⟩
        rw [eq_termPrefix_append e h1, lexString_term_eq] at h ⊢
        rw [hsk]
        unfold matchTerm at h ⊢
        cases hk : l.lookup (e.drop 1) with
        | none =>
          rw [hk] at h
          simp only [Option.some.injEq] at h ⊢
          subst h
          exact ⟨_, rfl, rfl, rfl, rfl, htr, Iff.rfl⟩
        | some term =>
          rw [hk] at h
          exact matchPhrases_trails U l hl n ih _ _ htr term.Phrases
            (tolerant_tokens l hl _ term hk) _ _ htr [] [] false Iff.rfl (Or.inl hst) r h
    · exact lexString_nonref_trails U l (n + 1) c y e r hy (by simpa using h1) he h

/-- C16 (amended): trailing ASCII white space is tolerated by tolerant
registries.  Let every token of the registry be of cardinality One, or
Optional over a literal, or AtLeastOne with a non-empty separator that holds
no ASCII white space, and let no literal identifier hold ASCII white space.
For every rule expression `e`, input `s` and string `w` of ASCII white space
characters (tab, line feed, vertical tab, form feed, carriage return, space),
if `MatchString(s, e)` returns matched = true then so does
`MatchString(s ++ w, e)`. -/
theorem trailing_space_tolerated (U : UnicodeTables) (l : Lexer) (fuel : Nat) (s e w : Str)
    (caps : List Str) (hl : registryTolerant l = true) (hw : w.all isAsciiSpace = true)
    (h : MatchString U l fuel s e = some (caps, true)) :
    ∃ caps', MatchString U l fuel (s ++ w) e = some (caps', true) := by
  unfold MatchString at h ⊢
  cases hr : lexString U l fuel s e with
  | none => rw [hr] at h; cases h
  | some r =>
    rw [hr] at h
    simp only [Option.map_some', Option.some.injEq, Prod.mk.injEq, Bool.and_eq_true] at h
    obtain ⟨-, hm, ht⟩ := h
    by_cases hlit : isLiteralIdent e = true
    · obtain ⟨r', hr', hm', hrest⟩ := lexString_literal_trails U l fuel s w e r hw hlit hr hm
      exact ⟨r'.result, by simp [hr', hm', trimSpaceIsEmpty_trails _ _ hrest ht]⟩
    · obtain ⟨r', hr', hm', -, -, hrest, -⟩ := lexString_trails U l hl fuel s (s ++ w) e r
        ⟨w, hw, rfl⟩ (fun hh => absurd hh hlit) hr
      exact ⟨r'.result, by simp [hr', hm', hm, trimSpaceIsEmpty_trails _ _ hrest ht]⟩

/-- C16 (witness): the rule `atLeastOneFoo` of the test grammar matches
`foo,foo`, hence also `foo,foo` followed by a space and a tab. -/
theorem trailing_space_tolerated_witness :
    ∃ caps', MatchString latin1Tables
      (NewLexer.AddTerm ⟨[⟨[⟨ascii "foo", CardinalityAtLeastOne, ascii ","⟩]⟩]⟩
        (ascii "atLeastOneFoo")) 1 (ascii "foo,foo" ++ ascii " \t")
      (ascii "$atLeastOneFoo") = some (caps', true) :=
  trailing_space_tolerated latin1Tables
    (NewLexer.AddTerm ⟨[⟨[⟨ascii "foo", CardinalityAtLeastOne, ascii ","⟩]⟩]⟩
      (ascii "atLeastOneFoo")) 1 (ascii "foo,foo") (ascii "$atLeastOneFoo") (ascii " \t")
    [ascii "foo", ascii "foo"] (by decide) (by decide) (by decide)

/-- C16 (counterexample): inputs that match and no longer match once a space
is appended.  `fooManyBar` matches `foo` and not `foo` with a space: a Many
token succeeds at the very end of the input, before any white space is
skipped, and after the space it looks for an element and fails.  The optional
rule `X` is not tried at the end of the input, and after a space it fails with
a partial match, which makes the Optional token fail.  With the literals
`ab ` and `a` as alternatives, `ab` is matched as `a`, `b`, and on `ab` with a
space the first alternative takes all and `b` is missing.  An AtLeastOne token
with the empty separator or with the separator ` ` finds one piece in `a` and
two in `a` with a space.  And `fooOptionalBar` matches `foo` and not `foo`
followed by the white space character U+00A0 (bytes C2 A0), of which the white
space loop removes one byte. -/
theorem trailing_space_changes_match :
    (MatchString latin1Tables fooManyBar 1 (ascii "foo") (ascii "$fooManyBar") =
        some ([ascii "foo"], true) ∧
      MatchString latin1Tables fooManyBar 1 (ascii "foo" ++ ascii " ") (ascii "$fooManyBar") =
        some ([ascii "foo"], false)) ∧
    (MatchString latin1Tables fooOptionalRule 2 (ascii "foo") (ascii "$T") =
        some ([ascii "foo"], true) ∧
      MatchString latin1Tables fooOptionalRule 2 (ascii "foo" ++ ascii " ") (ascii "$T") =
        some ([ascii "foo"], false)) ∧
    (MatchString latin1Tables literalWithSpace 1 (ascii "ab") (ascii "$T") =
        some ([ascii "a", ascii "b"], true) ∧
      MatchString latin1Tables literalWithSpace 1 (ascii "ab" ++ ascii " ") (ascii "$T") =
        some ([ascii "ab "], false)) ∧
    (MatchString latin1Tables (atLeastOneA []) 1 (ascii "a") (ascii "$T") =
        some ([ascii "a"], true) ∧
      MatchString latin1Tables (atLeastOneA []) 1 (ascii "a" ++ ascii " ") (ascii "$T") =
        some ([], false)) ∧
    (MatchString latin1Tables (atLeastOneA (ascii " ")) 1 (ascii "a") (ascii "$T") =
        some ([ascii "a"], true) ∧
      MatchString latin1Tables (atLeastOneA (ascii " ")) 1 (ascii "a" ++ ascii " ")
        (ascii "$T") = some ([], false)) ∧
    (runesOf [0xC2, 0xA0] = [0xA0] ∧ IsSpace 0xA0 = true ∧
      MatchString latin1Tables fooOptionalBar 1 (ascii "foo") (ascii "$fooOptionalBar") =
        some ([ascii "foo"], true) ∧
      MatchString latin1Tables fooOptionalBar 1 (ascii "foo" ++ [0xC2, 0xA0])
        (ascii "$fooOptionalBar") = some ([ascii "foo"], false)) := by
  refine ⟨⟨?_, ?_⟩, ⟨?_, ?_⟩, ⟨?_, ?_⟩, ⟨?_, ?_⟩, ⟨?_, ?_⟩, ?_, ?_, ?_, ?_⟩ <;> decide

/-! ## Literals and built-ins behind multi-byte white space -/

/-- When the leading white space of the input is ASCII, the cursor the white
space loop of `lexString` leaves is the input without its leading white
space. -/
theorem skipSpace_ascii_leading (w x : Str) (hw : w.all isAsciiSpace = true)
    (hx : x = [] ∨ IsSpace (DecodeRuneInString x).1 = false) :
    skipSpace (w ++ x) = x ∧ dropLeadingSpace (w ++ x) = x := by
  constructor
  · rw [skipSpace_ws_append _ _ hw, skipSpace_eq_self hx]
  · exact trimLeftSpace_ws_append w x hw hx _ (by simp)

/-- C2 (the code at the failing input): the input is the white space
character U+2003 (bytes E2 80 83) followed by `foo`, the identifier is the
literal `foo`.  The input after its leading white space is `foo`, which
starts with the literal, but `lexString` reports no match, no capture and
match count 0, and the cursor it leaves is 80 83 `foo`, not `foo`: the white
space loop has removed one byte of the character.  Behind an ASCII space the
same literal is found. -/
theorem literal_behind_multibyte_space_not_found :
    runesOf [0xE2, 0x80, 0x83] = [0x2003] ∧ IsSpace 0x2003 = true ∧
    dropLeadingSpace ([0xE2, 0x80, 0x83] ++ ascii "foo") = ascii "foo" ∧
    literalOf (ascii "foo") <+: dropLeadingSpace ([0xE2, 0x80, 0x83] ++ ascii "foo") ∧
    lexString latin1Tables NewLexer 0 ([0xE2, 0x80, 0x83] ++ ascii "foo") (ascii "foo") =
      some ⟨[], 0, false, false, [0x80, 0x83] ++ ascii "foo"⟩ ∧
    lexString latin1Tables NewLexer 0 (ascii " foo") (ascii "foo") =
      some ⟨[ascii "foo"], 1, true, true, []⟩ := by
  decide

/-- C7 (the code at the failing input): the term `T` has the single phrase
with the One-cardinality literal alternatives `foo`, `bar`; the input is the
white space character U+00A0 (bytes C2 A0) followed by `bar`.  The input after
its leading white space is `bar`, of which the alternative `bar` is a prefix,
but `lexString(input, "$T")` reports no match and no capture and leaves the
cursor on A0 `bar`, and `MatchString` returns matched = false: the white space
loop has removed one byte of the character.  Behind an ASCII space the
alternative `bar` is found. -/
theorem alternation_behind_multibyte_space_fails :
    runesOf [0xC2, 0xA0] = [0xA0] ∧ IsSpace 0xA0 = true ∧
    dropLeadingSpace ([0xC2, 0xA0] ++ ascii "bar") = ascii "bar" ∧
    ascii "bar" <+: dropLeadingSpace ([0xC2, 0xA0] ++ ascii "bar") ∧
    lexString latin1Tables
      (NewLexer.AddTerm ⟨[⟨[⟨ascii "foo", CardinalityOne, []⟩,
        ⟨ascii "bar", CardinalityOne, []⟩]⟩]⟩ (ascii "T")) 1
      ([0xC2, 0xA0] ++ ascii "bar") (TermPrefix ++ ascii "T") =
      some ⟨[], 0, false, false, [0xA0] ++ ascii "bar"⟩ ∧
    MatchString latin1Tables
      (NewLexer.AddTerm ⟨[⟨[⟨ascii "foo", CardinalityOne, []⟩,
        ⟨ascii "bar", CardinalityOne, []⟩]⟩]⟩ (ascii "T")) 1
      ([0xC2, 0xA0] ++ ascii "bar") (TermPrefix ++ ascii "T") = some ([], false) ∧
    lexString latin1Tables
      (NewLexer.AddTerm ⟨[⟨[⟨ascii "foo", CardinalityOne, []⟩,
        ⟨ascii "bar", CardinalityOne, []⟩]⟩]⟩ (ascii "T")) 1
      (ascii " bar") (TermPrefix ++ ascii "T") =
      some ⟨[ascii "bar"], 1, true, true, []⟩ := by
  decide

/-- C8 (the code at the failing input): the input is the white space
character U+00A0 (bytes C2 A0) followed by the digit `5`.  The input after its
leading white space is `5`, which starts with a decimal digit, but
`lexString(input, "!int")` reports no match, with one empty capture, and
leaves the cursor on A0 `5`: the white space loop has removed one byte of the
character.  Behind an ASCII space the `5` is matched. -/
theorem int_behind_multibyte_space_fails :
    runesOf [0xC2, 0xA0] = [0xA0] ∧ IsSpace 0xA0 = true ∧
    dropLeadingSpace [0xC2, 0xA0, 0x35] = [0x35] ∧
    IsDigit latin1Tables (DecodeRuneInString (dropLeadingSpace [0xC2, 0xA0, 0x35])).1 = true ∧
    lexString latin1Tables NewLexer 0 [0xC2, 0xA0, 0x35] (ascii "!int") =
      some ⟨[[]], 1, false, false, [0xA0, 0x35]⟩ ∧
    lexString latin1Tables NewLexer 0 (ascii " 5") (ascii "!int") =
      some ⟨[ascii "5"], 1, true, true, []⟩ := by
  decide

/-- C9 (the code at the failing input): the input is the white space
character U+00A0 (bytes C2 A0) followed by the letter `x`.  The first
character of the input after its leading white space is a letter, but
`lexString(input, "!label")` reports no match, with one empty capture, and
leaves the cursor on A0 `x`: the white space loop has removed one byte of the
character.  Behind an ASCII space the label `x` is matched. -/
theorem label_behind_multibyte_space_fails :
    runesOf [0xC2, 0xA0] = [0xA0] ∧ IsSpace 0xA0 = true ∧
    dropLeadingSpace [0xC2, 0xA0, 0x78] = [0x78] ∧
    isLabelStartRune latin1Tables
      (DecodeRuneInString (dropLeadingSpace [0xC2, 0xA0, 0x78])).1 = true ∧
    lexString latin1Tables NewLexer 0 [0xC2, 0xA0, 0x78] (ascii "!label") =
      some ⟨[[]], 1, false, false, [0xA0, 0x78]⟩ ∧
    lexString latin1Tables NewLexer 0 (ascii " x") (ascii "!label") =
      some ⟨[ascii "x"], 1, true, true, []⟩ := by
  decide

end PurpLexer
